import Mathlib

/-!
# life3d-mpi: sparse 3D Game of Life

A shallow embedding of `src/life3d-mpi.cpp` and the properties of its
column store, sparse grid, block partition and generation stepper.

Conventions of the embedding.

* `short` and `int` values are `Int`; `size_t` values are `Nat`.  C integer
  division truncates toward zero and is `Int.tdiv`.  The grid side is a
  `short`, so with at most as many workers as the side every product formed
  by the block operations stays below `2^31` (`block_products_fit_int`) and
  `pos_mod` with a positive modulus returns a value that fits a `short`
  (`pos_mod_fits_short`).  Where the worker count is not bounded by the side
  the block operations are taken in 32-bit arithmetic (`to_int`,
  `BLOCK_SIZE_int`); they agree with the unbounded ones while `p * n` fits
  (`BLOCK_SIZE_int_eq`).
* The discovery pass passes `z + 1` and `z - 1` to the `short` parameter of
  `pos_mod`.  The conversion is exact for a depth between `-32767` and
  `32766`, in particular for every depth of `[0, side)`; the properties of
  the stepper are stated for such depths (`grid_ok`, `depths_fit_short`).
* `da_find_z` returns its `size_t` slot index as an `int`; the conversion is
  taken as exact, that is, a column holds fewer than `2^31` records.
* The heap block behind `da->data` is a total map from slot index to record;
  only the first `used` slots are meaningful (`da_records`).  `realloc` keeps
  the stored records, so `da_resize` changes `size` only.
* `m->data` is a map from the flat index `x + y * side` to an optional column
  (`none` is the `NULL` pointer written by `calloc`).
* A `struct node*` into a column is a pair (flat column index, slot).
-/

namespace Life3d

/-! ## Block partition (the `BLOCK_*` definitions of lines 11-14) -/

/-- `BLOCK_LOW(id, p, n) = id * n / p`, over the integers: the value of the
`int` expression while `id * n` fits (`BLOCK_LOW_int_eq`). -/
def BLOCK_LOW (id p n : Int) : Int := Int.tdiv (id * n) p

/-- `BLOCK_HIGH(id, p, n) = BLOCK_LOW(id + 1, p, n) - 1`. -/
def BLOCK_HIGH (id p n : Int) : Int := BLOCK_LOW (id + 1) p n - 1

/-- `BLOCK_SIZE(id, p, n) = BLOCK_HIGH(id, p, n) - BLOCK_LOW(id, p, n) + 1`. -/
def BLOCK_SIZE (id p n : Int) : Int := BLOCK_HIGH id p n - BLOCK_LOW id p n + 1

/-- `BLOCK_OWNER(index, p, n) = (p * (index + 1) - 1) / n`. -/
def BLOCK_OWNER (index p n : Int) : Int := Int.tdiv (p * (index + 1) - 1) n

/-! ## Block partition in `int` arithmetic -/

/-- The value an `int` expression takes when its mathematical result is `v`:
the 32-bit two's-complement representative, which is `v` itself whenever
`-2^31 ≤ v < 2^31`. -/
def to_int (v : Int) : Int := (v + 2147483648) % 4294967296 - 2147483648

/-- `BLOCK_LOW(id, p, n)` with the product `id * n` formed in `int`. -/
def BLOCK_LOW_int (id p n : Int) : Int := to_int (Int.tdiv (to_int (id * n)) p)

/-- `BLOCK_HIGH(id, p, n)` in `int` arithmetic. -/
def BLOCK_HIGH_int (id p n : Int) : Int := to_int (BLOCK_LOW_int (to_int (id + 1)) p n - 1)

/-- `BLOCK_SIZE(id, p, n)` in `int` arithmetic. -/
def BLOCK_SIZE_int (id p n : Int) : Int :=
  to_int (to_int (BLOCK_HIGH_int id p n - BLOCK_LOW_int id p n) + 1)

/-! ## Toroidal wrap -/

/-- `pos_mod(val, mod)`: one conditional subtraction or addition of `mod`. -/
def pos_mod (val mod : Int) : Int :=
  if val ≥ mod then val - mod
  else if val < 0 then val + mod
  else val

/-! ## Column store (`struct node`, `dynamic_array`, lines 16-170) -/

/-- `struct node`: depth, scratch neighbour count, dead flag. -/
structure node where
  z : Int
  num_neighbours : Int
  is_dead : Bool
deriving DecidableEq

/-- `dynamic_array`.  The field `step` is the constant `sizeof(struct node)` and
is left out; `data` maps a slot index to the record stored there. -/
structure dynamic_array where
  initial_size : Nat
  data : Nat → node
  used : Nat
  size : Nat

/-- `MAX(a, b)`. -/
def MAX (a b : Nat) : Nat := if a > b then a else b

/-- `da_init`: a fresh block of `initial_size` slots, none used. -/
def da_init (initial_size : Nat) : dynamic_array :=
  { initial_size := initial_size
    data := fun _ => { z := 0, num_neighbours := 0, is_dead := false }
    used := 0
    size := initial_size }

/-- `da_make`. -/
def da_make (initial_size : Nat) : dynamic_array := da_init (MAX 4 initial_size)

/-- `da_make_ptr`: as `da_make`, the array itself living on the heap. -/
def da_make_ptr (initial_size : Nat) : dynamic_array := da_init (MAX 4 initial_size)

/-- `da_resize`: `realloc` keeps the stored records. -/
def da_resize (da : dynamic_array) (new_size : Nat) : dynamic_array :=
  { da with size := new_size }

/-- `da_insert`: double the capacity when full, then store at slot `used`. -/
def da_insert (da : dynamic_array) (to_insert : node) : dynamic_array :=
  let da1 := if da.used = da.size then da_resize da (da.size * 2) else da
  { da1 with data := Function.update da1.data da1.used to_insert, used := da1.used + 1 }

/-- `da_delete_at`: an index `i >= used` is reported and ignored; otherwise the
last record is copied over slot `i` and the capacity halves when
`size > initial_size` and `used <= size / 4`. -/
def da_delete_at (da : dynamic_array) (i : Nat) : dynamic_array :=
  if i ≥ da.used then da
  else
    let da1 : dynamic_array :=
      { da with used := da.used - 1, data := Function.update da.data i (da.data (da.used - 1)) }
    if da1.size > da1.initial_size ∧ da1.used ≤ da1.size / 4 then da_resize da1 (da1.size / 2)
    else da1

/-- The loop of `da_find_z`: `n` iterations remain, the next slot is `i`. -/
def da_find_z_loop (da : dynamic_array) (test_z : Int) : Nat → Nat → Int
  | 0, _ => -1
  | n + 1, i => if (da.data i).z = test_z then (i : Int) else da_find_z_loop da test_z n (i + 1)

/-- `da_find_z`: the first slot below `used` whose record has depth `test_z`,
or `-1`. -/
def da_find_z (da : dynamic_array) (test_z : Int) : Int :=
  da_find_z_loop da test_z da.used 0

/-- The records a column holds: slots `0 .. used - 1`, in slot order. -/
def da_records (da : dynamic_array) : List node := (List.range da.used).map da.data

/-- The depths of a column, in slot order. -/
def da_depths (da : dynamic_array) : List Int := (da_records da).map (fun nd => nd.z)

/-- A call of one of the two mutating column operations. -/
inductive da_op where
  | insert (to_insert : node)
  | delete_at (i : Nat)

/-- Run one call. -/
def da_apply (da : dynamic_array) : da_op → dynamic_array
  | .insert to_insert => da_insert da to_insert
  | .delete_at i => da_delete_at da i

/-- Run a finite sequence of calls, first to last. -/
def da_run (da : dynamic_array) (ops : List da_op) : dynamic_array := ops.foldl da_apply da

/-! ## Sparse grid (`Matrix`, lines 175-258) -/

/-- `Matrix`: side and the `calloc`-ed table of optional columns. -/
structure Matrix where
  side : Int
  data : Int → Option dynamic_array

/-- `make_matrix`: every entry of the table is `NULL`. -/
def make_matrix (side : Int) : Matrix := { side := side, data := fun _ => none }

/-- `matrix_get`: the column at flat index `x + y * side`, possibly `NULL`. -/
def matrix_get (m : Matrix) (x y : Int) : Option dynamic_array := m.data (x + y * m.side)

/-- A `struct node*` into a column: flat column index and slot. -/
structure node_ptr where
  col : Int
  slot : Nat
deriving DecidableEq

/-- `matrix_get_ele`: pointer to the record at `(x, y, z)`, `NULL` if there is
none. -/
def matrix_get_ele (m : Matrix) (x y z : Int) : Option node_ptr :=
  match matrix_get m x y with
  | none => none
  | some da =>
    let pos := da_find_z da z
    if pos = -1 then none else some { col := x + y * m.side, slot := pos.toNat }

/-- `matrix_insert`: create the column if it is `NULL`, then `da_insert`. -/
def matrix_insert (m : Matrix) (x y z : Int) (is_dead : Bool) (num_nei : Int) : Matrix :=
  let new_el : node := { z := z, num_neighbours := num_nei, is_dead := is_dead }
  let da := match matrix_get m x y with
    | none => da_make_ptr 4
    | some da => da
  { m with data := Function.update m.data (x + y * m.side) (some (da_insert da new_el)) }

/-- `matrix_remove`: nothing happens when the column or the depth is absent. -/
def matrix_remove (m : Matrix) (x y z : Int) : Matrix :=
  match matrix_get m x y with
  | none => m
  | some da =>
    let pos := da_find_z da z
    if pos ≠ -1 then
      { m with data := Function.update m.data (x + y * m.side) (some (da_delete_at da pos.toNat)) }
    else m

/-- `std::sort` with `node::operator<`: the records in ascending depth.  The
printed depths depend only on the multiset of depths, so any sorting function
gives the same lines. -/
def std_sort (l : List node) : List node := l.insertionSort (fun a b => a.z ≤ b.z)

/-- `matrix_print_live`: the printed lines, as triples, in print order.  The
sort rearranges the column in place; the grid is not read again afterwards, so
only the output is kept. -/
def matrix_print_live (m : Matrix) : List (Int × Int × Int) :=
  (List.range m.side.toNat).flatMap fun i =>
    (List.range m.side.toNat).flatMap fun j =>
      match matrix_get m i j with
      | none => []
      | some da => (std_sort (da_records da)).map fun nd => ((i : Int), (j : Int), nd.z)

/-- The input loop of `main` (lines 338-342): one `matrix_insert` per triple
read, live and with neighbour count `-1`. -/
def load (side : Int) (cells : List (Int × Int × Int)) : Matrix :=
  cells.foldl (fun m c => matrix_insert m c.1 c.2.1 c.2.2 false (-1)) (make_matrix side)

/-- The capacity invariant of a column: the used count is within the capacity,
and the capacity is the initial size doubled some number of times. -/
def da_cap_inv (da : dynamic_array) : Prop :=
  da.used ≤ da.size ∧ 1 ≤ da.initial_size ∧ ∃ k : Nat, da.size = da.initial_size * 2 ^ k

/-- The depths stored at column `(x, y)`; a `NULL` column stores none. -/
def column_depths (m : Matrix) (x y : Int) : List Int :=
  match matrix_get m x y with
  | none => []
  | some da => da_depths da

/-- Strict lexicographic order on triples: `x`, then `y`, then `z`. -/
def triple_lt (a b : Int × Int × Int) : Prop :=
  a.1 < b.1 ∨ (a.1 = b.1 ∧ (a.2.1 < b.2.1 ∨ (a.2.1 = b.2.1 ∧ a.2.2 < b.2.2)))

/-! ## Generation stepper (the loop of `main`, lines 445-589) -/

/-- Read through a `struct node*`. -/
def ptr_read (m : Matrix) (p : node_ptr) : node :=
  match m.data p.col with
  | none => { z := 0, num_neighbours := 0, is_dead := false }
  | some da => da.data p.slot

/-- Write through a `struct node*`. -/
def ptr_write (m : Matrix) (p : node_ptr) (nd : node) : Matrix :=
  match m.data p.col with
  | none => m
  | some da =>
    { m with data :=
        Function.update m.data p.col (some { da with data := Function.update da.data p.slot nd }) }

/-- One of the six neighbour blocks of the discovery pass (for instance lines
479-490): `ptr` is the live source record, `(x, y, z)` the wrapped neighbour
coordinate.  A dead-but-tracked record found there gets its count incremented; a
live record found there increments the count of the source; if nothing is
found a dead-but-tracked record with count 1 is inserted. -/
def visit_neighbour (m : Matrix) (ptr : node_ptr) (x y z : Int) : Matrix :=
  match matrix_get_ele m x y z with
  | some to_test =>
    if (ptr_read m to_test).is_dead = true then
      ptr_write m to_test
        { ptr_read m to_test with num_neighbours := (ptr_read m to_test).num_neighbours + 1 }
    else
      ptr_write m ptr { ptr_read m ptr with num_neighbours := (ptr_read m ptr).num_neighbours + 1 }
  | none => matrix_insert m x y z true 1

/-- The body "PROCESS AN ALIVE NODE" (lines 473-555) for the record at slot `k`
of column `(i, j)`: reset its count, then visit `z+1`, `z-1`, `x+1`, `x-1`, `y+1`,
`y-1`, each wrapped by `pos_mod`.  The arguments are handed to `pos_mod` as
they are: the conversion to its `short` parameter is exact for the depths of
`depths_fit_short` (`pos_mod_keeps_fit`), which include those of `grid_ok`. -/
def process_alive (m : Matrix) (SIZE : Int) (i j : Int) (k : Nat) : Matrix :=
  let ptr : node_ptr := { col := i + j * m.side, slot := k }
  let x := i
  let y := j
  let z := (ptr_read m ptr).z
  let m := ptr_write m ptr { ptr_read m ptr with num_neighbours := 0 }
  let m := visit_neighbour m ptr x y (pos_mod (z + 1) SIZE)
  let m := visit_neighbour m ptr x y (pos_mod (z - 1) SIZE)
  let m := visit_neighbour m ptr (pos_mod (x + 1) SIZE) y z
  let m := visit_neighbour m ptr (pos_mod (x - 1) SIZE) y z
  let m := visit_neighbour m ptr x (pos_mod (y + 1) SIZE) z
  visit_neighbour m ptr x (pos_mod (y - 1) SIZE) z

/-- The `k` loop of the discovery pass on column `(i, j)` (lines 458-556): the
bound `limit` is the used count read before the loop; dead records are
skipped. -/
def discover_column (m : Matrix) (SIZE : Int) (i j : Int) : Matrix :=
  match matrix_get m i j with
  | none => m
  | some da =>
    let limit := da.used
    (List.range limit).foldl
      (fun m k =>
        if (ptr_read m { col := i + j * m.side, slot := k }).is_dead = true then m
        else process_alive m SIZE i j k)
      m

/-- The discovery pass (lines 456-558). -/
def discovery_pass (m : Matrix) (SIZE : Int) : Matrix :=
  (List.range SIZE.toNat).foldl
    (fun m (i : Nat) =>
      (List.range SIZE.toNat).foldl (fun m (j : Nat) => discover_column m SIZE (i : Int) (j : Int)) m)
    m

/-- The body of the commit loop (lines 572-585) for slot `k` of column
`(i, j)`. -/
def commit_step (m : Matrix) (i j : Int) (k : Nat) : Matrix :=
  let ptr : node_ptr := { col := i + j * m.side, slot := k }
  if (ptr_read m ptr).is_dead = true then
    if (ptr_read m ptr).num_neighbours = 2 ∨ (ptr_read m ptr).num_neighbours = 3 then
      ptr_write m ptr { ptr_read m ptr with is_dead := false }
    else matrix_remove m i j (ptr_read m ptr).z
  else
    if (ptr_read m ptr).num_neighbours < 2 ∨ (ptr_read m ptr).num_neighbours > 4 then
      matrix_remove m i j (ptr_read m ptr).z
    else m

/-- The `k` loop of the commit pass on column `(i, j)` (lines 566-586): `k` runs
from `used - 1` down to `0`. -/
def commit_column (m : Matrix) (i j : Int) : Matrix :=
  match matrix_get m i j with
  | none => m
  | some da => (List.range da.used).reverse.foldl (fun m k => commit_step m i j k) m

/-- The commit pass (lines 564-588). -/
def commit_pass (m : Matrix) (SIZE : Int) : Matrix :=
  (List.range SIZE.toNat).foldl
    (fun m (i : Nat) =>
      (List.range SIZE.toNat).foldl (fun m (j : Nat) => commit_column m (i : Int) (j : Int)) m)
    m

/-- One iteration of the generation loop: discovery, then commit; `SIZE` is the
side of the grid. -/
def generation (m : Matrix) : Matrix := commit_pass (discovery_pass m m.side) m.side

/-- The record `matrix_get_ele` points to, if any (the caller's dereference of
the returned pointer). -/
def matrix_get_record (m : Matrix) (x y z : Int) : Option node :=
  (matrix_get_ele m x y z).map (ptr_read m)

/-- The record of a column found by `da_find_z`, if any. -/
def da_lookup (da : dynamic_array) (z : Int) : Option node :=
  if da_find_z da z = -1 then none else some (da.data (da_find_z da z).toNat)

/-! ## Initial scatter of the column sizes (lines 358-410) -/

/-- One `MPI_Send` of the size scatter: destination rank and the `SIZE`
integers of `z_lengths` at the time of the call. -/
structure size_msg where
  dest : Int
  payload : List Int
deriving DecidableEq

/-- The coordinator's send loop (lines 359-377).  `z_lengths` is declared in the
body of the `x` loop and not initialised: `uninit` gives its indeterminate
contents.  The `MPI_Send` stands inside the `y` loop, after the assignment of
`z_lengths[y]`. -/
def send_sizes (m : Matrix) (p SIZE : Int) (uninit : Nat → Int) : List size_msg :=
  (List.range SIZE.toNat).flatMap fun x =>
    ((List.range SIZE.toNat).foldl
      (fun (st : (Nat → Int) × List size_msg) y =>
        let z_lengths := Function.update st.1 y
          (match matrix_get m x y with
            | none => 0
            | some da => (da.used : Int))
        (z_lengths,
          st.2 ++ [{ dest := BLOCK_OWNER x p SIZE
                     payload := (List.range SIZE.toNat).map z_lengths }]))
      (uninit, [])).2

/-- The number of `MPI_Recv` calls of worker `id` (lines 391-393): one per `x`
with `BLOCK_LOW(id, p, SIZE) <= x <= BLOCK_HIGH(id, p, SIZE)`. -/
def recv_count (id p SIZE : Int) : Nat :=
  (BLOCK_HIGH id p SIZE - BLOCK_LOW id p SIZE + 1).toNat

/-! ## Slot-wise view of a grid and the dense reference rule -/

/-- The used count of column `(x, y)`; `0` for a `NULL` column. -/
def col_used (m : Matrix) (x y : Int) : Nat :=
  match matrix_get m x y with
  | none => 0
  | some da => da.used

/-- The record in slot `k` of column `(x, y)`. -/
def col_slot (m : Matrix) (x y : Int) (k : Nat) : node :=
  match matrix_get m x y with
  | none => { z := 0, num_neighbours := 0, is_dead := false }
  | some da => da.data k

/-- A coordinate of a grid of side `side`. -/
def in_side (side c : Int) : Prop := 0 ≤ c ∧ c < side

/-- Every in-range column has pairwise distinct depths, all in `[0, side)`. -/
def grid_wf (m : Matrix) : Prop :=
  ∀ x y, in_side m.side x → in_side m.side y →
    (∀ a b, a < col_used m x y → b < col_used m x y →
      (col_slot m x y a).z = (col_slot m x y b).z → a = b) ∧
    (∀ k, k < col_used m x y → in_side m.side (col_slot m x y k).z)

/-- The state between generations: the grid is well formed and every record
is live. -/
def grid_ok (m : Matrix) : Prop :=
  grid_wf m ∧
  ∀ x y, in_side m.side x → in_side m.side y →
    ∀ k, k < col_used m x y → (col_slot m x y k).is_dead = false

/-- A live cell: a record exists at `(x, y, z)` and is not dead. -/
def is_live (m : Matrix) (c : Int × Int × Int) : Bool :=
  match matrix_get_record m c.1 c.2.1 c.2.2 with
  | none => false
  | some nd => !nd.is_dead

/-- The six toroidal face-neighbours of a cell, each coordinate taken modulo
the side. -/
def face_neighbours (side : Int) (c : Int × Int × Int) : List (Int × Int × Int) :=
  [(c.1, c.2.1, (c.2.2 + 1) % side), (c.1, c.2.1, (c.2.2 - 1) % side),
   ((c.1 + 1) % side, c.2.1, c.2.2), ((c.1 - 1) % side, c.2.1, c.2.2),
   (c.1, (c.2.1 + 1) % side, c.2.2), (c.1, (c.2.1 - 1) % side, c.2.2)]

/-- The number of live cells among the six face-neighbours. -/
def live_neighbours (m : Matrix) (c : Int × Int × Int) : Int :=
  (((face_neighbours m.side c).filter (fun d => is_live m d)).length : Int)

/-- The dense reference rule: a live cell stays with 2 to 4 live neighbours, a
cell that is not live is born with 2 or 3. -/
def dense_rule (m : Matrix) (c : Int × Int × Int) : Prop :=
  (is_live m c = true ∧ 2 ≤ live_neighbours m c ∧ live_neighbours m c ≤ 4) ∨
  (is_live m c = false ∧ (live_neighbours m c = 2 ∨ live_neighbours m c = 3))

/-- The neighbour coordinates `process_alive` visits, in visiting order. -/
def visited (SIZE : Int) (c : Int × Int × Int) : List (Int × Int × Int) :=
  [(c.1, c.2.1, pos_mod (c.2.2 + 1) SIZE), (c.1, c.2.1, pos_mod (c.2.2 - 1) SIZE),
   (pos_mod (c.1 + 1) SIZE, c.2.1, c.2.2), (pos_mod (c.1 - 1) SIZE, c.2.1, c.2.2),
   (c.1, pos_mod (c.2.1 + 1) SIZE, c.2.2), (c.1, pos_mod (c.2.1 - 1) SIZE, c.2.2)]

/-- The invariant of the discovery pass started on `m0`.  `E` lists the
neighbour coordinates visited so far (with repetitions) and `C` gives, for the
live cells whose processing has begun, the count their record must hold.  The
records of `m0` keep their slots and stay live; the records behind them are the
dead-but-tracked ones, each holding the number of visits it received. -/
structure DInv (m0 m : Matrix) (E : List (Int × Int × Int))
    (C : Int × Int × Int → Option Int) : Prop where
  side_eq : m.side = m0.side
  wf : grid_wf m
  used_le : ∀ x y, in_side m0.side x → in_side m0.side y → col_used m0 x y ≤ col_used m x y
  live_z : ∀ x y, in_side m0.side x → in_side m0.side y → ∀ k, k < col_used m0 x y →
    (col_slot m x y k).z = (col_slot m0 x y k).z ∧ (col_slot m x y k).is_dead = false
  dead_new : ∀ x y, in_side m0.side x → in_side m0.side y →
    ∀ k, col_used m0 x y ≤ k → k < col_used m x y →
      (col_slot m x y k).is_dead = true ∧
      (col_slot m x y k).num_neighbours = ((E.count (x, y, (col_slot m x y k).z) : Nat) : Int) ∧
      (x, y, (col_slot m x y k).z) ∈ E
  tracked : ∀ t, t ∈ E →
    in_side m0.side t.1 ∧ in_side m0.side t.2.1 ∧ t.2.2 ∈ column_depths m t.1 t.2.1
  counts : ∀ x y, in_side m0.side x → in_side m0.side y → ∀ k, k < col_used m0 x y →
    ∀ c, C (x, y, (col_slot m0 x y k).z) = some c → (col_slot m x y k).num_neighbours = c

/-- The number of cells of a list that are stored in `m0`. -/
def live_count (m0 : Matrix) (l : List (Int × Int × Int)) : Int :=
  (l.map (fun t => if t.2.2 ∈ column_depths m0 t.1 t.2.1 then (1 : Int) else 0)).sum

/-- The cells of the records of column `(i, j)`, in slot order. -/
def col_sources (m0 : Matrix) (i j : Int) : List (Int × Int × Int) :=
  (List.range (col_used m0 i j)).map (fun k => (i, j, (col_slot m0 i j k).z))

/-- The cells of all records of the grid, in the order of the `i`, `j`, `k`
loops. -/
def all_sources (m0 : Matrix) : List (Int × Int × Int) :=
  (List.range m0.side.toNat).flatMap fun i =>
    (List.range m0.side.toNat).flatMap fun j => col_sources m0 (i : Int) (j : Int)

/-- The invariant of the discovery pass in terms of the list `P` of live cells
processed so far: every record of a dead-but-tracked cell holds the number of
visits the cells of `P` paid to it, and the record of a cell of `P` holds the
number of its visited neighbours that are live. -/
def DInvP (m0 m : Matrix) (P : List (Int × Int × Int)) : Prop :=
  ∃ E C, DInv m0 m E C ∧
    (∀ t, ((E.count t : Nat) : Int) = (P.map (fun s => (((visited m0.side s).count t : Nat) : Int))).sum) ∧
    (∀ s, s ∈ P → C s = some (live_count m0 (visited m0.side s)))

/-! ## The commit rule on one record -/

/-- The records of column `(x, y)`, in slot order; none for a `NULL` column. -/
def col_records (m : Matrix) (x y : Int) : List node :=
  match matrix_get m x y with
  | none => []
  | some da => da_records da

/-- The rule of the commit pass: a dead-but-tracked record stays iff its count
is 2 or 3, a live record stays iff its count is between 2 and 4. -/
def survives (nd : node) : Bool :=
  if nd.is_dead = true then decide (nd.num_neighbours = 2 ∨ nd.num_neighbours = 3)
  else decide (2 ≤ nd.num_neighbours ∧ nd.num_neighbours ≤ 4)

/-- A record that stays is live afterwards. -/
def revive (nd : node) : node := { nd with is_dead := false }

/-- The invariant of the commit pass started on `m0`: the columns already
committed (`done`) hold, as a multiset, the surviving records of `m0`, each
live; the other columns are untouched. -/
def CInv (m0 m : Matrix) (done : Int → Int → Prop) : Prop :=
  m.side = m0.side ∧
  ∀ x y, in_side m0.side x → in_side m0.side y →
    (done x y →
      (col_records m x y).Perm (((col_records m0 x y).filter survives).map revive)) ∧
    (¬ done x y → matrix_get m x y = matrix_get m0 x y)

/-! ## The discovery pass with a log of its sources -/

/-- `discover_column` with a ghost log: every time the body "PROCESS AN ALIVE
NODE" is entered, the cell of the record being processed is appended. -/
def discover_column_log (st : Matrix × List (Int × Int × Int)) (SIZE : Int) (i j : Int) :
    Matrix × List (Int × Int × Int) :=
  match matrix_get st.1 i j with
  | none => st
  | some da =>
    let limit := da.used
    (List.range limit).foldl
      (fun st k =>
        if (ptr_read st.1 { col := i + j * st.1.side, slot := k }).is_dead = true then st
        else
          (process_alive st.1 SIZE i j k,
            st.2 ++ [(i, j, (ptr_read st.1 { col := i + j * st.1.side, slot := k }).z)]))
      st

/-- `discovery_pass` with the ghost log, started empty. -/
def discovery_pass_log (m : Matrix) (SIZE : Int) : Matrix × List (Int × Int × Int) :=
  (List.range SIZE.toNat).foldl
    (fun st (i : Nat) =>
      (List.range SIZE.toNat).foldl
        (fun st (j : Nat) => discover_column_log st SIZE (i : Int) (j : Int)) st)
    (m, [])

/-! ## The state between generations, without range assumptions -/

/-- No two records of an in-range column share a depth. -/
def cols_nodup (m : Matrix) : Prop :=
  ∀ x y, in_side m.side x → in_side m.side y → (column_depths m x y).Nodup

/-- Every record of every in-range column is live. -/
def all_live (m : Matrix) : Prop :=
  ∀ x y, in_side m.side x → in_side m.side y →
    ∀ nd, nd ∈ col_records m x y → nd.is_dead = false

/-- The invariant of the commit pass started on `m0`, for the single column
`(i0, j0)`: once the pass is `done` with it, the column holds, as a multiset,
its surviving records of `m0`, each live; before that it is untouched. -/
def CInvAt (m0 m : Matrix) (i0 j0 : Int) (done : Prop) : Prop :=
  m.side = m0.side ∧
  (done → (col_records m i0 j0).Perm (((col_records m0 i0 j0).filter survives).map revive)) ∧
  (¬ done → matrix_get m i0 j0 = matrix_get m0 i0 j0)

/-- The generation loop of `main` (line 445): `generations` iterations. -/
def run_generations : Nat → Matrix → Matrix
  | 0, m => m
  | n + 1, m => run_generations n (generation m)

/-- The remainder formula that `pos_mod` replaces, as written in the comment
of its body (line 291): `((val % mod) + mod) % mod`.  C's `%` truncates
towards zero, which is `Int.tmod`. -/
def pos_mod_remainder (val mod : Int) : Int := Int.tmod (Int.tmod val mod + mod) mod

end Life3d

namespace Life3d

/-! ## Block partition: auxiliary facts -/

theorem BLOCK_LOW_eq_ediv (i p n : Int) (hi : 0 ≤ i) (hp : 0 < p) (hn : 0 ≤ n) :
    BLOCK_LOW i p n = i * n / p := by
  unfold BLOCK_LOW
  exact Int.tdiv_eq_ediv (Int.mul_nonneg hi hn) (le_of_lt hp)

theorem BLOCK_OWNER_eq_ediv (c p n : Int) (hc : 0 ≤ c) (hp : 1 ≤ p) (hn : 0 < n) :
    BLOCK_OWNER c p n = (p * (c + 1) - 1) / n := by
  unfold BLOCK_OWNER
  have h : 0 ≤ p * (c + 1) - 1 := by nlinarith
  exact Int.tdiv_eq_ediv h (le_of_lt hn)

theorem BLOCK_LOW_mono (i j p n : Int) (hi : 0 ≤ i) (hij : i ≤ j) (hp : 0 < p) (hn : 0 ≤ n) :
    BLOCK_LOW i p n ≤ BLOCK_LOW j p n := by
  rw [BLOCK_LOW_eq_ediv i p n hi hp hn, BLOCK_LOW_eq_ediv j p n (le_trans hi hij) hp hn]
  exact Int.ediv_le_ediv hp (Int.mul_le_mul_of_nonneg_right hij hn)

theorem BLOCK_LOW_step (i p n : Int) (hi : 0 ≤ i) (hp : 0 < p) (hpn : p ≤ n) :
    BLOCK_LOW i p n + 1 ≤ BLOCK_LOW (i + 1) p n := by
  have hn : 0 ≤ n := by omega
  rw [BLOCK_LOW_eq_ediv i p n hi hp hn, BLOCK_LOW_eq_ediv (i + 1) p n (by omega) hp hn]
  have h1 : i * n / p + 1 = (i * n + p) / p := by
    rw [Int.add_ediv_of_dvd_right (dvd_refl p), Int.ediv_self (ne_of_gt hp)]
  rw [h1]
  apply Int.ediv_le_ediv hp
  nlinarith

theorem BLOCK_OWNER_bounds (c p n : Int) (hc0 : 0 ≤ c) (hcn : c < n) (hp : 1 ≤ p) :
    0 ≤ BLOCK_OWNER c p n ∧ BLOCK_OWNER c p n < p := by
  have hn : 0 < n := by omega
  rw [BLOCK_OWNER_eq_ediv c p n hc0 hp hn]
  constructor
  · apply Int.ediv_nonneg _ (le_of_lt hn)
    nlinarith
  · apply Int.ediv_lt_of_lt_mul hn
    nlinarith

theorem BLOCK_OWNER_range (c p n : Int) (hc0 : 0 ≤ c) (hcn : c < n) (hp : 1 ≤ p) :
    BLOCK_LOW (BLOCK_OWNER c p n) p n ≤ c ∧ c ≤ BLOCK_HIGH (BLOCK_OWNER c p n) p n := by
  have hn : 0 < n := by omega
  have hp0 : 0 < p := by omega
  obtain ⟨hw0, _⟩ := BLOCK_OWNER_bounds c p n hc0 hcn hp
  have hw := BLOCK_OWNER_eq_ediv c p n hc0 hp hn
  set w := BLOCK_OWNER c p n with hwdef
  have hX : 0 ≤ p * (c + 1) - 1 := by nlinarith
  -- w * n ≤ p * (c + 1) - 1 < (w + 1) * n
  have hlo : w * n ≤ p * (c + 1) - 1 := by
    rw [hw]; exact Int.ediv_mul_le _ (ne_of_gt hn)
  have hhi : p * (c + 1) - 1 < (w + 1) * n := by
    rw [hw]; exact Int.lt_ediv_add_one_mul_self _ hn
  unfold BLOCK_HIGH
  rw [BLOCK_LOW_eq_ediv w p n hw0 hp0 (le_of_lt hn),
    BLOCK_LOW_eq_ediv (w + 1) p n (by omega) hp0 (le_of_lt hn)]
  constructor
  · have : w * n / p < c + 1 := by
      apply Int.ediv_lt_of_lt_mul hp0
      nlinarith
    omega
  · have : c + 1 ≤ (w + 1) * n / p := by
      rw [Int.le_ediv_iff_mul_le hp0]
      nlinarith
    omega

theorem BLOCK_range_unique (c p n i j : Int) (hi0 : 0 ≤ i) (hj0 : 0 ≤ j)
    (hp : 0 < p) (hn : 0 ≤ n)
    (hi : BLOCK_LOW i p n ≤ c ∧ c ≤ BLOCK_HIGH i p n)
    (hj : BLOCK_LOW j p n ≤ c ∧ c ≤ BLOCK_HIGH j p n) : i = j := by
  unfold BLOCK_HIGH at hi hj
  by_contra hne
  rcases lt_or_gt_of_ne hne with h | h
  · have := BLOCK_LOW_mono (i + 1) j p n (by omega) (by omega) hp hn
    omega
  · have := BLOCK_LOW_mono (j + 1) i p n (by omega) (by omega) hp hn
    omega

/-- With a `short` side no product formed by the block operations leaves the
range of `int`. -/
theorem block_products_fit_int (i c p n : Int) (hi0 : 0 ≤ i) (hip : i < p) (hp : 1 ≤ p)
    (hpn : p ≤ n) (hn : n ≤ 32767) (hc0 : 0 ≤ c) (hcn : c < n) :
    0 ≤ (i + 1) * n ∧ (i + 1) * n < 2 ^ 31 ∧
    0 ≤ p * (c + 1) - 1 ∧ p * (c + 1) - 1 < 2 ^ 31 := by
  refine ⟨by nlinarith, ?_, by nlinarith, ?_⟩
  · have : (i + 1) * n ≤ 32767 * 32767 := by
      apply mul_le_mul <;> omega
    norm_num at *; omega
  · have : p * (c + 1) ≤ 32767 * 32767 := by
      apply mul_le_mul <;> omega
    norm_num at *; omega

/-! ## Claims on the block partition -/

/-- C1: for `n > 0` and `1 ≤ p ≤ n` the inclusive ranges
`[BLOCK_LOW i, BLOCK_HIGH i]`, `i = 0..p-1`, partition `[0, n)`: the first starts
at `0`, the last ends at `n - 1`, consecutive ranges are adjacent, every range is
non-empty, and every coordinate lies in exactly one range. -/
theorem C1_block_partition (n p : Int) (hn : 0 < n) (hp : 1 ≤ p) (hpn : p ≤ n) :
    BLOCK_LOW 0 p n = 0 ∧
    BLOCK_HIGH (p - 1) p n = n - 1 ∧
    (∀ i, 0 ≤ i → i < p - 1 → BLOCK_LOW (i + 1) p n = BLOCK_HIGH i p n + 1) ∧
    (∀ i, 0 ≤ i → i < p → BLOCK_LOW i p n ≤ BLOCK_HIGH i p n) ∧
    (∀ c, 0 ≤ c → c < n →
      ∃! i, 0 ≤ i ∧ i < p ∧ BLOCK_LOW i p n ≤ c ∧ c ≤ BLOCK_HIGH i p n) := by
  have hp0 : 0 < p := by omega
  refine ⟨?_, ?_, ?_, ?_, ?_⟩
  · simp [BLOCK_LOW]
  · unfold BLOCK_HIGH
    rw [BLOCK_LOW_eq_ediv _ p n (by omega) hp0 (le_of_lt hn)]
    have : (p - 1 + 1) * n = n * p := by ring
    rw [this, Int.mul_ediv_cancel _ (ne_of_gt hp0)]
  · intro i _ _
    unfold BLOCK_HIGH
    ring
  · intro i hi0 _
    have := BLOCK_LOW_step i p n hi0 hp0 hpn
    unfold BLOCK_HIGH
    omega
  · intro c hc0 hcn
    obtain ⟨hw0, hwp⟩ := BLOCK_OWNER_bounds c p n hc0 hcn hp
    obtain ⟨hlo, hhi⟩ := BLOCK_OWNER_range c p n hc0 hcn hp
    refine ⟨BLOCK_OWNER c p n, ⟨hw0, hwp, hlo, hhi⟩, ?_⟩
    rintro j ⟨hj0, _, hjl, hjh⟩
    exact BLOCK_range_unique c p n j _ hj0 hw0 hp0 (le_of_lt hn) ⟨hjl, hjh⟩ ⟨hlo, hhi⟩

theorem C1_block_partition_witness :
    BLOCK_LOW 0 3 10 = 0 ∧
    BLOCK_HIGH (3 - 1) 3 10 = 10 - 1 ∧
    (∀ i, 0 ≤ i → i < 3 - 1 → BLOCK_LOW (i + 1) 3 10 = BLOCK_HIGH i 3 10 + 1) ∧
    (∀ i, 0 ≤ i → i < 3 → BLOCK_LOW i 3 10 ≤ BLOCK_HIGH i 3 10) ∧
    (∀ c, 0 ≤ c → c < 10 →
      ∃! i, 0 ≤ i ∧ i < 3 ∧ BLOCK_LOW i 3 10 ≤ c ∧ c ≤ BLOCK_HIGH i 3 10) :=
  C1_block_partition 10 3 (by decide) (by decide) (by decide)

/-- C2: for `n > 0`, `1 ≤ p ≤ n` and `0 ≤ c < n`, `w = BLOCK_OWNER c p n` equals
`(p * (c + 1) - 1) / n`, satisfies `0 ≤ w < p`, its range contains `c`, and it is
the only worker index in `[0, p)` whose range contains `c`. -/
theorem C2_block_owner (n p c : Int) (hn : 0 < n) (hp : 1 ≤ p) (hpn : p ≤ n)
    (hc0 : 0 ≤ c) (hcn : c < n) :
    BLOCK_OWNER c p n = (p * (c + 1) - 1) / n ∧
    0 ≤ BLOCK_OWNER c p n ∧ BLOCK_OWNER c p n < p ∧
    BLOCK_LOW (BLOCK_OWNER c p n) p n ≤ c ∧ c ≤ BLOCK_HIGH (BLOCK_OWNER c p n) p n ∧
    (∀ i, 0 ≤ i → i < p → BLOCK_LOW i p n ≤ c → c ≤ BLOCK_HIGH i p n →
      i = BLOCK_OWNER c p n) := by
  have _ := hpn
  obtain ⟨hw0, hwp⟩ := BLOCK_OWNER_bounds c p n hc0 hcn hp
  obtain ⟨hlo, hhi⟩ := BLOCK_OWNER_range c p n hc0 hcn hp
  refine ⟨BLOCK_OWNER_eq_ediv c p n hc0 hp hn, hw0, hwp, hlo, hhi, ?_⟩
  intro i hi0 _ hil hih
  exact BLOCK_range_unique c p n i _ hi0 hw0 (by omega) (le_of_lt hn) ⟨hil, hih⟩ ⟨hlo, hhi⟩

theorem C2_block_owner_witness :
    BLOCK_OWNER 7 3 10 = (3 * (7 + 1) - 1) / 10 ∧
    0 ≤ BLOCK_OWNER 7 3 10 ∧ BLOCK_OWNER 7 3 10 < 3 ∧
    BLOCK_LOW (BLOCK_OWNER 7 3 10) 3 10 ≤ 7 ∧ 7 ≤ BLOCK_HIGH (BLOCK_OWNER 7 3 10) 3 10 ∧
    (∀ i, 0 ≤ i → i < 3 → BLOCK_LOW i 3 10 ≤ 7 → 7 ≤ BLOCK_HIGH i 3 10 →
      i = BLOCK_OWNER 7 3 10) :=
  C2_block_owner 10 3 7 (by decide) (by decide) (by decide) (by decide) (by decide)

end Life3d

namespace Life3d

/-! ## Toroidal wrap: claims -/

/-- For `short` arguments and a positive modulus the value returned by `pos_mod`
fits a `short`. -/
theorem pos_mod_fits_short (val mod : Int) (hv : -32768 ≤ val ∧ val ≤ 32767)
    (hm : 1 ≤ mod ∧ mod ≤ 32767) :
    -32768 ≤ pos_mod val mod ∧ pos_mod val mod ≤ 32767 := by
  unfold pos_mod
  split_ifs <;> omega

/-- C5: for `side ≥ 1` and `0 ≤ c < side`, `pos_mod (c + 1) side` and
`pos_mod (c - 1) side` lie in `[0, side)` and are `(c + 1) mod side` and
`(c - 1) mod side`; `pos_mod (-1) side = side - 1` and `pos_mod side side = 0`. -/
theorem C5_pos_mod_neighbours (side c : Int) (hs : 1 ≤ side) (hc0 : 0 ≤ c) (hc : c < side) :
    (0 ≤ pos_mod (c + 1) side ∧ pos_mod (c + 1) side < side) ∧
    (0 ≤ pos_mod (c - 1) side ∧ pos_mod (c - 1) side < side) ∧
    pos_mod (c + 1) side = (c + 1) % side ∧
    pos_mod (c - 1) side = (c - 1) % side ∧
    pos_mod (-1) side = side - 1 ∧
    pos_mod side side = 0 := by
  have h1 : pos_mod (c + 1) side = (c + 1) % side := by
    unfold pos_mod
    by_cases h : c + 1 ≥ side
    · have hce : c + 1 = side := by omega
      simp [hce]
    · rw [if_neg h, if_neg (by omega), Int.emod_eq_of_lt (by omega) (by omega)]
  have h2 : pos_mod (c - 1) side = (c - 1) % side := by
    unfold pos_mod
    rw [if_neg (by omega)]
    by_cases h : c - 1 < 0
    · have hce : c = 0 := by omega
      subst hce
      rw [if_pos h]
      have : (0 - 1 : Int) % side = (0 - 1 + side) % side := by
        rw [Int.add_emod_self]
      rw [this, Int.emod_eq_of_lt (by omega) (by omega)]
    · rw [if_neg h, Int.emod_eq_of_lt (by omega) (by omega)]
  refine ⟨?_, ?_, h1, h2, ?_, ?_⟩
  · rw [h1]; exact ⟨Int.emod_nonneg _ (by omega), Int.emod_lt_of_pos _ (by omega)⟩
  · rw [h2]; exact ⟨Int.emod_nonneg _ (by omega), Int.emod_lt_of_pos _ (by omega)⟩
  · unfold pos_mod
    rw [if_neg (by omega), if_pos (by omega)]; ring
  · unfold pos_mod
    simp

theorem C5_pos_mod_neighbours_witness :
    (0 ≤ pos_mod (2 + 1) 3 ∧ pos_mod (2 + 1) 3 < 3) ∧
    (0 ≤ pos_mod (2 - 1) 3 ∧ pos_mod (2 - 1) 3 < 3) ∧
    pos_mod (2 + 1) 3 = (2 + 1) % 3 ∧
    pos_mod (2 - 1) 3 = (2 - 1) % 3 ∧
    pos_mod (-1) 3 = 3 - 1 ∧
    pos_mod 3 3 = 0 :=
  C5_pos_mod_neighbours 3 2 (by decide) (by decide) (by decide)

/-! ## Column store: auxiliary facts -/

theorem MAX_eq_max (a b : Nat) : MAX a b = max a b := by
  unfold MAX
  split_ifs <;> omega

theorem da_records_length (da : dynamic_array) : (da_records da).length = da.used := by
  simp [da_records]

theorem da_records_getElem (da : dynamic_array) (k : Nat) (h : k < (da_records da).length) :
    (da_records da)[k] = da.data k := by
  simp [da_records]

theorem da_insert_used (da : dynamic_array) (nd : node) :
    (da_insert da nd).used = da.used + 1 := by
  unfold da_insert da_resize
  split_ifs <;> rfl

theorem da_insert_data (da : dynamic_array) (nd : node) :
    (da_insert da nd).data = Function.update da.data da.used nd := by
  unfold da_insert da_resize
  split_ifs <;> rfl

theorem da_insert_initial_size (da : dynamic_array) (nd : node) :
    (da_insert da nd).initial_size = da.initial_size := by
  unfold da_insert da_resize
  split_ifs <;> rfl

theorem da_insert_size (da : dynamic_array) (nd : node) :
    (da_insert da nd).size = if da.used = da.size then da.size * 2 else da.size := by
  unfold da_insert da_resize
  split_ifs <;> rfl

theorem da_records_insert (da : dynamic_array) (nd : node) :
    da_records (da_insert da nd) = da_records da ++ [nd] := by
  unfold da_records
  rw [da_insert_used, da_insert_data, List.range_succ, List.map_append]
  congr 1
  · apply List.map_congr_left
    intro k hk
    have : k ≠ da.used := by
      have := List.mem_range.mp hk
      omega
    simp [Function.update, this]
  · simp

theorem da_delete_at_invalid (da : dynamic_array) (i : Nat) (h : da.used ≤ i) :
    da_delete_at da i = da := by
  unfold da_delete_at
  rw [if_pos h]

theorem da_delete_at_used (da : dynamic_array) (i : Nat) (h : i < da.used) :
    (da_delete_at da i).used = da.used - 1 := by
  unfold da_delete_at da_resize
  rw [if_neg (by omega)]
  dsimp only
  split_ifs <;> rfl

theorem da_delete_at_data (da : dynamic_array) (i : Nat) (h : i < da.used) :
    (da_delete_at da i).data = Function.update da.data i (da.data (da.used - 1)) := by
  unfold da_delete_at da_resize
  rw [if_neg (by omega)]
  dsimp only
  split_ifs <;> rfl

theorem da_delete_at_initial_size (da : dynamic_array) (i : Nat) :
    (da_delete_at da i).initial_size = da.initial_size := by
  unfold da_delete_at da_resize
  dsimp only
  split_ifs <;> rfl

theorem da_delete_at_size (da : dynamic_array) (i : Nat) (h : i < da.used) :
    (da_delete_at da i).size =
      if da.size > da.initial_size ∧ da.used - 1 ≤ da.size / 4 then da.size / 2 else da.size := by
  unfold da_delete_at da_resize
  rw [if_neg (by omega)]
  dsimp only
  split_ifs <;> rfl

end Life3d

namespace Life3d

/-! ## Swap-with-last removal on lists -/

theorem swap_last_perm {α : Type} (l : List α) (i : Nat) (x : α) (hi : i < l.length)
    (hx : l.getLast? = some x) :
    ((l.set i x).dropLast).Perm (l.eraseIdx i) ∧ ((l.set i x).dropLast).take i = l.take i := by
  obtain ⟨A, y, B, rfl, hA⟩ : ∃ A y B, l = A ++ y :: B ∧ A.length = i := by
    refine ⟨l.take i, l[i], l.drop (i + 1), ?_, ?_⟩
    · rw [List.getElem_cons_drop, List.take_append_drop]
    · simp; omega
  subst hA
  rcases List.eq_nil_or_concat B with rfl | ⟨B', b, hB⟩
  · simp [List.eraseIdx_append_of_length_le]
  · rw [List.concat_eq_append] at hB
    subst hB
    have hb : b = x := by
      simpa [List.getLast?_append, List.getLast?_cons] using hx
    subst hb
    have h1 : (A ++ y :: (B' ++ [b])).set A.length b = A ++ b :: (B' ++ [b]) := by
      simp
    have h2 : (A ++ b :: (B' ++ [b])).dropLast = A ++ b :: B' := by
      have : A ++ b :: (B' ++ [b]) = (A ++ b :: B') ++ [b] := by simp
      rw [this, List.dropLast_concat]
    have h3 : (A ++ y :: (B' ++ [b])).eraseIdx A.length = A ++ (B' ++ [b]) := by
      rw [List.eraseIdx_append_of_length_le (le_refl _)]
      simp
    rw [h1, h2, h3]
    constructor
    · apply List.Perm.append_left
      exact (List.perm_append_singleton b B').symm
    · simp

theorem da_records_getLast (da : dynamic_array) (h : 0 < da.used) :
    (da_records da).getLast? = some (da.data (da.used - 1)) := by
  unfold da_records
  obtain ⟨n, hn⟩ : ∃ n, da.used = n + 1 := ⟨da.used - 1, by omega⟩
  rw [hn, List.range_succ]
  simp

theorem da_records_delete_at (da : dynamic_array) (i : Nat) (h : i < da.used) :
    da_records (da_delete_at da i) =
      ((da_records da).set i (da.data (da.used - 1))).dropLast := by
  apply List.ext_getElem
  · simp [da_records_length, da_delete_at_used da i h]
  · intro k h1 h2
    rw [da_records_getElem, da_delete_at_data da i h, List.getElem_dropLast, List.getElem_set]
    rw [da_records_length, da_delete_at_used da i h] at h1
    by_cases hk : i = k
    · subst hk
      simp
    · rw [if_neg hk, da_records_getElem]
      simp [Function.update, Ne.symm hk]

theorem da_records_delete_at_perm (da : dynamic_array) (i : Nat) (h : i < da.used) :
    (da_records (da_delete_at da i)).Perm ((da_records da).eraseIdx i) ∧
    (da_records (da_delete_at da i)).take i = (da_records da).take i := by
  rw [da_records_delete_at da i h]
  exact swap_last_perm _ i _ (by rw [da_records_length]; exact h)
    (da_records_getLast da (by omega))

/-! ## Lookup by depth -/

theorem da_find_z_loop_spec (da : dynamic_array) (z : Int) (n i : Nat) :
    (da_find_z_loop da z n i = -1 ∧ ∀ j, i ≤ j → j < i + n → (da.data j).z ≠ z) ∨
    (∃ j, i ≤ j ∧ j < i + n ∧ da_find_z_loop da z n i = (j : Int) ∧ (da.data j).z = z ∧
      ∀ k, i ≤ k → k < j → (da.data k).z ≠ z) := by
  induction n generalizing i with
  | zero =>
    left
    exact ⟨rfl, fun j h1 h2 => by omega⟩
  | succ n ih =>
    unfold da_find_z_loop
    by_cases hz : (da.data i).z = z
    · right
      refine ⟨i, le_refl _, by omega, by rw [if_pos hz], hz, fun k h1 h2 => by omega⟩
    · rw [if_neg hz]
      rcases ih (i + 1) with ⟨h1, h2⟩ | ⟨j, h1, h2, h3, h4, h5⟩
      · left
        refine ⟨h1, fun j hj1 hj2 => ?_⟩
        by_cases hji : j = i
        · subst hji; exact hz
        · exact h2 j (by omega) (by omega)
      · right
        refine ⟨j, by omega, by omega, h3, h4, fun k hk1 hk2 => ?_⟩
        by_cases hki : k = i
        · subst hki; exact hz
        · exact h5 k (by omega) hk2

theorem mem_da_depths (da : dynamic_array) (z : Int) :
    z ∈ da_depths da ↔ ∃ k, k < da.used ∧ (da.data k).z = z := by
  simp [da_depths, da_records]

theorem da_find_z_eq_neg_one (da : dynamic_array) (z : Int) :
    da_find_z da z = -1 ↔ z ∉ da_depths da := by
  rw [mem_da_depths]
  unfold da_find_z
  rcases da_find_z_loop_spec da z da.used 0 with ⟨h1, h2⟩ | ⟨j, _, h2, h3, h4, _⟩
  · simp only [h1, true_iff]
    rintro ⟨k, hk, hkz⟩
    exact h2 k (by omega) (by omega) hkz
  · constructor
    · intro h
      rw [h3] at h
      omega
    · intro h
      exact absurd ⟨j, by omega, h4⟩ h

theorem da_find_z_found (da : dynamic_array) (z : Int) (h : da_find_z da z ≠ -1) :
    ∃ j, j < da.used ∧ da_find_z da z = (j : Int) ∧ (da.data j).z = z ∧
      ∀ k, k < j → (da.data k).z ≠ z := by
  unfold da_find_z at h ⊢
  rcases da_find_z_loop_spec da z da.used 0 with ⟨h1, _⟩ | ⟨j, _, h2, h3, h4, h5⟩
  · exact absurd h1 h
  · exact ⟨j, by omega, h3, h4, fun k hk => h5 k (by omega) hk⟩

theorem da_depths_nodup_inj (da : dynamic_array) (hnd : (da_depths da).Nodup) (a b : Nat)
    (ha : a < da.used) (hb : b < da.used) (hab : (da.data a).z = (da.data b).z) : a = b := by
  have hlen : (da_depths da).length = da.used := by simp [da_depths, da_records]
  have hget : ∀ k (hk : k < (da_depths da).length), (da_depths da)[k] = (da.data k).z := by
    intro k hk
    simp [da_depths, da_records]
  have ha1 : a < (da_depths da).length := by omega
  have hb1 : b < (da_depths da).length := by omega
  have key : (da_depths da)[a] = (da_depths da)[b] := by
    rw [hget a ha1, hget b hb1]; exact hab
  exact (List.Nodup.getElem_inj_iff hnd).mp key

theorem da_find_z_of_nodup (da : dynamic_array) (hnd : (da_depths da).Nodup) (k : Nat)
    (hk : k < da.used) : da_find_z da (da.data k).z = (k : Int) := by
  have hne : da_find_z da (da.data k).z ≠ -1 := by
    rw [Ne, da_find_z_eq_neg_one, not_not, mem_da_depths]
    exact ⟨k, hk, rfl⟩
  obtain ⟨j, hj, hjeq, hjz, _⟩ := da_find_z_found da _ hne
  rw [hjeq, da_depths_nodup_inj da hnd j k hj hk hjz]

end Life3d

namespace Life3d

/-! ## Column store: claims -/

theorem da_cap_inv_make (s : Nat) : da_cap_inv (da_make s) := by
  refine ⟨Nat.zero_le _, ?_, 0, by simp [da_make, da_init]⟩
  show 1 ≤ MAX 4 s
  rw [MAX_eq_max]; omega

theorem da_cap_inv_insert (da : dynamic_array) (nd : node) (h : da_cap_inv da) :
    da_cap_inv (da_insert da nd) := by
  obtain ⟨h1, h2, k, hk⟩ := h
  have hpos : 1 ≤ da.size := by
    rw [hk]; exact Nat.mul_pos h2 (Nat.pos_pow_of_pos k (by decide))
  unfold da_cap_inv
  rw [da_insert_used, da_insert_size, da_insert_initial_size]
  by_cases hfull : da.used = da.size
  · rw [if_pos hfull]
    refine ⟨by omega, h2, k + 1, ?_⟩
    rw [hk, pow_succ]; ring
  · rw [if_neg hfull]
    exact ⟨by omega, h2, k, hk⟩

theorem da_cap_inv_delete_at (da : dynamic_array) (i : Nat) (h : da_cap_inv da) :
    da_cap_inv (da_delete_at da i) := by
  by_cases hi : i < da.used
  · obtain ⟨h1, h2, k, hk⟩ := h
    unfold da_cap_inv
    rw [da_delete_at_used da i hi, da_delete_at_size da i hi, da_delete_at_initial_size]
    by_cases hshrink : da.size > da.initial_size ∧ da.used - 1 ≤ da.size / 4
    · rw [if_pos hshrink]
      obtain ⟨hgt, hle⟩ := hshrink
      cases k with
      | zero => simp at hk; omega
      | succ k =>
        refine ⟨by omega, h2, k, ?_⟩
        rw [hk, pow_succ, ← Nat.mul_assoc, Nat.mul_div_cancel _ (by decide : 0 < 2)]
    · rw [if_neg hshrink]
      exact ⟨by omega, h2, k, hk⟩
  · rw [da_delete_at_invalid da i (by omega)]
    exact h

theorem da_cap_inv_run (ops : List da_op) (da : dynamic_array) (h : da_cap_inv da) :
    da_cap_inv (da_run da ops) := by
  induction ops generalizing da with
  | nil => exact h
  | cons op ops ih =>
    show da_cap_inv (da_run (da_apply da op) ops)
    apply ih
    cases op with
    | insert nd => exact da_cap_inv_insert da nd h
    | delete_at i => exact da_cap_inv_delete_at da i h

theorem da_run_initial_size (ops : List da_op) (da : dynamic_array) :
    (da_run da ops).initial_size = da.initial_size := by
  induction ops generalizing da with
  | nil => rfl
  | cons op ops ih =>
    show (da_run (da_apply da op) ops).initial_size = _
    rw [ih]
    cases op with
    | insert nd => exact da_insert_initial_size da nd
    | delete_at i => exact da_delete_at_initial_size da i

/-- C6: after any finite sequence of `da_insert` and `da_delete_at` calls (any
indices) applied to `da_make s`, `used ≤ size` and `size ≥ initial_size`, where
`initial_size = max 4 s`. -/
theorem C6_capacity_invariant (s : Nat) (ops : List da_op) :
    (da_run (da_make s) ops).used ≤ (da_run (da_make s) ops).size ∧
    (da_run (da_make s) ops).size ≥ (da_run (da_make s) ops).initial_size ∧
    (da_run (da_make s) ops).initial_size = max 4 s := by
  obtain ⟨h1, h2, k, hk⟩ := da_cap_inv_run ops (da_make s) (da_cap_inv_make s)
  refine ⟨h1, ?_, ?_⟩
  · rw [hk]
    exact Nat.le_mul_of_pos_right _ (Nat.pos_pow_of_pos k (by decide))
  · rw [da_run_initial_size]
    exact MAX_eq_max 4 s

theorem da_depths_insert (da : dynamic_array) (nd : node) :
    da_depths (da_insert da nd) = da_depths da ++ [nd.z] := by
  simp [da_depths, da_records_insert]

theorem map_eraseIdx {α β : Type} (f : α → β) (l : List α) (i : Nat) :
    (l.eraseIdx i).map f = (l.map f).eraseIdx i := by
  induction l generalizing i with
  | nil => rfl
  | cons a l ih =>
    cases i with
    | zero => rfl
    | succ i => simp [ih]

theorem da_depths_delete_at_nodup (da : dynamic_array) (i : Nat) (h : (da_depths da).Nodup) :
    (da_depths (da_delete_at da i)).Nodup := by
  by_cases hi : i < da.used
  · have hp := (da_records_delete_at_perm da i hi).1
    have hp2 : (da_depths (da_delete_at da i)).Perm ((da_depths da).eraseIdx i) := by
      unfold da_depths
      rw [← map_eraseIdx]
      exact hp.map _
    exact (List.Perm.nodup_iff hp2).mpr (List.Nodup.sublist (List.eraseIdx_sublist _ _) h)
  · rw [da_delete_at_invalid da i (by omega)]
    exact h

/-- C7: if no two of the first `used` records of a column share a depth, then
(a) after `da_insert` of a record whose depth `da_find_z` does not find, and
(b) after `da_delete_at` at any index, still no two records share a depth. -/
theorem C7_depth_uniqueness (da : dynamic_array) (h : (da_depths da).Nodup) :
    (∀ nd : node, da_find_z da nd.z = -1 → (da_depths (da_insert da nd)).Nodup) ∧
    (∀ i : Nat, (da_depths (da_delete_at da i)).Nodup) := by
  constructor
  · intro nd hfind
    rw [da_depths_insert]
    rw [da_find_z_eq_neg_one] at hfind
    exact List.Nodup.append h (List.nodup_singleton _) (by simpa using hfind)
  · intro i
    exact da_depths_delete_at_nodup da i h

theorem C7_depth_uniqueness_witness :
    (da_depths (da_insert (da_make 4) ⟨5, -1, false⟩)).Nodup ∧
    ((∀ nd : node, da_find_z (da_insert (da_make 4) ⟨5, -1, false⟩) nd.z = -1 →
        (da_depths (da_insert (da_insert (da_make 4) ⟨5, -1, false⟩) nd)).Nodup) ∧
      (∀ i : Nat, (da_depths (da_delete_at (da_insert (da_make 4) ⟨5, -1, false⟩) i)).Nodup)) :=
  ⟨by decide, C7_depth_uniqueness _ (by decide)⟩

/-- C8 as stated fails: a column holding one record of depth `7` accepts a
second record of depth `7`; the used count goes from `1` to `2` and the records
change. -/
theorem C8_duplicate_insert_counterexample :
    (7 : Int) ∈ da_depths (da_insert (da_make 4) ⟨7, -1, false⟩) ∧
    (da_insert (da_make 4) ⟨7, -1, false⟩).used = 1 ∧
    (da_insert (da_insert (da_make 4) ⟨7, -1, false⟩) ⟨7, 1, true⟩).used = 2 ∧
    da_records (da_insert (da_insert (da_make 4) ⟨7, -1, false⟩) ⟨7, 1, true⟩) =
      [⟨7, -1, false⟩, ⟨7, 1, true⟩] ∧
    da_records (da_insert (da_insert (da_make 4) ⟨7, -1, false⟩) ⟨7, 1, true⟩) ≠
      da_records (da_insert (da_make 4) ⟨7, -1, false⟩) := by
  decide

/-- C8, amended: `da_insert` appends unconditionally, whether or not the depth
is already present: the new record is stored last and the used count grows by
one; `matrix_insert` does exactly this to the column it addresses, creating it
with `da_make_ptr 4` when it was `NULL`. -/
theorem C8_insert_always_appends (da : dynamic_array) (nd : node) (m : Matrix)
    (x y z : Int) (is_dead : Bool) (num_nei : Int) :
    da_records (da_insert da nd) = da_records da ++ [nd] ∧
    (da_insert da nd).used = da.used + 1 ∧
    matrix_get (matrix_insert m x y z is_dead num_nei) x y =
      some (da_insert ((matrix_get m x y).getD (da_make_ptr 4)) ⟨z, num_nei, is_dead⟩) := by
  refine ⟨da_records_insert da nd, da_insert_used da nd, ?_⟩
  unfold matrix_insert matrix_get
  cases hcol : m.data (x + y * m.side) <;> simp

end Life3d

namespace Life3d

/-! ## Sparse grid: auxiliary facts -/

theorem flat_index_inj (s x y x1 y1 : Int) (hx : 0 ≤ x ∧ x < s) (hx1 : 0 ≤ x1 ∧ x1 < s)
    (h : x + y * s = x1 + y1 * s) : x = x1 ∧ y = y1 := by
  have e1 : (x + y * s) % s = x := by
    rw [Int.add_mul_emod_self, Int.emod_eq_of_lt hx.1 hx.2]
  have e2 : (x1 + y1 * s) % s = x1 := by
    rw [Int.add_mul_emod_self, Int.emod_eq_of_lt hx1.1 hx1.2]
  have hxx : x = x1 := by rw [← e1, ← e2, h]
  subst hxx
  refine ⟨rfl, ?_⟩
  have hs : s ≠ 0 := by omega
  have : y * s = y1 * s := by omega
  exact Int.eq_of_mul_eq_mul_right hs this

theorem matrix_insert_side (m : Matrix) (x y z : Int) (d : Bool) (n : Int) :
    (matrix_insert m x y z d n).side = m.side := rfl

theorem matrix_get_insert_same (m : Matrix) (x y z : Int) (d : Bool) (n : Int) :
    matrix_get (matrix_insert m x y z d n) x y =
      some (da_insert ((matrix_get m x y).getD (da_make_ptr 4)) ⟨z, n, d⟩) := by
  unfold matrix_insert matrix_get
  cases hcol : m.data (x + y * m.side) <;> simp

theorem matrix_get_insert_other (m : Matrix) (x y z : Int) (d : Bool) (n : Int) (x1 y1 : Int)
    (hx : 0 ≤ x ∧ x < m.side) (hx1 : 0 ≤ x1 ∧ x1 < m.side) (hne : ¬ (x1 = x ∧ y1 = y)) :
    matrix_get (matrix_insert m x y z d n) x1 y1 = matrix_get m x1 y1 := by
  unfold matrix_insert matrix_get
  dsimp only
  rw [Function.update_noteq]
  intro h
  exact hne (flat_index_inj m.side x1 y1 x y hx1 hx h)

theorem da_depths_make_ptr (s : Nat) : da_depths (da_make_ptr s) = [] := rfl

theorem column_depths_insert (m : Matrix) (x y z : Int) (d : Bool) (n : Int) (x1 y1 : Int)
    (hx : 0 ≤ x ∧ x < m.side) (hx1 : 0 ≤ x1 ∧ x1 < m.side) :
    column_depths (matrix_insert m x y z d n) x1 y1 =
      if x1 = x ∧ y1 = y then column_depths m x y ++ [z] else column_depths m x1 y1 := by
  by_cases h : x1 = x ∧ y1 = y
  · obtain ⟨rfl, rfl⟩ := h
    simp only [and_self, if_true]
    unfold column_depths
    rw [matrix_get_insert_same]
    cases hcol : matrix_get m x1 y1 with
    | none => simp [da_depths_insert, da_depths_make_ptr]
    | some da => simp [da_depths_insert]
  · rw [if_neg h]
    unfold column_depths
    rw [matrix_get_insert_other m x y z d n x1 y1 hx hx1 h]

theorem mem_matrix_print_live (m : Matrix) (x y z : Int) :
    (x, y, z) ∈ matrix_print_live m ↔
      0 ≤ x ∧ x < m.side ∧ 0 ≤ y ∧ y < m.side ∧ z ∈ column_depths m x y := by
  unfold matrix_print_live column_depths
  simp only [List.mem_flatMap, List.mem_range]
  constructor
  · rintro ⟨i, hi, j, hj, hmem⟩
    cases hcol : matrix_get m (i : Int) (j : Int) with
    | none => rw [hcol] at hmem; simp at hmem
    | some da =>
      rw [hcol] at hmem
      simp only [List.mem_map, Prod.mk.injEq] at hmem
      obtain ⟨nd, hnd, rfl, rfl, rfl⟩ := hmem
      refine ⟨by omega, by omega, by omega, by omega, ?_⟩
      rw [hcol]
      have : nd ∈ da_records da := (List.perm_insertionSort _ _).mem_iff.mp hnd
      exact List.mem_map.mpr ⟨nd, this, rfl⟩
  · rintro ⟨hx0, hx1, hy0, hy1, hz⟩
    refine ⟨x.toNat, by omega, y.toNat, by omega, ?_⟩
    have ex : ((x.toNat : Nat) : Int) = x := Int.toNat_of_nonneg hx0
    have ey : ((y.toNat : Nat) : Int) = y := Int.toNat_of_nonneg hy0
    rw [ex, ey]
    cases hcol : matrix_get m x y with
    | none => rw [hcol] at hz; simp at hz
    | some da =>
      rw [hcol] at hz
      obtain ⟨nd, hnd, rfl⟩ := List.mem_map.mp hz
      exact List.mem_map.mpr ⟨nd, (List.perm_insertionSort _ _).mem_iff.mpr hnd, rfl⟩

end Life3d

namespace Life3d

theorem flatMap_range_nil {β : Type} (n : Nat) (f : Nat → List β)
    (h : ∀ i, i < n → f i = []) : (List.range n).flatMap f = [] := by
  induction n with
  | zero => rfl
  | succ n ih =>
    rw [List.range_succ, List.flatMap_append, List.flatMap_singleton,
      ih (fun i hi => h i (by omega)), h n (by omega)]
    rfl

theorem flatMap_range_single {β : Type} (n k : Nat) (f : Nat → List β) (hk : k < n)
    (h : ∀ i, i < n → i ≠ k → f i = []) : (List.range n).flatMap f = f k := by
  induction n with
  | zero => omega
  | succ n ih =>
    rw [List.range_succ, List.flatMap_append, List.flatMap_singleton]
    by_cases hkn : k = n
    · subst hkn
      rw [flatMap_range_nil k f (fun i hi => h i (by omega) (by omega))]
      rfl
    · rw [ih (by omega) (fun i hi hne => h i (by omega) hne), h n (by omega) (by omega)]
      simp

/-- The lines printed for one in-range column are its records in ascending
depth. -/
theorem matrix_print_live_column (m : Matrix) (x y : Int) (hx : 0 ≤ x ∧ x < m.side)
    (hy : 0 ≤ y ∧ y < m.side) :
    (matrix_print_live m).filter (fun t => decide (t.1 = x ∧ t.2.1 = y)) =
      match matrix_get m x y with
      | none => []
      | some da => (std_sort (da_records da)).map fun nd => (x, y, nd.z) := by
  unfold matrix_print_live
  have ex : ((x.toNat : Nat) : Int) = x := Int.toNat_of_nonneg hx.1
  have ey : ((y.toNat : Nat) : Int) = y := Int.toNat_of_nonneg hy.1
  rw [List.filter_flatMap, flatMap_range_single m.side.toNat x.toNat _ (by omega)]
  · rw [List.filter_flatMap, flatMap_range_single m.side.toNat y.toNat _ (by omega)]
    · rw [ex, ey]
      cases matrix_get m x y with
      | none => rfl
      | some da =>
        dsimp only
        rw [List.filter_eq_self]
        intro t ht
        obtain ⟨nd, _, rfl⟩ := List.mem_map.mp ht
        simp
    · intro j _ hj
      rw [List.filter_eq_nil_iff]
      intro t ht
      have hjy : (j : Int) ≠ y := by omega
      cases hcol : matrix_get m (x.toNat : Int) (j : Int) with
      | none => rw [hcol] at ht; simp at ht
      | some da =>
        rw [hcol] at ht
        obtain ⟨nd, _, rfl⟩ := List.mem_map.mp ht
        simp [hjy]
  · intro i _ hi
    rw [List.filter_eq_nil_iff]
    intro t ht
    have hix : (i : Int) ≠ x := by omega
    obtain ⟨j, _, ht⟩ := List.mem_flatMap.mp ht
    cases hcol : matrix_get m (i : Int) (j : Int) with
    | none => rw [hcol] at ht; simp at ht
    | some da =>
      rw [hcol] at ht
      obtain ⟨nd, _, rfl⟩ := List.mem_map.mp ht
      simp [hix]

/-- C9 as stated fails: a grid of side 1 whose only record is dead-but-tracked
(`is_dead = true`) at depth 0 gets the line `0 0 0` printed. -/
theorem C9_dead_record_printed_counterexample :
    (matrix_get (matrix_insert (make_matrix 1) 0 0 0 true 1) 0 0).map da_records =
      some [⟨0, 1, true⟩] ∧
    matrix_print_live (matrix_insert (make_matrix 1) 0 0 0 true 1) = [(0, 0, 0)] := by
  decide

/-- C9, amended: `matrix_print_live` emits a triple for every stored record of
every column with `x, y` in `[0, side)`, whatever its `is_dead` flag: a triple is
emitted iff some stored record has that depth at that column, and the depths
emitted for a column are a permutation of the depths stored there. -/
theorem C9_print_emits_every_record (m : Matrix) (x y z : Int) :
    ((x, y, z) ∈ matrix_print_live m ↔
      0 ≤ x ∧ x < m.side ∧ 0 ≤ y ∧ y < m.side ∧
        ∃ da nd, matrix_get m x y = some da ∧ nd ∈ da_records da ∧ nd.z = z) ∧
    (0 ≤ x ∧ x < m.side → 0 ≤ y ∧ y < m.side →
      (((matrix_print_live m).filter (fun t => decide (t.1 = x ∧ t.2.1 = y))).map
        (fun t => t.2.2)).Perm (column_depths m x y)) := by
  constructor
  · rw [mem_matrix_print_live]
    unfold column_depths
    cases hcol : matrix_get m x y with
    | none => simp
    | some da => simp [da_depths]
  · intro hx hy
    rw [matrix_print_live_column m x y hx hy]
    unfold column_depths
    cases hcol : matrix_get m x y with
    | none => exact List.Perm.refl _
    | some da =>
      dsimp only
      rw [List.map_map]
      exact (List.perm_insertionSort _ _).map _

theorem C9_print_emits_every_record_witness :
    (((0 : Int), (0 : Int), (0 : Int)) ∈
        matrix_print_live (matrix_insert (make_matrix 1) 0 0 0 true 1) ↔
      (0 : Int) ≤ 0 ∧ 0 < (matrix_insert (make_matrix 1) 0 0 0 true 1).side ∧
        (0 : Int) ≤ 0 ∧ 0 < (matrix_insert (make_matrix 1) 0 0 0 true 1).side ∧
        ∃ da nd, matrix_get (matrix_insert (make_matrix 1) 0 0 0 true 1) 0 0 = some da ∧
          nd ∈ da_records da ∧ nd.z = 0) ∧
    (((matrix_print_live (matrix_insert (make_matrix 1) 0 0 0 true 1)).filter
        (fun t => decide (t.1 = 0 ∧ t.2.1 = 0))).map (fun t => t.2.2)).Perm
      (column_depths (matrix_insert (make_matrix 1) 0 0 0 true 1) 0 0) :=
  ⟨(C9_print_emits_every_record _ 0 0 0).1,
    (C9_print_emits_every_record (matrix_insert (make_matrix 1) 0 0 0 true 1) 0 0 0).2
      (by decide) (by decide)⟩

end Life3d

namespace Life3d

/-! ## Print order and the load loop -/

theorem std_sort_depths_sorted (l : List node) :
    ((std_sort l).map (fun nd => nd.z)).Pairwise (fun a b => a ≤ b) := by
  rw [List.pairwise_map]
  exact @List.sorted_insertionSort node (fun a b => a.z ≤ b.z) _
    ⟨fun a b => le_total a.z b.z⟩ ⟨fun _ _ _ h1 h2 => le_trans h1 h2⟩ l

theorem std_sort_depths_strict (l : List node) (h : (l.map (fun nd => nd.z)).Nodup) :
    ((std_sort l).map (fun nd => nd.z)).Pairwise (fun a b => a < b) := by
  have hp : ((std_sort l).map (fun nd => nd.z)).Perm (l.map (fun nd => nd.z)) :=
    (List.perm_insertionSort _ _).map _
  have hn : ((std_sort l).map (fun nd => nd.z)).Pairwise (fun a b => a ≠ b) :=
    (List.Perm.nodup_iff hp).mpr h
  exact ((std_sort_depths_sorted l).and hn).imp (fun h => lt_of_le_of_ne h.1 h.2)

/-- The printed lines are in strictly ascending `(x, y, z)` order as soon as the
depths of every in-range column are pairwise distinct. -/
theorem matrix_print_live_sorted (m : Matrix)
    (h : ∀ x y, 0 ≤ x ∧ x < m.side → 0 ≤ y ∧ y < m.side → (column_depths m x y).Nodup) :
    (matrix_print_live m).Pairwise triple_lt := by
  unfold matrix_print_live
  rw [List.pairwise_flatMap]
  constructor
  · intro i hi
    have hi1 := List.mem_range.mp hi
    rw [List.pairwise_flatMap]
    constructor
    · intro j hj
      have hj1 := List.mem_range.mp hj
      have hcolnd := h i j (by omega) (by omega)
      unfold column_depths at hcolnd
      cases hcol : matrix_get m (i : Int) (j : Int) with
      | none => exact List.Pairwise.nil
      | some da =>
        rw [hcol] at hcolnd
        dsimp only
        rw [List.pairwise_map]
        have hs := std_sort_depths_strict (da_records da) hcolnd
        rw [List.pairwise_map] at hs
        exact hs.imp (fun hlt => Or.inr ⟨rfl, Or.inr ⟨rfl, hlt⟩⟩)
    · refine (List.pairwise_lt_range _).imp ?_
      intro j1 j2 hlt a ha b hb
      have ha1 : a.1 = (i : Int) ∧ a.2.1 = (j1 : Int) := by
        cases hcol : matrix_get m (i : Int) (j1 : Int) with
        | none => rw [hcol] at ha; simp at ha
        | some da =>
          rw [hcol] at ha
          obtain ⟨nd, _, rfl⟩ := List.mem_map.mp ha
          exact ⟨rfl, rfl⟩
      have hb1 : b.1 = (i : Int) ∧ b.2.1 = (j2 : Int) := by
        cases hcol : matrix_get m (i : Int) (j2 : Int) with
        | none => rw [hcol] at hb; simp at hb
        | some da =>
          rw [hcol] at hb
          obtain ⟨nd, _, rfl⟩ := List.mem_map.mp hb
          exact ⟨rfl, rfl⟩
      refine Or.inr ⟨by rw [ha1.1, hb1.1], Or.inl ?_⟩
      rw [ha1.2, hb1.2]
      exact_mod_cast hlt
  · refine (List.pairwise_lt_range _).imp ?_
    intro i1 i2 hlt a ha b hb
    have key : ∀ (i : Nat) (t : Int × Int × Int),
        (t ∈ (List.range m.side.toNat).flatMap fun j =>
          match matrix_get m (i : Int) (j : Int) with
          | none => []
          | some da => (std_sort (da_records da)).map fun nd => ((i : Int), (j : Int), nd.z)) →
        t.1 = (i : Int) := by
      intro i t ht
      obtain ⟨j, _, ht⟩ := List.mem_flatMap.mp ht
      cases hcol : matrix_get m (i : Int) (j : Int) with
      | none => rw [hcol] at ht; simp at ht
      | some da =>
        rw [hcol] at ht
        obtain ⟨nd, _, rfl⟩ := List.mem_map.mp ht
        rfl
    left
    rw [key i1 a ha, key i2 b hb]
    exact_mod_cast hlt

theorem triple_lt_irrefl (a : Int × Int × Int) : ¬ triple_lt a a := by
  unfold triple_lt
  omega

theorem pairwise_triple_lt_nodup (l : List (Int × Int × Int)) (h : l.Pairwise triple_lt) :
    l.Nodup := by
  unfold List.Nodup
  refine h.imp ?_
  intro a b hlt heq
  subst heq
  exact triple_lt_irrefl a hlt

theorem foldl_insert_side (cells : List (Int × Int × Int)) (m : Matrix) :
    (cells.foldl (fun m c => matrix_insert m c.1 c.2.1 c.2.2 false (-1)) m).side = m.side := by
  induction cells generalizing m with
  | nil => rfl
  | cons c cells ih =>
    rw [List.foldl_cons, ih, matrix_insert_side]

theorem column_depths_foldl_insert (cells : List (Int × Int × Int)) (m : Matrix) (x y : Int)
    (hx : 0 ≤ x ∧ x < m.side)
    (hr : ∀ c ∈ cells, 0 ≤ c.1 ∧ c.1 < m.side) :
    column_depths (cells.foldl (fun m c => matrix_insert m c.1 c.2.1 c.2.2 false (-1)) m) x y =
      column_depths m x y ++
        (cells.filter (fun c => decide (c.1 = x ∧ c.2.1 = y))).map (fun c => c.2.2) := by
  induction cells generalizing m with
  | nil => simp
  | cons c cells ih =>
    rw [List.foldl_cons, ih _ (by rw [matrix_insert_side]; exact hx)
      (by
        intro c1 hc1
        rw [matrix_insert_side]
        exact hr c1 (List.mem_cons_of_mem _ hc1))]
    rw [column_depths_insert m c.1 c.2.1 c.2.2 false (-1) x y (hr c (List.mem_cons_self _ _)) hx]
    by_cases hc : x = c.1 ∧ y = c.2.1
    · obtain ⟨rfl, rfl⟩ := hc
      simp
    · rw [if_neg hc]
      have : ¬ (c.1 = x ∧ c.2.1 = y) := fun h => hc ⟨h.1.symm, h.2.symm⟩
      simp [List.filter_cons, this]

theorem column_depths_make_matrix (side x y : Int) : column_depths (make_matrix side) x y = [] :=
  rfl

theorem column_depths_load (side : Int) (cells : List (Int × Int × Int)) (x y : Int)
    (hx : 0 ≤ x ∧ x < side) (hr : ∀ c ∈ cells, 0 ≤ c.1 ∧ c.1 < side) :
    column_depths (load side cells) x y =
      (cells.filter (fun c => decide (c.1 = x ∧ c.2.1 = y))).map (fun c => c.2.2) := by
  unfold load
  rw [column_depths_foldl_insert cells (make_matrix side) x y hx hr, column_depths_make_matrix]
  rfl

/-- C10: for every side and every list of pairwise distinct triples with `x, y`
in `[0, side)`, loading the list with `make_matrix` and one `matrix_insert` per
triple and printing with `matrix_print_live` emits exactly the input triples,
each once, in strictly ascending lexicographic `(x, y, z)` order. -/
theorem C10_load_then_print (side : Int) (cells : List (Int × Int × Int)) (hnd : cells.Nodup)
    (hr : ∀ c ∈ cells, 0 ≤ c.1 ∧ c.1 < side ∧ 0 ≤ c.2.1 ∧ c.2.1 < side) :
    (matrix_print_live (load side cells)).Perm cells ∧
    (matrix_print_live (load side cells)).Pairwise triple_lt := by
  have hside : (load side cells).side = side := foldl_insert_side cells (make_matrix side)
  have hr1 : ∀ c ∈ cells, 0 ≤ c.1 ∧ c.1 < side := fun c hc => ⟨(hr c hc).1, (hr c hc).2.1⟩
  have hsorted : (matrix_print_live (load side cells)).Pairwise triple_lt := by
    apply matrix_print_live_sorted
    intro x y hx _
    rw [hside] at hx
    rw [column_depths_load side cells x y hx hr1]
    apply List.Nodup.map_on _ (hnd.filter _)
    intro a ha b hb hab
    simp only [List.mem_filter, decide_eq_true_eq] at ha hb
    obtain ⟨a1, a2, a3⟩ := a
    obtain ⟨b1, b2, b3⟩ := b
    simp only at ha hb hab
    rw [ha.2.1, ha.2.2, hb.2.1, hb.2.2, hab]
  refine ⟨?_, hsorted⟩
  rw [List.perm_ext_iff_of_nodup (pairwise_triple_lt_nodup _ hsorted) hnd]
  rintro ⟨x, y, z⟩
  rw [mem_matrix_print_live, hside]
  constructor
  · rintro ⟨hx0, hx1, _, _, hz⟩
    rw [column_depths_load side cells x y ⟨hx0, hx1⟩ hr1] at hz
    obtain ⟨c, hc, rfl⟩ := List.mem_map.mp hz
    simp only [List.mem_filter, decide_eq_true_eq] at hc
    obtain ⟨c1, c2, c3⟩ := c
    simp only at hc
    rw [← hc.2.1, ← hc.2.2]
    exact hc.1
  · intro hmem
    obtain ⟨h1, h2, h3, h4⟩ := hr _ hmem
    refine ⟨h1, h2, h3, h4, ?_⟩
    rw [column_depths_load side cells x y ⟨h1, h2⟩ hr1]
    exact List.mem_map.mpr ⟨(x, y, z), by simp [hmem], rfl⟩

theorem C10_load_then_print_witness :
    ([((1 : Int), (0 : Int), (2 : Int)), (0, 1, 0), (1, 0, 1)] : List (Int × Int × Int)).Nodup ∧
    (∀ c ∈ ([(1, 0, 2), (0, 1, 0), (1, 0, 1)] : List (Int × Int × Int)),
      0 ≤ c.1 ∧ c.1 < 2 ∧ 0 ≤ c.2.1 ∧ c.2.1 < 2) ∧
    (matrix_print_live (load 2 [(1, 0, 2), (0, 1, 0), (1, 0, 1)])).Perm
      [(1, 0, 2), (0, 1, 0), (1, 0, 1)] ∧
    (matrix_print_live (load 2 [(1, 0, 2), (0, 1, 0), (1, 0, 1)])).Pairwise triple_lt :=
  ⟨by decide, by decide,
    C10_load_then_print 2 [(1, 0, 2), (0, 1, 0), (1, 0, 1)] (by decide) (by decide)⟩

end Life3d

namespace Life3d

/-! ## Column store: deletion and lookup claims -/

/-- C13: for `i < used`, `da_delete_at` leaves `used - 1` records; slot `j` keeps
its record for every `j < used - 1` other than `i`; if `i < used - 1` slot `i`
holds the record that was last; the stored records are the old ones minus the
record at index `i` (as a multiset), whether or not the capacity halves, and the
capacity is either unchanged or halved. -/
theorem C13_delete_swaps_last (da : dynamic_array) (i : Nat) (h : i < da.used) :
    (da_delete_at da i).used = da.used - 1 ∧
    (∀ j, j < da.used - 1 → j ≠ i → (da_delete_at da i).data j = da.data j) ∧
    (i < da.used - 1 → (da_delete_at da i).data i = da.data (da.used - 1)) ∧
    (da_records (da_delete_at da i)).Perm ((da_records da).eraseIdx i) ∧
    ((da_delete_at da i).size = da.size ∨ (da_delete_at da i).size = da.size / 2) := by
  refine ⟨da_delete_at_used da i h, ?_, ?_, (da_records_delete_at_perm da i h).1, ?_⟩
  · intro j _ hji
    rw [da_delete_at_data da i h]
    simp [Function.update, hji]
  · intro _
    rw [da_delete_at_data da i h]
    simp
  · rw [da_delete_at_size da i h]
    split_ifs
    · right; rfl
    · left; rfl

theorem C13_delete_swaps_last_witness :
    (da_delete_at (da_insert (da_insert (da_make 4) ⟨5, -1, false⟩) ⟨6, -1, false⟩) 0).used =
      (da_insert (da_insert (da_make 4) ⟨5, -1, false⟩) ⟨6, -1, false⟩).used - 1 ∧
    da_records (da_delete_at (da_insert (da_insert (da_make 4) ⟨5, -1, false⟩) ⟨6, -1, false⟩) 0)
      = [⟨6, -1, false⟩] :=
  ⟨(C13_delete_swaps_last (da_insert (da_insert (da_make 4) ⟨5, -1, false⟩) ⟨6, -1, false⟩) 0
      (by decide)).1, by decide⟩

/-- C14: `da_find_z da d` is `-1` iff none of the first `used` records has depth
`d`; otherwise it is the smallest slot below `used` whose record has depth `d`. -/
theorem C14_find_is_first_match (da : dynamic_array) (d : Int) :
    (da_find_z da d = -1 ↔ ∀ k, k < da.used → (da.data k).z ≠ d) ∧
    (da_find_z da d ≠ -1 →
      ∃ i, i < da.used ∧ da_find_z da d = (i : Int) ∧ (da.data i).z = d ∧
        ∀ k, k < i → (da.data k).z ≠ d) := by
  constructor
  · rw [da_find_z_eq_neg_one, mem_da_depths]
    constructor
    · intro hno k hk hz
      exact hno ⟨k, hk, hz⟩
    · rintro hall ⟨k, hk, hz⟩
      exact hall k hk hz
  · exact da_find_z_found da d

theorem C14_find_is_first_match_witness :
    da_find_z (da_insert (da_insert (da_make 4) ⟨5, -1, false⟩) ⟨6, -1, false⟩) 6 ≠ -1 ∧
    ∃ i, i < (da_insert (da_insert (da_make 4) ⟨5, -1, false⟩) ⟨6, -1, false⟩).used ∧
      da_find_z (da_insert (da_insert (da_make 4) ⟨5, -1, false⟩) ⟨6, -1, false⟩) 6 = (i : Int) ∧
      ((da_insert (da_insert (da_make 4) ⟨5, -1, false⟩) ⟨6, -1, false⟩).data i).z = 6 ∧
      ∀ k, k < i →
        ((da_insert (da_insert (da_make 4) ⟨5, -1, false⟩) ⟨6, -1, false⟩).data k).z ≠ 6 :=
  ⟨by decide,
    (C14_find_is_first_match
      (da_insert (da_insert (da_make 4) ⟨5, -1, false⟩) ⟨6, -1, false⟩) 6).2 (by decide)⟩

/-- C16: for an index `i ≥ used`, `da_delete_at` changes nothing: the used
count, the capacity and every stored record are as before. -/
theorem C16_invalid_delete_ignored (da : dynamic_array) (i : Nat) (h : da.used ≤ i) :
    (da_delete_at da i).used = da.used ∧
    (da_delete_at da i).size = da.size ∧
    (da_delete_at da i).initial_size = da.initial_size ∧
    (∀ k, (da_delete_at da i).data k = da.data k) ∧
    da_records (da_delete_at da i) = da_records da := by
  rw [da_delete_at_invalid da i h]
  exact ⟨rfl, rfl, rfl, fun _ => rfl, rfl⟩

theorem C16_invalid_delete_ignored_witness :
    (da_delete_at (da_insert (da_make 4) ⟨5, -1, false⟩) 1).used =
      (da_insert (da_make 4) ⟨5, -1, false⟩).used ∧
    (da_delete_at (da_insert (da_make 4) ⟨5, -1, false⟩) 1).size =
      (da_insert (da_make 4) ⟨5, -1, false⟩).size ∧
    (da_delete_at (da_insert (da_make 4) ⟨5, -1, false⟩) 1).initial_size =
      (da_insert (da_make 4) ⟨5, -1, false⟩).initial_size ∧
    (∀ k, (da_delete_at (da_insert (da_make 4) ⟨5, -1, false⟩) 1).data k =
      (da_insert (da_make 4) ⟨5, -1, false⟩).data k) ∧
    da_records (da_delete_at (da_insert (da_make 4) ⟨5, -1, false⟩) 1) =
      da_records (da_insert (da_make 4) ⟨5, -1, false⟩) :=
  C16_invalid_delete_ignored (da_insert (da_make 4) ⟨5, -1, false⟩) 1 (by decide)

end Life3d

namespace Life3d

/-! ## Block sizes -/

theorem BLOCK_SIZE_eq (i p n : Int) : BLOCK_SIZE i p n = BLOCK_LOW (i + 1) p n - BLOCK_LOW i p n := by
  unfold BLOCK_SIZE BLOCK_HIGH
  ring

theorem ediv_step_bounds (a n p : Int) (hp : 0 < p) :
    n / p ≤ (a + n) / p - a / p ∧ (a + n) / p - a / p ≤ n / p + 1 ∧
    (p ∣ n → (a + n) / p - a / p = n / p) := by
  have hp0 : p ≠ 0 := ne_of_gt hp
  have c1 := Int.ediv_mul_le a hp0
  have c2 := Int.lt_ediv_add_one_mul_self a hp
  have d1 := Int.ediv_mul_le (a + n) hp0
  have d2 := Int.lt_ediv_add_one_mul_self (a + n) hp
  have q1 := Int.ediv_mul_le n hp0
  have q2 := Int.lt_ediv_add_one_mul_self n hp
  set c := a / p
  set d := (a + n) / p
  set q := n / p
  refine ⟨?_, ?_, ?_⟩
  · have h : (c + q) * p < (d + 1) * p := by nlinarith
    have := lt_of_mul_lt_mul_right h (le_of_lt hp)
    omega
  · have h : d * p < (c + q + 2) * p := by nlinarith
    have := lt_of_mul_lt_mul_right h (le_of_lt hp)
    omega
  · intro hdvd
    have hq : q * p = n := Int.ediv_mul_cancel hdvd
    have h1 : (c + q) * p < (d + 1) * p := by nlinarith
    have h2 : d * p < (c + q + 1) * p := by nlinarith
    have := lt_of_mul_lt_mul_right h1 (le_of_lt hp)
    have := lt_of_mul_lt_mul_right h2 (le_of_lt hp)
    omega

theorem ceil_div_cases (n p : Int) (hp : 0 < p) :
    (p ∣ n → (n + p - 1) / p = n / p) ∧ (¬ p ∣ n → (n + p - 1) / p = n / p + 1) := by
  have hp0 : p ≠ 0 := ne_of_gt hp
  have q1 := Int.ediv_mul_le n hp0
  have q2 := Int.lt_ediv_add_one_mul_self n hp
  have e1 := Int.ediv_mul_le (n + p - 1) hp0
  have e2 := Int.lt_ediv_add_one_mul_self (n + p - 1) hp
  set q := n / p
  set e := (n + p - 1) / p
  constructor
  · intro hdvd
    have hq : q * p = n := Int.ediv_mul_cancel hdvd
    have h1 : e * p < (q + 1) * p := by nlinarith
    have h2 : q * p < (e + 1) * p := by nlinarith
    have := lt_of_mul_lt_mul_right h1 (le_of_lt hp)
    have := lt_of_mul_lt_mul_right h2 (le_of_lt hp)
    omega
  · intro hndvd
    have hne : q * p ≠ n := by
      intro h
      exact hndvd ⟨q, by rw [← h]; ring⟩
    have hlt : q * p < n := lt_of_le_of_ne q1 hne
    have h1 : e * p < (q + 2) * p := by nlinarith
    have h2 : (q + 1) * p < (e + 1) * p := by nlinarith
    have := lt_of_mul_lt_mul_right h1 (le_of_lt hp)
    have := lt_of_mul_lt_mul_right h2 (le_of_lt hp)
    omega

theorem BLOCK_SIZE_sum_range (p n : Int) (k : Nat) :
    ((List.range k).map (fun i : Nat => BLOCK_SIZE (i : Int) p n)).sum = BLOCK_LOW (k : Int) p n := by
  induction k with
  | zero => simp [BLOCK_LOW]
  | succ k ih =>
    rw [List.range_succ, List.map_append, List.sum_append, ih]
    simp only [List.map_cons, List.map_nil, List.sum_cons, List.sum_nil, add_zero]
    rw [BLOCK_SIZE_eq]
    push_cast
    ring

/-- Over the integers, that is, while no product leaves the range of `int`:
`BLOCK_SIZE i p n` is `⌊(i+1)·n/p⌋ − ⌊i·n/p⌋`, which is `⌊n/p⌋` or `⌈n/p⌉`; any two
sizes differ by at most 1 and the `p` sizes sum to `n`. -/
theorem BLOCK_SIZE_even (n p : Int) (hn : 0 < n) (hp : 1 ≤ p) :
    (∀ i, 0 ≤ i → i < p →
      BLOCK_SIZE i p n = (i + 1) * n / p - i * n / p ∧
      (BLOCK_SIZE i p n = n / p ∨ BLOCK_SIZE i p n = (n + p - 1) / p)) ∧
    (∀ i j, 0 ≤ i → i < p → 0 ≤ j → j < p →
      BLOCK_SIZE i p n - BLOCK_SIZE j p n ≤ 1 ∧ BLOCK_SIZE j p n - BLOCK_SIZE i p n ≤ 1) ∧
    ((List.range p.toNat).map (fun i : Nat => BLOCK_SIZE (i : Int) p n)).sum = n := by
  have hp0 : 0 < p := by omega
  have hform : ∀ i, 0 ≤ i → BLOCK_SIZE i p n = (i + 1) * n / p - i * n / p := by
    intro i hi
    rw [BLOCK_SIZE_eq, BLOCK_LOW_eq_ediv (i + 1) p n (by omega) hp0 (le_of_lt hn),
      BLOCK_LOW_eq_ediv i p n hi hp0 (le_of_lt hn)]
  have hb : ∀ i, 0 ≤ i →
      n / p ≤ BLOCK_SIZE i p n ∧ BLOCK_SIZE i p n ≤ n / p + 1 ∧
      (p ∣ n → BLOCK_SIZE i p n = n / p) := by
    intro i hi
    rw [hform i hi]
    have := ediv_step_bounds (i * n) n p hp0
    have e : (i + 1) * n = i * n + n := by ring
    rw [e]
    exact this
  refine ⟨?_, ?_, ?_⟩
  · intro i hi0 _
    refine ⟨hform i hi0, ?_⟩
    obtain ⟨h1, h2, h3⟩ := hb i hi0
    obtain ⟨c1, c2⟩ := ceil_div_cases n p hp0
    by_cases hd : p ∣ n
    · left; exact h3 hd
    · rw [c2 hd]
      omega
  · intro i j hi0 _ hj0 _
    obtain ⟨h1, h2, _⟩ := hb i hi0
    obtain ⟨g1, g2, _⟩ := hb j hj0
    omega
  · rw [BLOCK_SIZE_sum_range p n, Int.toNat_of_nonneg (le_of_lt hp0),
      BLOCK_LOW_eq_ediv p p n (le_of_lt hp0) hp0 (le_of_lt hn), mul_comm,
      Int.mul_ediv_cancel _ (ne_of_gt hp0)]

/-! ## Block sizes in `int` arithmetic -/

theorem to_int_of_fits (v : Int) (h0 : -2147483648 ≤ v) (h1 : v ≤ 2147483647) : to_int v = v := by
  unfold to_int
  omega

theorem BLOCK_LOW_int_eq (i p n : Int) (hi : 0 ≤ i) (hp : 1 ≤ p) (hn : 0 < n)
    (hfit : i * n ≤ 2147483647) : BLOCK_LOW_int i p n = BLOCK_LOW i p n := by
  have h0 : 0 ≤ i * n := mul_nonneg hi (le_of_lt hn)
  unfold BLOCK_LOW_int
  rw [to_int_of_fits (i * n) (by omega) hfit]
  have e := BLOCK_LOW_eq_ediv i p n hi (by omega) (le_of_lt hn)
  unfold BLOCK_LOW at e ⊢
  have q0 : 0 ≤ i * n / p := Int.ediv_nonneg h0 (by omega)
  have q1 : i * n / p ≤ i * n := Int.ediv_le_self _ h0
  rw [e]
  exact to_int_of_fits _ (by omega) (by omega)

theorem BLOCK_SIZE_int_eq (i p n : Int) (hi : 0 ≤ i) (hip : i < p) (hp : 1 ≤ p) (hn : 0 < n)
    (hfit : p * n ≤ 2147483647) : BLOCK_SIZE_int i p n = BLOCK_SIZE i p n := by
  have h1 : (i + 1) * n ≤ p * n := mul_le_mul_of_nonneg_right (by omega) (le_of_lt hn)
  have h2 : i * n ≤ (i + 1) * n := mul_le_mul_of_nonneg_right (by omega) (le_of_lt hn)
  have h3 : i + 1 ≤ (i + 1) * n := le_mul_of_one_le_right (by omega) (by omega)
  have lo := BLOCK_LOW_int_eq i p n hi hp hn (by omega)
  have hi1 := BLOCK_LOW_int_eq (i + 1) p n (by omega) hp hn (by omega)
  have b0 : 0 ≤ BLOCK_LOW i p n ∧ BLOCK_LOW i p n ≤ i * n := by
    rw [BLOCK_LOW_eq_ediv i p n hi (by omega) (le_of_lt hn)]
    exact ⟨Int.ediv_nonneg (mul_nonneg hi (le_of_lt hn)) (by omega),
      Int.ediv_le_self _ (mul_nonneg hi (le_of_lt hn))⟩
  have b1 : 0 ≤ BLOCK_LOW (i + 1) p n ∧ BLOCK_LOW (i + 1) p n ≤ (i + 1) * n := by
    rw [BLOCK_LOW_eq_ediv (i + 1) p n (by omega) (by omega) (le_of_lt hn)]
    exact ⟨Int.ediv_nonneg (mul_nonneg (by omega) (le_of_lt hn)) (by omega),
      Int.ediv_le_self _ (mul_nonneg (by omega) (le_of_lt hn))⟩
  unfold BLOCK_SIZE_int BLOCK_HIGH_int BLOCK_SIZE BLOCK_HIGH
  rw [to_int_of_fits (i + 1) (by omega) (by omega), hi1, lo,
    to_int_of_fits (BLOCK_LOW (i + 1) p n - 1) (by omega) (by omega),
    to_int_of_fits (BLOCK_LOW (i + 1) p n - 1 - BLOCK_LOW i p n) (by omega) (by omega),
    to_int_of_fits _ (by omega) (by omega)]

/-- C15 as stated fails: with 70001 workers and side 32767 the product
`(i + 1) * n` of worker 65538 is `2147516413`, outside `int`, and `BLOCK_SIZE`
comes out as `-61354`, neither the difference of the floors nor `⌊n/p⌋` or
`⌈n/p⌉`. -/
theorem C15_block_size_overflow_counterexample :
    (0 : Int) < 32767 ∧ (1 : Int) ≤ 70001 ∧ (0 : Int) ≤ 65538 ∧ (65538 : Int) < 70001 ∧
    BLOCK_SIZE_int 65538 70001 32767 = -61354 ∧
    BLOCK_SIZE_int 65538 70001 32767 ≠ (65538 + 1) * 32767 / 70001 - 65538 * 32767 / 70001 ∧
    ¬ (BLOCK_SIZE_int 65538 70001 32767 = 32767 / 70001 ∨
        BLOCK_SIZE_int 65538 70001 32767 = (32767 + 70001 - 1) / 70001) := by
  decide

/-- C15: for `n > 0`, `p ≥ 1` with `p * n` within `int` (at most `2^31 - 1`) and
`0 ≤ i < p`, `BLOCK_SIZE(i, p, n)` evaluated in `int` arithmetic is
`⌊(i+1)·n/p⌋ − ⌊i·n/p⌋`, which is `⌊n/p⌋` or `⌈n/p⌉`; the sizes of any two
workers differ by at most 1 and the sizes of the `p` workers sum to `n`. -/
theorem C15_block_sizes_even (n p : Int) (hn : 0 < n) (hp : 1 ≤ p)
    (hfit : p * n ≤ 2147483647) :
    (∀ i, 0 ≤ i → i < p →
      BLOCK_SIZE_int i p n = (i + 1) * n / p - i * n / p ∧
      (BLOCK_SIZE_int i p n = n / p ∨ BLOCK_SIZE_int i p n = (n + p - 1) / p)) ∧
    (∀ i j, 0 ≤ i → i < p → 0 ≤ j → j < p →
      BLOCK_SIZE_int i p n - BLOCK_SIZE_int j p n ≤ 1 ∧
      BLOCK_SIZE_int j p n - BLOCK_SIZE_int i p n ≤ 1) ∧
    ((List.range p.toNat).map (fun i : Nat => BLOCK_SIZE_int (i : Int) p n)).sum = n := by
  obtain ⟨e1, e2, e3⟩ := BLOCK_SIZE_even n p hn hp
  refine ⟨?_, ?_, ?_⟩
  · intro i hi0 hip
    rw [BLOCK_SIZE_int_eq i p n hi0 hip hp hn hfit]
    exact e1 i hi0 hip
  · intro i j hi0 hip hj0 hjp
    rw [BLOCK_SIZE_int_eq i p n hi0 hip hp hn hfit, BLOCK_SIZE_int_eq j p n hj0 hjp hp hn hfit]
    exact e2 i j hi0 hip hj0 hjp
  · have hmap : (List.range p.toNat).map (fun i : Nat => BLOCK_SIZE_int (i : Int) p n) =
        (List.range p.toNat).map (fun i : Nat => BLOCK_SIZE (i : Int) p n) := by
      apply List.map_congr_left
      intro i hi
      have := List.mem_range.mp hi
      exact BLOCK_SIZE_int_eq (i : Int) p n (by omega) (by omega) hp hn hfit
    rw [hmap]
    exact e3

theorem C15_block_sizes_even_witness :
    (∀ i, 0 ≤ i → i < 3 →
      BLOCK_SIZE_int i 3 10 = (i + 1) * 10 / 3 - i * 10 / 3 ∧
      (BLOCK_SIZE_int i 3 10 = 10 / 3 ∨ BLOCK_SIZE_int i 3 10 = (10 + 3 - 1) / 3)) ∧
    (∀ i j, 0 ≤ i → i < 3 → 0 ≤ j → j < 3 →
      BLOCK_SIZE_int i 3 10 - BLOCK_SIZE_int j 3 10 ≤ 1 ∧
      BLOCK_SIZE_int j 3 10 - BLOCK_SIZE_int i 3 10 ≤ 1) ∧
    ((List.range (3 : Int).toNat).map (fun i : Nat => BLOCK_SIZE_int (i : Int) 3 10)).sum = 10 :=
  C15_block_sizes_even 10 3 (by decide) (by decide) (by decide)

/-! ## Growth and shrink thresholds -/

theorem da_make_initial_size_ge (s : Nat) (ops : List da_op) :
    4 ≤ (da_run (da_make s) ops).initial_size := by
  rw [da_run_initial_size]
  show 4 ≤ MAX 4 s
  rw [MAX_eq_max]
  omega

/-- C20: for every array reachable from `da_make` by `da_insert` and
`da_delete_at`, (a) if a `da_delete_at` halves the capacity then a `da_insert`
right after it does not double it, and (b) if a `da_insert` doubles the capacity
then a `da_delete_at` of a valid index right after it does not halve it. -/
theorem C20_thresholds_never_thrash (s : Nat) (ops : List da_op) :
    (∀ (i : Nat) (nd : node),
      (da_delete_at (da_run (da_make s) ops) i).size < (da_run (da_make s) ops).size →
      (da_insert (da_delete_at (da_run (da_make s) ops) i) nd).size =
        (da_delete_at (da_run (da_make s) ops) i).size) ∧
    (∀ (nd : node) (i : Nat),
      (da_run (da_make s) ops).size < (da_insert (da_run (da_make s) ops) nd).size →
      i < (da_insert (da_run (da_make s) ops) nd).used →
      (da_delete_at (da_insert (da_run (da_make s) ops) nd) i).size =
        (da_insert (da_run (da_make s) ops) nd).size) := by
  obtain ⟨h1, _, k, hk⟩ := da_cap_inv_run ops (da_make s) (da_cap_inv_make s)
  have h4 := da_make_initial_size_ge s ops
  set da := da_run (da_make s) ops
  have hsz : da.initial_size ≤ da.size := by
    rw [hk]; exact Nat.le_mul_of_pos_right _ (Nat.pos_pow_of_pos k (by decide))
  constructor
  · intro i nd hhalf
    by_cases hi : i < da.used
    · rw [da_delete_at_size da i hi] at hhalf
      rw [da_insert_size, da_delete_at_used da i hi, da_delete_at_size da i hi]
      by_cases hc : da.size > da.initial_size ∧ da.used - 1 ≤ da.size / 4
      · rw [if_pos hc]
        rw [if_neg]
        omega
      · rw [if_neg hc] at hhalf
        omega
    · rw [da_delete_at_invalid da i (by omega)] at hhalf
      omega
  · intro nd i hdbl hi
    rw [da_insert_size] at hdbl
    rw [da_insert_used] at hi
    rw [da_delete_at_size _ i (by rw [da_insert_used]; exact hi), da_insert_size,
      da_insert_used, da_insert_initial_size]
    by_cases hfull : da.used = da.size
    · rw [if_pos hfull]
      rw [if_neg]
      omega
    · rw [if_neg hfull] at hdbl
      omega

theorem C20_thresholds_never_thrash_witness :
    (da_run (da_make 4)
        [.insert ⟨0, 0, false⟩, .insert ⟨1, 0, false⟩, .insert ⟨2, 0, false⟩,
          .insert ⟨3, 0, false⟩]).size <
      (da_insert (da_run (da_make 4)
        [.insert ⟨0, 0, false⟩, .insert ⟨1, 0, false⟩, .insert ⟨2, 0, false⟩,
          .insert ⟨3, 0, false⟩]) ⟨4, 0, false⟩).size ∧
    (da_delete_at (da_insert (da_run (da_make 4)
        [.insert ⟨0, 0, false⟩, .insert ⟨1, 0, false⟩, .insert ⟨2, 0, false⟩,
          .insert ⟨3, 0, false⟩]) ⟨4, 0, false⟩) 0).size =
      (da_insert (da_run (da_make 4)
        [.insert ⟨0, 0, false⟩, .insert ⟨1, 0, false⟩, .insert ⟨2, 0, false⟩,
          .insert ⟨3, 0, false⟩]) ⟨4, 0, false⟩).size :=
  ⟨by decide,
    (C20_thresholds_never_thrash 4
      [.insert ⟨0, 0, false⟩, .insert ⟨1, 0, false⟩, .insert ⟨2, 0, false⟩,
        .insert ⟨3, 0, false⟩]).2 ⟨4, 0, false⟩ 0 (by decide) (by decide)⟩

end Life3d

namespace Life3d

/-! ## Sparse grid: lookup after insert and remove -/

theorem da_find_z_eq_iff (da : dynamic_array) (z : Int) (j : Nat) :
    da_find_z da z = (j : Int) ↔
      j < da.used ∧ (da.data j).z = z ∧ ∀ k, k < j → (da.data k).z ≠ z := by
  constructor
  · intro h
    have hne : da_find_z da z ≠ -1 := by rw [h]; omega
    obtain ⟨i, hi, hie, hiz, himin⟩ := da_find_z_found da z hne
    have : i = j := by rw [hie] at h; exact_mod_cast h
    subst this
    exact ⟨hi, hiz, himin⟩
  · rintro ⟨hj, hjz, hjmin⟩
    have hne : da_find_z da z ≠ -1 := by
      rw [Ne, da_find_z_eq_neg_one, not_not, mem_da_depths]
      exact ⟨j, hj, hjz⟩
    obtain ⟨i, hi, hie, hiz, himin⟩ := da_find_z_found da z hne
    rw [hie]
    rcases Nat.lt_trichotomy i j with h | h | h
    · exact absurd hiz (hjmin i h)
    · rw [h]
    · exact absurd hjz (himin j h)

theorem da_find_z_insert_old (da : dynamic_array) (nd : node) (z : Int)
    (h : da_find_z da z ≠ -1) : da_find_z (da_insert da nd) z = da_find_z da z := by
  obtain ⟨i, hi, hie, hiz, himin⟩ := da_find_z_found da z h
  rw [hie, da_find_z_eq_iff, da_insert_used, da_insert_data]
  refine ⟨by omega, ?_, ?_⟩
  · rw [Function.update_noteq (by omega)]; exact hiz
  · intro k hk
    rw [Function.update_noteq (by omega)]; exact himin k hk

theorem da_find_z_insert_new (da : dynamic_array) (nd : node)
    (h : da_find_z da nd.z = -1) : da_find_z (da_insert da nd) nd.z = (da.used : Int) := by
  rw [da_find_z_eq_neg_one, mem_da_depths] at h
  rw [da_find_z_eq_iff, da_insert_used, da_insert_data]
  refine ⟨by omega, by simp, ?_⟩
  intro k hk hz
  rw [Function.update_noteq (by omega)] at hz
  exact h ⟨k, hk, hz⟩

theorem da_find_z_insert_other (da : dynamic_array) (nd : node) (z : Int) (hz : z ≠ nd.z)
    (h : da_find_z da z = -1) : da_find_z (da_insert da nd) z = -1 := by
  rw [da_find_z_eq_neg_one] at h ⊢
  rw [da_depths_insert]
  simp only [List.mem_append, List.mem_singleton, not_or]
  exact ⟨h, hz⟩

theorem matrix_get_record_eq (m : Matrix) (x y z : Int) :
    matrix_get_record m x y z =
      match matrix_get m x y with
      | none => none
      | some da => if da_find_z da z = -1 then none else some (da.data (da_find_z da z).toNat) := by
  unfold matrix_get_record matrix_get_ele
  cases hcol : matrix_get m x y with
  | none => rfl
  | some da =>
    dsimp only
    by_cases hf : da_find_z da z = -1
    · rw [if_pos hf, if_pos hf]; rfl
    · rw [if_neg hf, if_neg hf]
      unfold matrix_get at hcol
      simp [ptr_read, hcol]

theorem da_find_z_make_ptr (s : Nat) (z : Int) : da_find_z (da_make_ptr s) z = -1 := rfl

/-- C11: in a grid of side `n`, for `x, y` in `[0, n)` and `z` with no record at
`(x, y, z)`, after `matrix_insert m x y z is_dead num_nei` the lookup at
`(x, y, z)` returns the record `{z, num_nei, is_dead}` (the column being created
if it was absent), and the lookup at every other `(x', y', z')` with `x', y'` in
`[0, n)` returns the same pointer and the same record as before. -/
theorem C11_insert_then_get (m : Matrix) (x y z : Int) (is_dead : Bool) (num_nei : Int)
    (hx : 0 ≤ x ∧ x < m.side) (hy : 0 ≤ y ∧ y < m.side)
    (hfree : matrix_get_ele m x y z = none) :
    matrix_get_record (matrix_insert m x y z is_dead num_nei) x y z =
      some ⟨z, num_nei, is_dead⟩ ∧
    (matrix_get (matrix_insert m x y z is_dead num_nei) x y).isSome = true ∧
    (∀ x1 y1 z1, 0 ≤ x1 ∧ x1 < m.side → 0 ≤ y1 ∧ y1 < m.side →
      ¬ (x1 = x ∧ y1 = y ∧ z1 = z) →
      matrix_get_ele (matrix_insert m x y z is_dead num_nei) x1 y1 z1 =
        matrix_get_ele m x1 y1 z1 ∧
      matrix_get_record (matrix_insert m x y z is_dead num_nei) x1 y1 z1 =
        matrix_get_record m x1 y1 z1) := by
  have _ := hy
  have hfree1 : ∀ da, matrix_get m x y = some da → da_find_z da z = -1 := by
    intro da hda
    unfold matrix_get_ele at hfree
    rw [hda] at hfree
    by_contra hne
    simp [hne] at hfree
  have hfind : da_find_z ((matrix_get m x y).getD (da_make_ptr 4)) z = -1 := by
    cases hcol : matrix_get m x y with
    | none => exact da_find_z_make_ptr 4 z
    | some da => exact hfree1 da hcol
  have hused : ∀ da : dynamic_array, (da_insert da ⟨z, num_nei, is_dead⟩).data da.used =
      ⟨z, num_nei, is_dead⟩ := by
    intro da
    rw [da_insert_data]; simp
  refine ⟨?_, ?_, ?_⟩
  · rw [matrix_get_record_eq, matrix_get_insert_same]
    dsimp only
    have := da_find_z_insert_new ((matrix_get m x y).getD (da_make_ptr 4))
      ⟨z, num_nei, is_dead⟩ hfind
    dsimp only at this
    rw [this, if_neg (by omega), Int.toNat_ofNat, hused]
  · rw [matrix_get_insert_same]; rfl
  · intro x1 y1 z1 hx1 _ hne
    by_cases hcolumn : x1 = x ∧ y1 = y
    · obtain ⟨rfl, rfl⟩ := hcolumn
      have hz : z1 ≠ z := fun h => hne ⟨rfl, rfl, h⟩
      have hfe : ∀ da : dynamic_array,
          da_find_z (da_insert da ⟨z, num_nei, is_dead⟩) z1 = da_find_z da z1 := by
        intro da
        by_cases hf : da_find_z da z1 = -1
        · rw [hf]; exact da_find_z_insert_other da _ z1 hz hf
        · exact da_find_z_insert_old da _ z1 hf
      have hdata : ∀ da : dynamic_array, da_find_z da z1 ≠ -1 →
          (da_insert da ⟨z, num_nei, is_dead⟩).data (da_find_z da z1).toNat =
            da.data (da_find_z da z1).toNat := by
        intro da hf
        obtain ⟨i, hi, hie, _, _⟩ := da_find_z_found da z1 hf
        rw [hie, Int.toNat_ofNat, da_insert_data, Function.update_noteq (by omega)]
      constructor
      · unfold matrix_get_ele
        rw [matrix_get_insert_same, matrix_insert_side]
        cases hcol : matrix_get m x1 y1 with
        | none =>
          dsimp only [Option.getD]
          rw [hfe, da_find_z_make_ptr]
          simp
        | some da =>
          dsimp only [Option.getD]
          rw [hfe]
      · rw [matrix_get_record_eq, matrix_get_record_eq, matrix_get_insert_same]
        cases hcol : matrix_get m x1 y1 with
        | none =>
          dsimp only [Option.getD]
          rw [hfe, da_find_z_make_ptr]
          simp
        | some da =>
          dsimp only [Option.getD]
          rw [hfe]
          by_cases hf : da_find_z da z1 = -1
          · rw [if_pos hf, if_pos hf]
          · rw [if_neg hf, if_neg hf, hdata da hf]
    · have hg := matrix_get_insert_other m x y z is_dead num_nei x1 y1 hx hx1 hcolumn
      constructor
      · unfold matrix_get_ele
        rw [hg, matrix_insert_side]
      · rw [matrix_get_record_eq, matrix_get_record_eq, hg]

theorem C11_insert_then_get_witness :
    matrix_get_record (matrix_insert (load 2 [(0, 1, 5)]) 0 1 7 true 1) 0 1 7 =
      some ⟨7, 1, true⟩ ∧
    matrix_get_record (matrix_insert (load 2 [(0, 1, 5)]) 0 1 7 true 1) 0 1 5 =
      matrix_get_record (load 2 [(0, 1, 5)]) 0 1 5 :=
  ⟨(C11_insert_then_get (load 2 [(0, 1, 5)]) 0 1 7 true 1 (by decide) (by decide)
      (by decide)).1,
    ((C11_insert_then_get (load 2 [(0, 1, 5)]) 0 1 7 true 1 (by decide) (by decide)
      (by decide)).2.2 0 1 5 (by decide) (by decide) (by decide)).2⟩

end Life3d

namespace Life3d

theorem mem_da_records (da : dynamic_array) (nd : node) :
    nd ∈ da_records da ↔ ∃ k, k < da.used ∧ da.data k = nd := by
  simp [da_records]

theorem da_lookup_eq_none (da : dynamic_array) (z : Int) :
    da_lookup da z = none ↔ z ∉ da_depths da := by
  unfold da_lookup
  rw [← da_find_z_eq_neg_one]
  split_ifs with h <;> simp [h]

theorem da_lookup_eq_some (da : dynamic_array) (hnd : (da_depths da).Nodup) (z : Int)
    (nd : node) : da_lookup da z = some nd ↔ nd ∈ da_records da ∧ nd.z = z := by
  rw [mem_da_records]
  unfold da_lookup
  constructor
  · intro h
    by_cases hf : da_find_z da z = -1
    · rw [if_pos hf] at h; exact absurd h (by simp)
    · rw [if_neg hf] at h
      obtain ⟨i, hi, hie, hiz, _⟩ := da_find_z_found da z hf
      rw [hie, Int.toNat_ofNat] at h
      have hnd1 : da.data i = nd := Option.some.inj h
      exact ⟨⟨i, hi, hnd1⟩, by rw [← hnd1]; exact hiz⟩
  · rintro ⟨⟨k, hk, rfl⟩, rfl⟩
    rw [da_find_z_of_nodup da hnd k hk, if_neg (by omega), Int.toNat_ofNat]

theorem matrix_get_record_eq_lookup (m : Matrix) (x y z : Int) :
    matrix_get_record m x y z =
      match matrix_get m x y with
      | none => none
      | some da => da_lookup da z := by
  rw [matrix_get_record_eq]
  rfl

theorem da_lookup_delete_at (da : dynamic_array) (hnd : (da_depths da).Nodup) (i : Nat)
    (hi : i < da.used) (z1 : Int) :
    da_lookup (da_delete_at da i) z1 = if z1 = (da.data i).z then none else da_lookup da z1 := by
  have hnd1 := da_depths_delete_at_nodup da i hnd
  have hperm := (da_records_delete_at_perm da i hi).1
  have hmem : ∀ nd, nd ∈ da_records (da_delete_at da i) ↔
      ∃ j, j < da.used ∧ j ≠ i ∧ da.data j = nd := by
    intro nd
    rw [hperm.mem_iff, List.mem_eraseIdx_iff_getElem]
    constructor
    · rintro ⟨j, hj, hji, hjn⟩
      rw [da_records_length] at hj
      rw [da_records_getElem] at hjn
      exact ⟨j, hj, hji, hjn⟩
    · rintro ⟨j, hj, hji, hjn⟩
      refine ⟨j, by rw [da_records_length]; exact hj, hji, ?_⟩
      rw [da_records_getElem]; exact hjn
  apply Option.ext
  intro nd
  simp only [Option.mem_def]
  rw [da_lookup_eq_some _ hnd1, hmem]
  by_cases hz : z1 = (da.data i).z
  · rw [if_pos hz]
    constructor
    · rintro ⟨⟨j, hj, hji, rfl⟩, hjz⟩
      exact absurd (da_depths_nodup_inj da hnd j i hj hi (by rw [hjz, hz])) hji
    · intro h; exact absurd h (by simp)
  · rw [if_neg hz, da_lookup_eq_some _ hnd, mem_da_records]
    constructor
    · rintro ⟨⟨j, hj, _, hjn⟩, hjz⟩
      exact ⟨⟨j, hj, hjn⟩, hjz⟩
    · rintro ⟨⟨j, hj, hjn⟩, hjz⟩
      refine ⟨⟨j, hj, ?_, hjn⟩, hjz⟩
      intro hji
      subst hji
      exact hz (by rw [← hjz, hjn])

theorem matrix_remove_side (m : Matrix) (x y z : Int) : (matrix_remove m x y z).side = m.side := by
  unfold matrix_remove
  cases matrix_get m x y with
  | none => rfl
  | some da =>
    dsimp only
    split_ifs <;> rfl

theorem matrix_get_remove_other (m : Matrix) (x y z : Int) (x1 y1 : Int)
    (hx : 0 ≤ x ∧ x < m.side) (hx1 : 0 ≤ x1 ∧ x1 < m.side) (hne : ¬ (x1 = x ∧ y1 = y)) :
    matrix_get (matrix_remove m x y z) x1 y1 = matrix_get m x1 y1 := by
  unfold matrix_remove
  cases hcol : matrix_get m x y with
  | none => rfl
  | some da =>
    dsimp only
    split_ifs
    · unfold matrix_get
      dsimp only
      rw [Function.update_noteq]
      intro h
      exact hne (flat_index_inj m.side x1 y1 x y hx1 hx h)
    · rfl

theorem matrix_get_remove_same (m : Matrix) (x y z : Int) (da : dynamic_array)
    (hcol : matrix_get m x y = some da) (hf : da_find_z da z ≠ -1) :
    matrix_get (matrix_remove m x y z) x y = some (da_delete_at da (da_find_z da z).toNat) := by
  unfold matrix_remove
  rw [hcol]
  dsimp only
  rw [if_pos hf]
  unfold matrix_get
  simp

theorem matrix_remove_absent (m : Matrix) (x y z : Int) (h : matrix_get_ele m x y z = none) :
    matrix_remove m x y z = m := by
  unfold matrix_get_ele at h
  unfold matrix_remove
  cases hcol : matrix_get m x y with
  | none => rfl
  | some da =>
    rw [hcol] at h
    dsimp only at h ⊢
    by_cases hf : da_find_z da z = -1
    · rw [if_neg (by simpa using hf)]
    · rw [if_neg hf] at h; exact absurd h (by simp)

/-- C12: in a grid whose columns have unique depths, for `x, y` in range and any
`z`, after `matrix_remove m x y z` the lookup at `(x, y, z)` finds nothing and
the lookup at every other `(x', y', z')` returns the same record as before;
when there was no record at `(x, y, z)` (column or depth absent) the grid is
unchanged, so no column is created. -/
theorem C12_remove_only_named (m : Matrix) (x y z : Int)
    (hx : 0 ≤ x ∧ x < m.side) (hy : 0 ≤ y ∧ y < m.side)
    (hnd : ∀ x1 y1, 0 ≤ x1 ∧ x1 < m.side → 0 ≤ y1 ∧ y1 < m.side → (column_depths m x1 y1).Nodup) :
    matrix_get_ele (matrix_remove m x y z) x y z = none ∧
    matrix_get_record (matrix_remove m x y z) x y z = none ∧
    (∀ x1 y1 z1, 0 ≤ x1 ∧ x1 < m.side → 0 ≤ y1 ∧ y1 < m.side →
      ¬ (x1 = x ∧ y1 = y ∧ z1 = z) →
      matrix_get_record (matrix_remove m x y z) x1 y1 z1 = matrix_get_record m x1 y1 z1) ∧
    (matrix_get_ele m x y z = none → matrix_remove m x y z = m) := by
  have hrec : ∀ x1 y1 z1, 0 ≤ x1 ∧ x1 < m.side →
      matrix_get_record (matrix_remove m x y z) x1 y1 z1 =
        if x1 = x ∧ y1 = y ∧ z1 = z then none else matrix_get_record m x1 y1 z1 := by
    intro x1 y1 z1 hx1
    by_cases hcolumn : x1 = x ∧ y1 = y
    · obtain ⟨rfl, rfl⟩ := hcolumn
      simp only [true_and]
      rw [matrix_get_record_eq_lookup, matrix_get_record_eq_lookup]
      cases hcol : matrix_get m x1 y1 with
      | none =>
        have : matrix_remove m x1 y1 z = m := by
          unfold matrix_remove; rw [hcol]
        rw [this, hcol]
        simp
      | some da =>
        have hdnd : (da_depths da).Nodup := by
          have := hnd x1 y1 hx hy
          unfold column_depths at this
          rw [hcol] at this
          exact this
        by_cases hf : da_find_z da z = -1
        · have : matrix_remove m x1 y1 z = m := by
            unfold matrix_remove; rw [hcol]
            dsimp only
            rw [if_neg (by simpa using hf)]
          rw [this, hcol]
          dsimp only
          by_cases hz : z1 = z
          · subst hz
            rw [if_pos rfl, da_lookup_eq_none, ← da_find_z_eq_neg_one]
            exact hf
          · rw [if_neg hz]
        · rw [matrix_get_remove_same m x1 y1 z da hcol hf]
          dsimp only
          obtain ⟨i, hi, hie, hiz, _⟩ := da_find_z_found da z hf
          rw [hie, Int.toNat_ofNat, da_lookup_delete_at da hdnd i hi, hiz]
    · have hne : ¬ (x1 = x ∧ y1 = y ∧ z1 = z) := fun h => hcolumn ⟨h.1, h.2.1⟩
      rw [if_neg hne, matrix_get_record_eq_lookup, matrix_get_record_eq_lookup,
        matrix_get_remove_other m x y z x1 y1 hx hx1 hcolumn]
  have hnone : matrix_get_record (matrix_remove m x y z) x y z = none := by
    rw [hrec x y z hx, if_pos ⟨rfl, rfl, rfl⟩]
  refine ⟨?_, hnone, ?_, matrix_remove_absent m x y z⟩
  · unfold matrix_get_record at hnone
    cases hp : matrix_get_ele (matrix_remove m x y z) x y z with
    | none => rfl
    | some p => rw [hp] at hnone; exact absurd hnone (by simp)
  · intro x1 y1 z1 hx1 _ hne
    rw [hrec x1 y1 z1 hx1, if_neg hne]

theorem C12_remove_only_named_witness :
    matrix_get_ele (matrix_remove (load 2 [(0, 1, 5), (0, 1, 6)]) 0 1 5) 0 1 5 = none ∧
    matrix_get_record (matrix_remove (load 2 [(0, 1, 5), (0, 1, 6)]) 0 1 5) 0 1 6 =
      some ⟨6, -1, false⟩ :=
  ⟨(C12_remove_only_named (load 2 [(0, 1, 5), (0, 1, 6)]) 0 1 5 (by decide) (by decide)
      (by
        intro x1 y1 hx1 _
        rw [column_depths_load 2 _ x1 y1 hx1 (by decide)]
        have h1 : x1 = 0 ∨ x1 = 1 := by
          have := hx1.1
          have := hx1.2
          change x1 < 2 at this
          omega
        by_cases hy1 : (1 : Int) = y1
        · subst hy1
          rcases h1 with rfl | rfl <;> decide
        · rcases h1 with rfl | rfl <;> simp [List.filter_cons, hy1])).1,
    by decide⟩

end Life3d

namespace Life3d

/-! ## Initial scatter -/

theorem send_sizes_inner_length (f : (Nat → Int) → Nat → (Nat → Int))
    (g : (Nat → Int) → Nat → size_msg) (n : Nat) (st : (Nat → Int) × List size_msg) :
    (((List.range n).foldl
      (fun (st : (Nat → Int) × List size_msg) y => (f st.1 y, st.2 ++ [g (f st.1 y) y]))
      st).2).length = st.2.length + n := by
  induction n with
  | zero => rfl
  | succ n ih =>
    rw [List.range_succ, List.foldl_append]
    simp only [List.foldl_cons, List.foldl_nil, List.length_append, List.length_singleton]
    rw [ih]
    omega

/-- The send loop emits `SIZE * SIZE` messages: `SIZE` for every outer-axis
coordinate `x`, not one. -/
theorem send_sizes_length (m : Matrix) (p SIZE : Int) (uninit : Nat → Int) :
    (send_sizes m p SIZE uninit).length = SIZE.toNat * SIZE.toNat := by
  unfold send_sizes
  rw [List.length_flatMap]
  have : ∀ x : Nat, (List.length ∘ fun x : Nat =>
      ((List.range SIZE.toNat).foldl
        (fun (st : (Nat → Int) × List size_msg) y =>
          let z_lengths := Function.update st.1 y
            (match matrix_get m x y with
              | none => 0
              | some da => (da.used : Int))
          (z_lengths,
            st.2 ++ [{ dest := BLOCK_OWNER x p SIZE
                       payload := (List.range SIZE.toNat).map z_lengths }]))
        (uninit, [])).2) x = SIZE.toNat := by
    intro x
    have := send_sizes_inner_length
      (fun zl y => Function.update zl y
        (match matrix_get m x y with
          | none => 0
          | some da => (da.used : Int)))
      (fun zl _ => { dest := BLOCK_OWNER x p SIZE, payload := (List.range SIZE.toNat).map zl })
      SIZE.toNat (uninit, [])
    simpa using this
  rw [List.map_congr_left (fun x _ => this x)]
  simp

/-- C17, at side 2 with 2 workers and the single live cell `(1, 0, 0)`: the send
loop addresses two messages to worker 1 (one per `y`, the first with
`z_lengths[1]` still uninitialised, here `99`), while worker 1 performs
`BLOCK_SIZE(1, 2, 2) = 1` receive. -/
theorem C17_scatter_sends_once_per_y :
    send_sizes (load 2 [(1, 0, 0)]) 2 2 (fun _ => 99) =
      [⟨0, [0, 99]⟩, ⟨0, [0, 0]⟩, ⟨1, [1, 99]⟩, ⟨1, [1, 0]⟩] ∧
    ((send_sizes (load 2 [(1, 0, 0)]) 2 2 (fun _ => 99)).filter
      (fun msg => decide (msg.dest = 1))).length = 2 ∧
    recv_count 1 2 2 = 1 ∧
    BLOCK_SIZE 1 2 2 = 1 := by
  decide

end Life3d

namespace Life3d

/-! ## Slot-wise effect of the grid operations -/

theorem ptr_read_eq_col_slot (m : Matrix) (x y : Int) (k : Nat) :
    ptr_read m ⟨x + y * m.side, k⟩ = col_slot m x y k := rfl

theorem mem_column_depths (m : Matrix) (x y z : Int) :
    z ∈ column_depths m x y ↔ ∃ k, k < col_used m x y ∧ (col_slot m x y k).z = z := by
  unfold column_depths col_used col_slot
  cases matrix_get m x y with
  | none => simp
  | some da => exact mem_da_depths da z

theorem column_depths_eq_slots (m : Matrix) (x y : Int) :
    column_depths m x y = (List.range (col_used m x y)).map (fun k => (col_slot m x y k).z) := by
  unfold column_depths col_used col_slot
  cases matrix_get m x y with
  | none => rfl
  | some da => simp [da_depths, da_records]

theorem matrix_get_ele_eq_none (m : Matrix) (x y z : Int) :
    matrix_get_ele m x y z = none ↔ z ∉ column_depths m x y := by
  unfold matrix_get_ele column_depths
  cases matrix_get m x y with
  | none => simp
  | some da =>
    dsimp only
    rw [← da_find_z_eq_neg_one]
    split_ifs with h <;> simp [h]

theorem matrix_get_ele_eq_some (m : Matrix) (x y z : Int) (p : node_ptr)
    (h : matrix_get_ele m x y z = some p) :
    p.col = x + y * m.side ∧ p.slot < col_used m x y ∧ (col_slot m x y p.slot).z = z := by
  unfold matrix_get_ele at h
  unfold col_used col_slot
  cases hcol : matrix_get m x y with
  | none => rw [hcol] at h; exact absurd h (by simp)
  | some da =>
    rw [hcol] at h
    dsimp only at h ⊢
    by_cases hf : da_find_z da z = -1
    · rw [if_pos hf] at h; exact absurd h (by simp)
    · rw [if_neg hf] at h
      obtain ⟨i, hi, hie, hiz, _⟩ := da_find_z_found da z hf
      have hp : p = ⟨x + y * m.side, (da_find_z da z).toNat⟩ := (Option.some.inj h).symm
      rw [hp, hie, Int.toNat_ofNat]
      exact ⟨rfl, hi, hiz⟩

theorem ptr_write_side (m : Matrix) (p : node_ptr) (nd : node) :
    (ptr_write m p nd).side = m.side := by
  unfold ptr_write
  cases m.data p.col <;> rfl

theorem col_used_ptr_write (m : Matrix) (p : node_ptr) (nd : node) (x y : Int) :
    col_used (ptr_write m p nd) x y = col_used m x y := by
  unfold col_used matrix_get
  rw [ptr_write_side]
  unfold ptr_write
  cases hcol : m.data p.col with
  | none => rfl
  | some da =>
    dsimp only
    by_cases hidx : x + y * m.side = p.col
    · rw [hidx, Function.update_same, hcol]
    · rw [Function.update_noteq hidx]

theorem col_slot_ptr_write (m : Matrix) (x y : Int) (q : Nat) (nd : node) (x1 y1 : Int)
    (k1 : Nat) (hx : in_side m.side x) (hx1 : in_side m.side x1) (hq : q < col_used m x y) :
    col_slot (ptr_write m ⟨x + y * m.side, q⟩ nd) x1 y1 k1 =
      if x1 = x ∧ y1 = y ∧ k1 = q then nd else col_slot m x1 y1 k1 := by
  unfold col_slot matrix_get
  rw [ptr_write_side]
  unfold ptr_write
  dsimp only
  cases hcol : m.data (x + y * m.side) with
  | none =>
    unfold col_used matrix_get at hq
    rw [hcol] at hq
    exact absurd hq (Nat.not_lt_zero q)
  | some da =>
    dsimp only
    by_cases hidx : x1 + y1 * m.side = x + y * m.side
    · obtain ⟨rfl, rfl⟩ := flat_index_inj m.side x1 y1 x y hx1 hx hidx
      rw [Function.update_same, hcol]
      dsimp only
      by_cases hk : k1 = q
      · subst hk; simp
      · rw [Function.update_noteq hk]; simp [hk]
    · rw [Function.update_noteq hidx]
      have : ¬ (x1 = x ∧ y1 = y ∧ k1 = q) := by
        rintro ⟨rfl, rfl, _⟩
        exact hidx rfl
      rw [if_neg this]

theorem col_used_insert (m : Matrix) (x y z : Int) (d : Bool) (n : Int) (x1 y1 : Int)
    (hx : in_side m.side x) (hx1 : in_side m.side x1) :
    col_used (matrix_insert m x y z d n) x1 y1 =
      if x1 = x ∧ y1 = y then col_used m x y + 1 else col_used m x1 y1 := by
  by_cases h : x1 = x ∧ y1 = y
  · obtain ⟨rfl, rfl⟩ := h
    simp only [and_self, if_true]
    unfold col_used
    rw [matrix_get_insert_same]
    cases hcol : matrix_get m x1 y1 with
    | none => rfl
    | some da => exact da_insert_used da _
  · rw [if_neg h]
    unfold col_used
    rw [matrix_get_insert_other m x y z d n x1 y1 hx hx1 h]

theorem col_slot_insert (m : Matrix) (x y z : Int) (d : Bool) (n : Int) (x1 y1 : Int) (k1 : Nat)
    (hx : in_side m.side x) (hx1 : in_side m.side x1) :
    col_slot (matrix_insert m x y z d n) x1 y1 k1 =
      if x1 = x ∧ y1 = y ∧ k1 = col_used m x y then ⟨z, n, d⟩ else col_slot m x1 y1 k1 := by
  by_cases h : x1 = x ∧ y1 = y
  · obtain ⟨rfl, rfl⟩ := h
    simp only [true_and]
    unfold col_slot col_used
    rw [matrix_get_insert_same]
    cases hcol : matrix_get m x1 y1 with
    | none =>
      dsimp only [Option.getD]
      rw [da_insert_data]
      by_cases hk : k1 = 0
      · subst hk
        simp [da_make_ptr, da_init]
      · rw [if_neg hk]
        have : k1 ≠ (da_make_ptr 4).used := hk
        rw [Function.update_noteq this]
        rfl
    | some da =>
      dsimp only [Option.getD]
      rw [da_insert_data]
      by_cases hk : k1 = da.used
      · subst hk; simp
      · rw [if_neg hk, Function.update_noteq hk]
  · have h2 : ¬ (x1 = x ∧ y1 = y ∧ k1 = col_used m x y) := fun hh => h ⟨hh.1, hh.2.1⟩
    rw [if_neg h2]
    unfold col_slot
    rw [matrix_get_insert_other m x y z d n x1 y1 hx hx1 h]

end Life3d

namespace Life3d

/-! ## Discovery pass: the invariant and its single steps -/

theorem DInv_init (m0 : Matrix) (h : grid_ok m0) : DInv m0 m0 [] (fun _ => none) where
  side_eq := rfl
  wf := h.1
  used_le := fun _ _ _ _ => le_refl _
  live_z := fun x y hx hy k hk => ⟨rfl, h.2 x y hx hy k hk⟩
  dead_new := fun x y _ _ k h1 h2 => by omega
  tracked := fun t ht => by simp at ht
  counts := fun x y _ _ k _ c hc => by simp at hc

theorem DInv_live_mem (m0 m : Matrix) (E : List (Int × Int × Int))
    (C : Int × Int × Int → Option Int) (h : DInv m0 m E C) (x y z : Int)
    (hx : in_side m0.side x) (hy : in_side m0.side y) (hz : z ∈ column_depths m0 x y) :
    z ∈ column_depths m x y := by
  rw [mem_column_depths] at hz ⊢
  obtain ⟨k, hk, hkz⟩ := hz
  exact ⟨k, lt_of_lt_of_le hk (h.used_le x y hx hy), by rw [(h.live_z x y hx hy k hk).1, hkz]⟩

/-- A slot of a column is live exactly when it is one of the slots of `m0`. -/
theorem DInv_slot_live_iff (m0 m : Matrix) (E : List (Int × Int × Int))
    (C : Int × Int × Int → Option Int) (h : DInv m0 m E C) (x y : Int)
    (hx : in_side m0.side x) (hy : in_side m0.side y) (k : Nat) (hk : k < col_used m x y) :
    (col_slot m x y k).is_dead = false ↔ k < col_used m0 x y := by
  constructor
  · intro hd
    by_contra hge
    have := (h.dead_new x y hx hy k (by omega) hk).1
    rw [hd] at this
    exact absurd this (by simp)
  · intro hlt
    exact (h.live_z x y hx hy k hlt).2

/-- A record of `m` whose depth is a depth of `m0` sits in a slot of `m0`. -/
theorem DInv_slot_of_live (m0 m : Matrix) (E : List (Int × Int × Int))
    (C : Int × Int × Int → Option Int) (h : DInv m0 m E C) (x y : Int)
    (hx : in_side m0.side x) (hy : in_side m0.side y) (k : Nat) (hk : k < col_used m x y)
    (hz : (col_slot m x y k).z ∈ column_depths m0 x y) : k < col_used m0 x y := by
  rw [mem_column_depths] at hz
  obtain ⟨k0, hk0, hk0z⟩ := hz
  have hx1 : in_side m.side x := by rw [h.side_eq]; exact hx
  have hy1 : in_side m.side y := by rw [h.side_eq]; exact hy
  have := (h.wf x y hx1 hy1).1 k0 k (lt_of_lt_of_le hk0 (h.used_le x y hx hy)) hk
    (by rw [(h.live_z x y hx hy k0 hk0).1, hk0z])
  omega

/-- A step that changes neither the side, nor a used count, nor the depth or
flag of any slot keeps the invariant, provided the counts fit the new `E` and
`C`. -/
theorem DInv_same_shape (m0 m m1 : Matrix) (E E1 : List (Int × Int × Int))
    (C C1 : Int × Int × Int → Option Int) (h : DInv m0 m E C)
    (hside : m1.side = m.side)
    (hused : ∀ x y, col_used m1 x y = col_used m x y)
    (hslot : ∀ x y k, in_side m0.side x →
      (col_slot m1 x y k).z = (col_slot m x y k).z ∧
      (col_slot m1 x y k).is_dead = (col_slot m x y k).is_dead)
    (ht : ∀ t, t ∈ E1 →
      in_side m0.side t.1 ∧ in_side m0.side t.2.1 ∧ t.2.2 ∈ column_depths m t.1 t.2.1)
    (hdead : ∀ x y, in_side m0.side x → in_side m0.side y →
      ∀ k, col_used m0 x y ≤ k → k < col_used m x y →
        (col_slot m1 x y k).num_neighbours =
          ((E1.count (x, y, (col_slot m x y k).z) : Nat) : Int) ∧
        (x, y, (col_slot m x y k).z) ∈ E1)
    (hlive : ∀ x y, in_side m0.side x → in_side m0.side y → ∀ k, k < col_used m0 x y →
      ∀ c, C1 (x, y, (col_slot m0 x y k).z) = some c → (col_slot m1 x y k).num_neighbours = c) :
    DInv m0 m1 E1 C1 := by
  have hdepths : ∀ x y, in_side m0.side x → column_depths m1 x y = column_depths m x y := by
    intro x y hx
    rw [column_depths_eq_slots, column_depths_eq_slots, hused]
    apply List.map_congr_left
    intro k _
    exact (hslot x y k hx).1
  refine ⟨by rw [hside, h.side_eq], ?_, ?_, ?_, ?_, ?_, hlive⟩
  · intro x y hx hy
    rw [hside] at hx hy
    have hx0 : in_side m0.side x := by rw [← h.side_eq]; exact hx
    obtain ⟨w1, w2⟩ := h.wf x y hx hy
    constructor
    · intro a b ha hb hab
      rw [hused] at ha hb
      rw [(hslot x y a hx0).1, (hslot x y b hx0).1] at hab
      exact w1 a b ha hb hab
    · intro k hk
      rw [hused] at hk
      rw [(hslot x y k hx0).1, hside]
      exact w2 k hk
  · intro x y hx hy
    rw [hused]; exact h.used_le x y hx hy
  · intro x y hx hy k hk
    rw [(hslot x y k hx).1, (hslot x y k hx).2]
    exact h.live_z x y hx hy k hk
  · intro x y hx hy k hk1 hk2
    rw [hused] at hk2
    obtain ⟨d1, _, _⟩ := h.dead_new x y hx hy k hk1 hk2
    rw [(hslot x y k hx).1, (hslot x y k hx).2]
    exact ⟨d1, (hdead x y hx hy k hk1 hk2).1, (hdead x y hx hy k hk1 hk2).2⟩
  · intro t1 ht1
    obtain ⟨a, b, c⟩ := ht t1 ht1
    rw [hdepths _ _ a]; exact ⟨a, b, c⟩

end Life3d

namespace Life3d

theorem bump_shape (m : Matrix) (x y : Int) (q : Nat) (n1 : Int) (hx : in_side m.side x)
    (hq : q < col_used m x y) :
    (ptr_write m ⟨x + y * m.side, q⟩ { col_slot m x y q with num_neighbours := n1 }).side =
      m.side ∧
    (∀ x1 y1, col_used
      (ptr_write m ⟨x + y * m.side, q⟩ { col_slot m x y q with num_neighbours := n1 }) x1 y1 =
        col_used m x1 y1) ∧
    (∀ x1 y1 k1, in_side m.side x1 →
      (col_slot (ptr_write m ⟨x + y * m.side, q⟩ { col_slot m x y q with num_neighbours := n1 })
        x1 y1 k1).z = (col_slot m x1 y1 k1).z ∧
      (col_slot (ptr_write m ⟨x + y * m.side, q⟩ { col_slot m x y q with num_neighbours := n1 })
        x1 y1 k1).is_dead = (col_slot m x1 y1 k1).is_dead ∧
      (col_slot (ptr_write m ⟨x + y * m.side, q⟩ { col_slot m x y q with num_neighbours := n1 })
        x1 y1 k1).num_neighbours =
          if x1 = x ∧ y1 = y ∧ k1 = q then n1 else (col_slot m x1 y1 k1).num_neighbours) := by
  refine ⟨ptr_write_side _ _ _, fun x1 y1 => col_used_ptr_write _ _ _ _ _, ?_⟩
  intro x1 y1 k1 hx1
  rw [col_slot_ptr_write m x y q _ x1 y1 k1 hx hx1 hq]
  by_cases hc : x1 = x ∧ y1 = y ∧ k1 = q
  · obtain ⟨rfl, rfl, rfl⟩ := hc
    simp
  · simp [hc]

theorem DInv_insert_new (m0 m : Matrix) (E : List (Int × Int × Int))
    (C C1 : Int × Int × Int → Option Int) (h : DInv m0 m E C) (x y z : Int)
    (hx : in_side m0.side x) (hy : in_side m0.side y) (hz : in_side m0.side z)
    (hnot : z ∉ column_depths m x y)
    (hC1 : ∀ t c1, C1 t = some c1 → C t = some c1) :
    DInv m0 (matrix_insert m x y z true 1) ((x, y, z) :: E) C1 := by
  have hs := h.side_eq
  have hxm : in_side m.side x := by rw [hs]; exact hx
  have hE : (x, y, z) ∉ E := fun hmem => hnot (h.tracked _ hmem).2.2
  have hUlt : col_used m0 x y ≤ col_used m x y := h.used_le x y hx hy
  have hU : ∀ x1 y1, in_side m0.side x1 → col_used (matrix_insert m x y z true 1) x1 y1 =
      if x1 = x ∧ y1 = y then col_used m x y + 1 else col_used m x1 y1 := by
    intro x1 y1 hx1
    exact col_used_insert m x y z true 1 x1 y1 hxm (by rw [hs]; exact hx1)
  have hS : ∀ x1 y1 k1, in_side m0.side x1 → col_slot (matrix_insert m x y z true 1) x1 y1 k1 =
      if x1 = x ∧ y1 = y ∧ k1 = col_used m x y then ⟨z, 1, true⟩ else col_slot m x1 y1 k1 := by
    intro x1 y1 k1 hx1
    exact col_slot_insert m x y z true 1 x1 y1 k1 hxm (by rw [hs]; exact hx1)
  have hSold : ∀ x1 y1 k1, in_side m0.side x1 → k1 < col_used m x1 y1 →
      col_slot (matrix_insert m x y z true 1) x1 y1 k1 = col_slot m x1 y1 k1 := by
    intro x1 y1 k1 hx1 hk1
    rw [hS x1 y1 k1 hx1, if_neg]
    rintro ⟨rfl, rfl, rfl⟩
    omega
  refine ⟨by rw [matrix_insert_side, hs], ?_, ?_, ?_, ?_, ?_, ?_⟩
  · intro x1 y1 hx1 hy1
    rw [matrix_insert_side] at hx1 hy1
    have hx10 : in_side m0.side x1 := by rw [← hs]; exact hx1
    obtain ⟨w1, w2⟩ := h.wf x1 y1 hx1 hy1
    rw [hU x1 y1 hx10]
    by_cases hcol : x1 = x ∧ y1 = y
    · obtain ⟨rfl, rfl⟩ := hcol
      simp only [and_self, if_true]
      have hnew : col_slot (matrix_insert m x1 y1 z true 1) x1 y1 (col_used m x1 y1) =
          ⟨z, 1, true⟩ := by
        rw [hS x1 y1 _ hx10]; simp
      have hfresh : ∀ a, a < col_used m x1 y1 → (col_slot m x1 y1 a).z ≠ z := by
        intro a ha haz
        exact hnot ((mem_column_depths m x1 y1 z).mpr ⟨a, ha, haz⟩)
      constructor
      · intro a b ha hb hab
        by_cases ha1 : a = col_used m x1 y1
        · by_cases hb1 : b = col_used m x1 y1
          · omega
          · exfalso
            rw [ha1, hnew, hSold x1 y1 b hx10 (by omega)] at hab
            exact hfresh b (by omega) hab.symm
        · by_cases hb1 : b = col_used m x1 y1
          · exfalso
            rw [hb1, hnew, hSold x1 y1 a hx10 (by omega)] at hab
            exact hfresh a (by omega) hab
          · rw [hSold x1 y1 a hx10 (by omega), hSold x1 y1 b hx10 (by omega)] at hab
            exact w1 a b (by omega) (by omega) hab
      · intro k1 hk1
        rw [matrix_insert_side]
        by_cases hk2 : k1 = col_used m x1 y1
        · rw [hk2, hnew, hs]; exact hz
        · rw [hSold x1 y1 k1 hx10 (by omega)]
          exact w2 k1 (by omega)
    · rw [if_neg hcol]
      constructor
      · intro a b ha hb hab
        rw [hSold x1 y1 a hx10 ha, hSold x1 y1 b hx10 hb] at hab
        exact w1 a b ha hb hab
      · intro k1 hk1
        rw [hSold x1 y1 k1 hx10 hk1, matrix_insert_side]
        exact w2 k1 hk1
  · intro x1 y1 hx1 hy1
    rw [hU x1 y1 hx1]
    have := h.used_le x1 y1 hx1 hy1
    split_ifs with hcol
    · obtain ⟨rfl, rfl⟩ := hcol; omega
    · exact this
  · intro x1 y1 hx1 hy1 k1 hk1
    rw [hSold x1 y1 k1 hx1 (lt_of_lt_of_le hk1 (h.used_le x1 y1 hx1 hy1))]
    exact h.live_z x1 y1 hx1 hy1 k1 hk1
  · intro x1 y1 hx1 hy1 k1 hk1 hk2
    rw [hU x1 y1 hx1] at hk2
    by_cases hnew : x1 = x ∧ y1 = y ∧ k1 = col_used m x y
    · obtain ⟨rfl, rfl, rfl⟩ := hnew
      rw [hS x1 y1 _ hx1, if_pos ⟨rfl, rfl, rfl⟩]
      refine ⟨rfl, ?_, List.mem_cons_self _ _⟩
      rw [List.count_cons_self, List.count_eq_zero_of_not_mem hE]
      rfl
    · have hk3 : k1 < col_used m x1 y1 := by
        by_cases hcol : x1 = x ∧ y1 = y
        · rw [if_pos hcol] at hk2
          obtain ⟨rfl, rfl⟩ := hcol
          have : k1 ≠ col_used m x1 y1 := fun hh => hnew ⟨rfl, rfl, hh⟩
          omega
        · rw [if_neg hcol] at hk2; exact hk2
      rw [hSold x1 y1 k1 hx1 hk3]
      obtain ⟨d1, d2, d3⟩ := h.dead_new x1 y1 hx1 hy1 k1 hk1 hk3
      refine ⟨d1, ?_, List.mem_cons_of_mem _ d3⟩
      rw [d2, List.count_cons_of_ne]
      intro heq
      exact hE (heq ▸ d3)
  · intro t ht
    rcases List.mem_cons.mp ht with rfl | hmem
    · refine ⟨hx, hy, ?_⟩
      rw [mem_column_depths]
      refine ⟨col_used m x y, ?_, ?_⟩
      · rw [hU x y hx]; simp
      · rw [hS x y _ hx]; simp
    · obtain ⟨a, b, c⟩ := h.tracked t hmem
      refine ⟨a, b, ?_⟩
      rw [mem_column_depths] at c ⊢
      obtain ⟨k1, hk1, hk1z⟩ := c
      refine ⟨k1, ?_, ?_⟩
      · rw [hU _ _ a]
        split_ifs with hcol
        · obtain ⟨h1, h2⟩ := hcol
          rw [h1, h2] at hk1; omega
        · exact hk1
      · rw [hSold _ _ k1 a hk1]; exact hk1z
  · intro x1 y1 hx1 hy1 k1 hk1 c1 hc1
    rw [hSold x1 y1 k1 hx1 (lt_of_lt_of_le hk1 (h.used_le x1 y1 hx1 hy1))]
    exact h.counts x1 y1 hx1 hy1 k1 hk1 c1 (hC1 _ _ hc1)

end Life3d

namespace Life3d

theorem DInv_bump_dead (m0 m : Matrix) (E : List (Int × Int × Int))
    (C C1 : Int × Int × Int → Option Int) (h : DInv m0 m E C) (x y : Int) (q : Nat)
    (hx : in_side m0.side x) (hy : in_side m0.side y) (hq : q < col_used m x y)
    (hd : (col_slot m x y q).is_dead = true)
    (hC1 : ∀ t c1, C1 t = some c1 → C t = some c1) :
    DInv m0
      (ptr_write m ⟨x + y * m.side, q⟩
        { col_slot m x y q with num_neighbours := (col_slot m x y q).num_neighbours + 1 })
      ((x, y, (col_slot m x y q).z) :: E) C1 := by
  have hs := h.side_eq
  have hxm : in_side m.side x := by rw [hs]; exact hx
  have hym : in_side m.side y := by rw [hs]; exact hy
  obtain ⟨b1, b2, b3⟩ := bump_shape m x y q ((col_slot m x y q).num_neighbours + 1) hxm hq
  have hq0 : col_used m0 x y ≤ q := by
    by_contra hlt
    have := (h.live_z x y hx hy q (by omega)).2
    rw [hd] at this
    exact absurd this (by simp)
  apply DInv_same_shape m0 m _ E _ C C1 h b1 b2
  · intro x1 y1 k1 hx1
    have := b3 x1 y1 k1 (by rw [hs]; exact hx1)
    exact ⟨this.1, this.2.1⟩
  · intro t ht
    rcases List.mem_cons.mp ht with rfl | hmem
    · exact ⟨hx, hy, (mem_column_depths m x y _).mpr ⟨q, hq, rfl⟩⟩
    · exact h.tracked t hmem
  · intro x1 y1 hx1 hy1 k1 hk1 hk2
    obtain ⟨_, d2, d3⟩ := h.dead_new x1 y1 hx1 hy1 k1 hk1 hk2
    rw [(b3 x1 y1 k1 (by rw [hs]; exact hx1)).2.2]
    by_cases hsame : x1 = x ∧ y1 = y ∧ k1 = q
    · obtain ⟨rfl, rfl, rfl⟩ := hsame
      rw [if_pos ⟨rfl, rfl, rfl⟩, List.count_cons_self, d2]
      exact ⟨by push_cast; ring, List.mem_cons_self _ _⟩
    · rw [if_neg hsame, d2, List.count_cons_of_ne]
      · exact ⟨rfl, List.mem_cons_of_mem _ d3⟩
      · intro heq
        simp only [Prod.mk.injEq] at heq
        obtain ⟨e1, e2, e3⟩ := heq
        subst e1
        subst e2
        exact hsame ⟨rfl, rfl, (h.wf x1 y1 hxm hym).1 k1 q hk2 hq e3⟩
  · intro x1 y1 hx1 hy1 k1 hk1 c1 hc1
    rw [(b3 x1 y1 k1 (by rw [hs]; exact hx1)).2.2, if_neg]
    · exact h.counts x1 y1 hx1 hy1 k1 hk1 c1 (hC1 _ _ hc1)
    · rintro ⟨rfl, rfl, rfl⟩
      omega

theorem DInv_source_unique (m0 m : Matrix) (E : List (Int × Int × Int))
    (C : Int × Int × Int → Option Int) (h : DInv m0 m E C) (i j : Int)
    (hi : in_side m0.side i) (hj : in_side m0.side j) (k k1 : Nat)
    (hk : k < col_used m0 i j) (hk1 : k1 < col_used m0 i j)
    (hz : (col_slot m0 i j k1).z = (col_slot m0 i j k).z) : k1 = k := by
  have hs := h.side_eq
  have hu := h.used_le i j hi hj
  apply (h.wf i j (by rw [hs]; exact hi) (by rw [hs]; exact hj)).1 k1 k (by omega) (by omega)
  rw [(h.live_z i j hi hj k hk).1, (h.live_z i j hi hj k1 hk1).1, hz]

theorem DInv_bump_live (m0 m : Matrix) (E : List (Int × Int × Int))
    (C : Int × Int × Int → Option Int) (h : DInv m0 m E C) (i j : Int) (k : Nat)
    (hi : in_side m0.side i) (hj : in_side m0.side j) (hk : k < col_used m0 i j)
    (c : Int) (hc : C (i, j, (col_slot m0 i j k).z) = some c)
    (t : Int × Int × Int) (ht1 : in_side m0.side t.1) (ht2 : in_side m0.side t.2.1)
    (ht : t.2.2 ∈ column_depths m0 t.1 t.2.1) :
    DInv m0
      (ptr_write m ⟨i + j * m.side, k⟩
        { col_slot m i j k with num_neighbours := (col_slot m i j k).num_neighbours + 1 })
      (t :: E) (Function.update C (i, j, (col_slot m0 i j k).z) (some (c + 1))) := by
  have hs := h.side_eq
  have him : in_side m.side i := by rw [hs]; exact hi
  have hkm : k < col_used m i j := lt_of_lt_of_le hk (h.used_le i j hi hj)
  obtain ⟨b1, b2, b3⟩ := bump_shape m i j k ((col_slot m i j k).num_neighbours + 1) him hkm
  apply DInv_same_shape m0 m _ E _ C _ h b1 b2
  · intro x1 y1 k1 hx1
    have := b3 x1 y1 k1 (by rw [hs]; exact hx1)
    exact ⟨this.1, this.2.1⟩
  · intro t1 ht1m
    rcases List.mem_cons.mp ht1m with rfl | hmem
    · exact ⟨ht1, ht2, DInv_live_mem m0 m E C h _ _ _ ht1 ht2 ht⟩
    · exact h.tracked t1 hmem
  · intro x1 y1 hx1 hy1 k1 hk1 hk2
    obtain ⟨_, d2, d3⟩ := h.dead_new x1 y1 hx1 hy1 k1 hk1 hk2
    rw [(b3 x1 y1 k1 (by rw [hs]; exact hx1)).2.2, if_neg, d2, List.count_cons_of_ne]
    · exact ⟨rfl, List.mem_cons_of_mem _ d3⟩
    · intro heq
      subst heq
      have := DInv_slot_of_live m0 m E C h x1 y1 hx1 hy1 k1 hk2 ht
      omega
    · rintro ⟨rfl, rfl, rfl⟩
      omega
  · intro x1 y1 hx1 hy1 k1 hk1 c1 hc1
    rw [(b3 x1 y1 k1 (by rw [hs]; exact hx1)).2.2]
    by_cases hsame : x1 = i ∧ y1 = j ∧ k1 = k
    · obtain ⟨rfl, rfl, rfl⟩ := hsame
      rw [if_pos ⟨rfl, rfl, rfl⟩]
      rw [Function.update_same] at hc1
      rw [h.counts x1 y1 hx1 hy1 k1 hk1 c hc]
      exact Option.some.inj hc1
    · rw [if_neg hsame]
      rw [Function.update_noteq] at hc1
      · exact h.counts x1 y1 hx1 hy1 k1 hk1 c1 hc1
      · intro heq
        simp only [Prod.mk.injEq] at heq
        obtain ⟨e1, e2, e3⟩ := heq
        subst e1
        subst e2
        exact hsame ⟨rfl, rfl, DInv_source_unique m0 m E C h x1 y1 hx1 hy1 k k1 hk hk1 e3⟩

theorem DInv_reset (m0 m : Matrix) (E : List (Int × Int × Int))
    (C : Int × Int × Int → Option Int) (h : DInv m0 m E C) (i j : Int) (k : Nat)
    (hi : in_side m0.side i) (hj : in_side m0.side j) (hk : k < col_used m0 i j) :
    DInv m0
      (ptr_write m ⟨i + j * m.side, k⟩ { col_slot m i j k with num_neighbours := 0 })
      E (Function.update C (i, j, (col_slot m0 i j k).z) (some 0)) := by
  have hs := h.side_eq
  have him : in_side m.side i := by rw [hs]; exact hi
  have hkm : k < col_used m i j := lt_of_lt_of_le hk (h.used_le i j hi hj)
  obtain ⟨b1, b2, b3⟩ := bump_shape m i j k 0 him hkm
  apply DInv_same_shape m0 m _ E _ C _ h b1 b2
  · intro x1 y1 k1 hx1
    have := b3 x1 y1 k1 (by rw [hs]; exact hx1)
    exact ⟨this.1, this.2.1⟩
  · exact h.tracked
  · intro x1 y1 hx1 hy1 k1 hk1 hk2
    obtain ⟨_, d2, d3⟩ := h.dead_new x1 y1 hx1 hy1 k1 hk1 hk2
    rw [(b3 x1 y1 k1 (by rw [hs]; exact hx1)).2.2, if_neg]
    · exact ⟨d2, d3⟩
    · rintro ⟨rfl, rfl, rfl⟩
      omega
  · intro x1 y1 hx1 hy1 k1 hk1 c1 hc1
    rw [(b3 x1 y1 k1 (by rw [hs]; exact hx1)).2.2]
    by_cases hsame : x1 = i ∧ y1 = j ∧ k1 = k
    · obtain ⟨rfl, rfl, rfl⟩ := hsame
      rw [if_pos ⟨rfl, rfl, rfl⟩]
      rw [Function.update_same] at hc1
      exact Option.some.inj hc1
    · rw [if_neg hsame]
      rw [Function.update_noteq] at hc1
      · exact h.counts x1 y1 hx1 hy1 k1 hk1 c1 hc1
      · intro heq
        simp only [Prod.mk.injEq] at heq
        obtain ⟨e1, e2, e3⟩ := heq
        subst e1
        subst e2
        exact hsame ⟨rfl, rfl, DInv_source_unique m0 m E C h x1 y1 hx1 hy1 k k1 hk hk1 e3⟩

end Life3d

namespace Life3d

/-- One neighbour block keeps the invariant: the visited coordinate joins `E`,
and the expected count of the source grows by one exactly when the coordinate
is a live cell. -/
theorem DInv_visit (m0 m : Matrix) (E : List (Int × Int × Int))
    (C : Int × Int × Int → Option Int) (h : DInv m0 m E C) (i j : Int) (k : Nat)
    (hi : in_side m0.side i) (hj : in_side m0.side j) (hk : k < col_used m0 i j)
    (c : Int) (hc : C (i, j, (col_slot m0 i j k).z) = some c)
    (x y z : Int) (hx : in_side m0.side x) (hy : in_side m0.side y) (hz : in_side m0.side z) :
    DInv m0 (visit_neighbour m ⟨i + j * m0.side, k⟩ x y z) ((x, y, z) :: E)
      (Function.update C (i, j, (col_slot m0 i j k).z)
        (some (c + if z ∈ column_depths m0 x y then 1 else 0))) := by
  have hs := h.side_eq
  have hC0 : ∀ t c1, Function.update C (i, j, (col_slot m0 i j k).z) (some (c + 0)) t = some c1 →
      C t = some c1 := by
    intro t c1 ht
    by_cases hts : t = (i, j, (col_slot m0 i j k).z)
    · subst hts
      rw [Function.update_same] at ht
      rw [hc]
      simpa using ht
    · rwa [Function.update_noteq hts] at ht
  rw [← hs]
  unfold visit_neighbour
  cases hget : matrix_get_ele m x y z with
  | none =>
    dsimp only
    have hnot := (matrix_get_ele_eq_none m x y z).mp hget
    have hnot0 : z ∉ column_depths m0 x y :=
      fun h0 => hnot (DInv_live_mem m0 m E C h x y z hx hy h0)
    rw [if_neg hnot0]
    exact DInv_insert_new m0 m E C _ h x y z hx hy hz hnot hC0
  | some p =>
    dsimp only
    obtain ⟨hpc, hq, hpz⟩ := matrix_get_ele_eq_some m x y z p hget
    obtain ⟨pc, q⟩ := p
    simp only at hpc hq hpz
    subst hpc
    subst hpz
    simp only [ptr_read_eq_col_slot]
    by_cases hd : (col_slot m x y q).is_dead = true
    · rw [if_pos hd]
      have hnot0 : (col_slot m x y q).z ∉ column_depths m0 x y := by
        intro h0
        have hq0 := DInv_slot_of_live m0 m E C h x y hx hy q hq h0
        have := (h.live_z x y hx hy q hq0).2
        rw [hd] at this
        exact absurd this (by simp)
      rw [if_neg hnot0]
      exact DInv_bump_dead m0 m E C _ h x y q hx hy hq hd hC0
    · rw [if_neg hd]
      have hq0 : q < col_used m0 x y :=
        (DInv_slot_live_iff m0 m E C h x y hx hy q hq).mp (by simpa using hd)
      have hmem : (col_slot m x y q).z ∈ column_depths m0 x y := by
        rw [mem_column_depths]
        exact ⟨q, hq0, ((h.live_z x y hx hy q hq0).1).symm⟩
      rw [if_pos hmem]
      exact DInv_bump_live m0 m E C h i j k hi hj hk c hc (x, y, (col_slot m x y q).z) hx hy hmem

theorem pos_mod_in_side (side c : Int) (hc : in_side side c) :
    in_side side (pos_mod (c + 1) side) ∧ in_side side (pos_mod (c - 1) side) := by
  unfold in_side at *
  unfold pos_mod
  constructor <;> split_ifs <;> omega

end Life3d

namespace Life3d

/-- Processing one live record keeps the invariant: its six neighbour
coordinates join `E`, and its expected count becomes the number of them that are
live cells. -/
theorem DInv_process_alive (m0 m : Matrix) (E : List (Int × Int × Int))
    (C : Int × Int × Int → Option Int) (h : DInv m0 m E C) (i j : Int) (k : Nat)
    (hi : in_side m0.side i) (hj : in_side m0.side j) (hk : k < col_used m0 i j) :
    DInv m0 (process_alive m m0.side i j k)
      ((visited m0.side (i, j, (col_slot m0 i j k).z)).reverse ++ E)
      (Function.update C (i, j, (col_slot m0 i j k).z)
        (some (live_count m0 (visited m0.side (i, j, (col_slot m0 i j k).z))))) := by
  have hs := h.side_eq
  have hz0 : (col_slot m i j k).z = (col_slot m0 i j k).z := (h.live_z i j hi hj k hk).1
  have hzr : in_side m0.side (col_slot m0 i j k).z := by
    have := (h.wf i j (by rw [hs]; exact hi) (by rw [hs]; exact hj)).2 k
      (lt_of_lt_of_le hk (h.used_le i j hi hj))
    rw [hs, hz0] at this
    exact this
  have r0 := DInv_reset m0 m E C h i j k hi hj hk
  rw [hs] at r0
  have r1 := DInv_visit m0 _ _ _ r0 i j k hi hj hk 0 (Function.update_same _ _ _)
    i j (pos_mod ((col_slot m0 i j k).z + 1) m0.side) hi hj (pos_mod_in_side _ _ hzr).1
  have r2 := DInv_visit m0 _ _ _ r1 i j k hi hj hk _ (Function.update_same _ _ _)
    i j (pos_mod ((col_slot m0 i j k).z - 1) m0.side) hi hj (pos_mod_in_side _ _ hzr).2
  have r3 := DInv_visit m0 _ _ _ r2 i j k hi hj hk _ (Function.update_same _ _ _)
    (pos_mod (i + 1) m0.side) j (col_slot m0 i j k).z (pos_mod_in_side _ _ hi).1 hj hzr
  have r4 := DInv_visit m0 _ _ _ r3 i j k hi hj hk _ (Function.update_same _ _ _)
    (pos_mod (i - 1) m0.side) j (col_slot m0 i j k).z (pos_mod_in_side _ _ hi).2 hj hzr
  have r5 := DInv_visit m0 _ _ _ r4 i j k hi hj hk _ (Function.update_same _ _ _)
    i (pos_mod (j + 1) m0.side) (col_slot m0 i j k).z hi (pos_mod_in_side _ _ hj).1 hzr
  have r6 := DInv_visit m0 _ _ _ r5 i j k hi hj hk _ (Function.update_same _ _ _)
    i (pos_mod (j - 1) m0.side) (col_slot m0 i j k).z hi (pos_mod_in_side _ _ hj).2 hzr
  simp only [Function.update_idem] at r6
  have hC : live_count m0 (visited m0.side (i, j, (col_slot m0 i j k).z)) =
      0 + (if pos_mod ((col_slot m0 i j k).z + 1) m0.side ∈ column_depths m0 i j then 1 else 0) +
        (if pos_mod ((col_slot m0 i j k).z - 1) m0.side ∈ column_depths m0 i j then 1 else 0) +
        (if (col_slot m0 i j k).z ∈ column_depths m0 (pos_mod (i + 1) m0.side) j then 1 else 0) +
        (if (col_slot m0 i j k).z ∈ column_depths m0 (pos_mod (i - 1) m0.side) j then 1 else 0) +
        (if (col_slot m0 i j k).z ∈ column_depths m0 i (pos_mod (j + 1) m0.side) then 1 else 0) +
        (if (col_slot m0 i j k).z ∈ column_depths m0 i (pos_mod (j - 1) m0.side) then 1 else 0) := by
    unfold live_count visited
    simp only [List.map_cons, List.map_nil, List.sum_cons, List.sum_nil]
    ring
  rw [hC]
  have hpr : ptr_read m ⟨i + j * m0.side, k⟩ = col_slot m i j k := by
    rw [← hs]; rfl
  convert r6 using 1
  unfold process_alive
  simp only [hs, hpr, hz0]

end Life3d

namespace Life3d

/-! ## Discovery pass: the loops -/

theorem DInvP_init (m0 : Matrix) (h : grid_ok m0) : DInvP m0 m0 [] :=
  ⟨[], fun _ => none, DInv_init m0 h, fun _ => by simp, fun s hs => by simp at hs⟩

theorem DInvP_process_alive (m0 m : Matrix) (P : List (Int × Int × Int)) (h : DInvP m0 m P)
    (i j : Int) (k : Nat) (hi : in_side m0.side i) (hj : in_side m0.side j)
    (hk : k < col_used m0 i j) :
    DInvP m0 (process_alive m m0.side i j k) (P ++ [(i, j, (col_slot m0 i j k).z)]) := by
  obtain ⟨E, C, hinv, hE, hC⟩ := h
  refine ⟨_, _, DInv_process_alive m0 m E C hinv i j k hi hj hk, ?_, ?_⟩
  · intro t
    rw [List.count_append, List.count_reverse, List.map_append, List.sum_append]
    push_cast
    rw [hE t]
    simp
    ring
  · intro s hs
    by_cases hcur : s = (i, j, (col_slot m0 i j k).z)
    · rw [hcur, Function.update_same]
    · rw [Function.update_noteq hcur]
      rcases List.mem_append.mp hs with h1 | h1
      · exact hC s h1
      · exact absurd (List.mem_singleton.mp h1) hcur

theorem visit_neighbour_side (m : Matrix) (ptr : node_ptr) (x y z : Int) :
    (visit_neighbour m ptr x y z).side = m.side := by
  unfold visit_neighbour
  cases matrix_get_ele m x y z with
  | none => rfl
  | some p =>
    dsimp only
    split_ifs <;> exact ptr_write_side _ _ _

theorem col_used_visit_mono (m : Matrix) (ptr : node_ptr) (x y z x1 y1 : Int)
    (hx : in_side m.side x) (hx1 : in_side m.side x1) :
    col_used m x1 y1 ≤ col_used (visit_neighbour m ptr x y z) x1 y1 := by
  unfold visit_neighbour
  cases matrix_get_ele m x y z with
  | none =>
    dsimp only
    rw [col_used_insert m x y z true 1 x1 y1 hx hx1]
    split_ifs with hc
    · obtain ⟨rfl, rfl⟩ := hc; omega
    · exact le_refl _
  | some p =>
    dsimp only
    split_ifs <;> rw [col_used_ptr_write]

theorem process_alive_side (m : Matrix) (SIZE i j : Int) (k : Nat) :
    (process_alive m SIZE i j k).side = m.side := by
  unfold process_alive
  simp only [visit_neighbour_side, ptr_write_side]

theorem col_used_process_alive_mono (m : Matrix) (i j : Int) (k : Nat) (x1 y1 : Int)
    (hi : in_side m.side i) (hj : in_side m.side j) (hx1 : in_side m.side x1) :
    col_used m x1 y1 ≤ col_used (process_alive m m.side i j k) x1 y1 := by
  unfold process_alive
  dsimp only
  have step : ∀ (a : Matrix) (ptr : node_ptr) (x y z : Int), a.side = m.side →
      in_side m.side x → col_used m x1 y1 ≤ col_used a x1 y1 →
      (visit_neighbour a ptr x y z).side = m.side ∧
        col_used m x1 y1 ≤ col_used (visit_neighbour a ptr x y z) x1 y1 := by
    intro a ptr x y z ha hx hle
    refine ⟨by rw [visit_neighbour_side, ha], le_trans hle ?_⟩
    exact col_used_visit_mono a ptr x y z x1 y1 (by rw [ha]; exact hx) (by rw [ha]; exact hx1)
  have s0 : (ptr_write m ⟨i + j * m.side, k⟩
      { ptr_read m ⟨i + j * m.side, k⟩ with num_neighbours := 0 }).side = m.side ∧
      col_used m x1 y1 ≤ col_used (ptr_write m ⟨i + j * m.side, k⟩
        { ptr_read m ⟨i + j * m.side, k⟩ with num_neighbours := 0 }) x1 y1 :=
    ⟨ptr_write_side _ _ _, by rw [col_used_ptr_write]⟩
  have s1 := step _ ⟨i + j * m.side, k⟩ i j
    (pos_mod ((ptr_read m ⟨i + j * m.side, k⟩).z + 1) m.side) s0.1 hi s0.2
  have s2 := step _ ⟨i + j * m.side, k⟩ i j
    (pos_mod ((ptr_read m ⟨i + j * m.side, k⟩).z - 1) m.side) s1.1 hi s1.2
  have s3 := step _ ⟨i + j * m.side, k⟩ (pos_mod (i + 1) m.side) j
    (ptr_read m ⟨i + j * m.side, k⟩).z s2.1 (pos_mod_in_side _ _ hi).1 s2.2
  have s4 := step _ ⟨i + j * m.side, k⟩ (pos_mod (i - 1) m.side) j
    (ptr_read m ⟨i + j * m.side, k⟩).z s3.1 (pos_mod_in_side _ _ hi).2 s3.2
  have s5 := step _ ⟨i + j * m.side, k⟩ i (pos_mod (j + 1) m.side)
    (ptr_read m ⟨i + j * m.side, k⟩).z s4.1 hi s4.2
  have s6 := step _ ⟨i + j * m.side, k⟩ i (pos_mod (j - 1) m.side)
    (ptr_read m ⟨i + j * m.side, k⟩).z s5.1 hi s5.2
  have _ := hj
  exact s6.2

end Life3d

namespace Life3d

/-! ## Discovery pass: the loops over slots, columns and rows -/

theorem col_sources_length (m0 : Matrix) (i j : Int) :
    (col_sources m0 i j).length = col_used m0 i j := by
  simp [col_sources]

theorem col_sources_take_succ (m0 : Matrix) (i j : Int) (n : Nat) (hn : n < col_used m0 i j) :
    (col_sources m0 i j).take (n + 1) =
      (col_sources m0 i j).take n ++ [(i, j, (col_slot m0 i j n).z)] := by
  rw [List.take_succ]
  congr 1
  unfold col_sources
  rw [List.getElem?_map, List.getElem?_range hn]
  rfl

theorem DInvP_discover_column (m0 m : Matrix) (P : List (Int × Int × Int)) (h : DInvP m0 m P)
    (i j : Int) (hi : in_side m0.side i) (hj : in_side m0.side j) :
    DInvP m0 (discover_column m m0.side i j) (P ++ col_sources m0 i j) := by
  have hu0 : col_used m0 i j ≤ col_used m i j := by
    obtain ⟨E, C, hinv, _, _⟩ := h
    exact hinv.used_le i j hi hj
  unfold discover_column
  cases hcol : matrix_get m i j with
  | none =>
    dsimp only
    have : col_used m i j = 0 := by unfold col_used; rw [hcol]
    have h0 : col_sources m0 i j = [] := by
      apply List.eq_nil_of_length_eq_zero
      rw [col_sources_length]; omega
    rw [h0, List.append_nil]
    exact h
  | some da =>
    dsimp only
    have hlim : da.used = col_used m i j := by unfold col_used; rw [hcol]
    have key : ∀ n, n ≤ da.used →
        DInvP m0
          ((List.range n).foldl
            (fun m k =>
              if (ptr_read m { col := i + j * m.side, slot := k }).is_dead = true then m
              else process_alive m m0.side i j k) m)
          (P ++ (col_sources m0 i j).take n) ∧
        da.used ≤ col_used
          ((List.range n).foldl
            (fun m k =>
              if (ptr_read m { col := i + j * m.side, slot := k }).is_dead = true then m
              else process_alive m m0.side i j k) m) i j := by
      intro n
      induction n with
      | zero =>
        intro _
        simp only [List.range_zero, List.foldl_nil, List.take_zero, List.append_nil]
        exact ⟨h, by omega⟩
      | succ n ih =>
        intro hn
        obtain ⟨ihP, ihU⟩ := ih (by omega)
        rw [List.range_succ, List.foldl_append]
        simp only [List.foldl_cons, List.foldl_nil]
        generalize (List.range n).foldl
            (fun m k =>
              if (ptr_read m { col := i + j * m.side, slot := k }).is_dead = true then m
              else process_alive m m0.side i j k) m = mn at ihP ihU ⊢
        rw [ptr_read_eq_col_slot]
        obtain ⟨E, C, hinv, hE, hC⟩ := ihP
        have hs := hinv.side_eq
        by_cases hn0 : n < col_used m0 i j
        · have hlive := (hinv.live_z i j hi hj n hn0).2
          rw [if_neg (by rw [hlive]; simp)]
          rw [col_sources_take_succ m0 i j n hn0, ← List.append_assoc]
          refine ⟨DInvP_process_alive m0 mn _ ⟨E, C, hinv, hE, hC⟩ i j n hi hj hn0, ?_⟩
          have := col_used_process_alive_mono mn i j n i j (by rw [hs]; exact hi)
            (by rw [hs]; exact hj) (by rw [hs]; exact hi)
          rw [hs] at this
          omega
        · have hdead := (hinv.dead_new i j hi hj n (by omega) (by omega)).1
          rw [if_pos hdead]
          have e1 : (col_sources m0 i j).take (n + 1) = col_sources m0 i j :=
            List.take_of_length_le (by rw [col_sources_length]; omega)
          have e2 : (col_sources m0 i j).take n = col_sources m0 i j :=
            List.take_of_length_le (by rw [col_sources_length]; omega)
          rw [e1]
          rw [e2] at hE hC
          exact ⟨⟨E, C, hinv, hE, hC⟩, ihU⟩
    have := (key da.used (le_refl _)).1
    rw [List.take_of_length_le (by rw [col_sources_length]; omega)] at this
    exact this

theorem foldl_range_DInvP (m0 : Matrix) (f : Matrix → Nat → Matrix)
    (g : Nat → List (Int × Int × Int)) (N : Nat)
    (hstep : ∀ m P n, n < N → DInvP m0 m P → DInvP m0 (f m n) (P ++ g n))
    (m : Matrix) (P : List (Int × Int × Int)) (h : DInvP m0 m P) :
    DInvP m0 ((List.range N).foldl f m) (P ++ (List.range N).flatMap g) := by
  have key : ∀ n, n ≤ N →
      DInvP m0 ((List.range n).foldl f m) (P ++ (List.range n).flatMap g) := by
    intro n
    induction n with
    | zero => intro _; simpa using h
    | succ n ih =>
      intro hn
      rw [List.range_succ, List.foldl_append, List.flatMap_append, ← List.append_assoc]
      simp only [List.foldl_cons, List.foldl_nil, List.flatMap_singleton]
      exact hstep _ _ n (by omega) (ih (by omega))
  exact key N (le_refl _)

theorem in_side_of_lt_toNat (side : Int) (n : Nat) (h : n < side.toNat) :
    in_side side (n : Int) := by
  unfold in_side
  omega

/-- After the discovery pass on a grid in the state between generations every
live cell has been processed, in the order of the loops. -/
theorem DInvP_discovery_pass (m0 : Matrix) (h : grid_ok m0) :
    DInvP m0 (discovery_pass m0 m0.side) (all_sources m0) := by
  have := foldl_range_DInvP m0
    (fun m (i : Nat) =>
      (List.range m0.side.toNat).foldl
        (fun m (j : Nat) => discover_column m m0.side (i : Int) (j : Int)) m)
    (fun i => (List.range m0.side.toNat).flatMap fun j => col_sources m0 (i : Int) (j : Int))
    m0.side.toNat
    (by
      intro m P i hi hP
      exact foldl_range_DInvP m0 (fun m (j : Nat) => discover_column m m0.side (i : Int) (j : Int))
        (fun j => col_sources m0 (i : Int) (j : Int)) m0.side.toNat
        (fun m1 P1 j hj hP1 => DInvP_discover_column m0 m1 P1 hP1 i j
          (in_side_of_lt_toNat _ _ hi) (in_side_of_lt_toNat _ _ hj))
        m P hP)
    m0 [] (DInvP_init m0 h)
  simpa [discovery_pass, all_sources] using this

end Life3d

namespace Life3d

/-! ## Counting visits: every cell is visited once by each live neighbour -/

theorem pos_mod_succ_eq_iff (side a b : Int) (ha : in_side side a) (hb : in_side side b) :
    b = pos_mod (a + 1) side ↔ a = pos_mod (b - 1) side := by
  unfold in_side at *
  unfold pos_mod
  split_ifs <;> omega

theorem pos_mod_pred_eq_iff (side a b : Int) (ha : in_side side a) (hb : in_side side b) :
    b = pos_mod (a - 1) side ↔ a = pos_mod (b + 1) side := by
  unfold in_side at *
  unfold pos_mod
  split_ifs <;> omega

theorem pos_mod_distinct (side a : Int) (hs : 3 ≤ side) (ha : in_side side a) :
    pos_mod (a + 1) side ≠ a ∧ pos_mod (a - 1) side ≠ a ∧
    pos_mod (a + 1) side ≠ pos_mod (a - 1) side := by
  unfold in_side at *
  unfold pos_mod
  refine ⟨?_, ?_, ?_⟩ <;> split_ifs <;> omega

theorem mem_visited (side : Int) (s t : Int × Int × Int) :
    t ∈ visited side s ↔
      (t.1 = s.1 ∧ t.2.1 = s.2.1 ∧ (t.2.2 = pos_mod (s.2.2 + 1) side ∨
        t.2.2 = pos_mod (s.2.2 - 1) side)) ∨
      (t.2.1 = s.2.1 ∧ t.2.2 = s.2.2 ∧ (t.1 = pos_mod (s.1 + 1) side ∨
        t.1 = pos_mod (s.1 - 1) side)) ∨
      (t.1 = s.1 ∧ t.2.2 = s.2.2 ∧ (t.2.1 = pos_mod (s.2.1 + 1) side ∨
        t.2.1 = pos_mod (s.2.1 - 1) side)) := by
  obtain ⟨a, b, c⟩ := s
  obtain ⟨x, y, z⟩ := t
  simp only [visited, List.mem_cons, Prod.mk.injEq, List.mem_nil_iff, or_false]
  tauto

theorem visited_symm (side : Int) (s t : Int × Int × Int)
    (hs : in_side side s.1 ∧ in_side side s.2.1 ∧ in_side side s.2.2)
    (ht : in_side side t.1 ∧ in_side side t.2.1 ∧ in_side side t.2.2) :
    t ∈ visited side s ↔ s ∈ visited side t := by
  rw [mem_visited, mem_visited]
  rw [pos_mod_succ_eq_iff side s.2.2 t.2.2 hs.2.2 ht.2.2,
    pos_mod_pred_eq_iff side s.2.2 t.2.2 hs.2.2 ht.2.2,
    pos_mod_succ_eq_iff side s.1 t.1 hs.1 ht.1,
    pos_mod_pred_eq_iff side s.1 t.1 hs.1 ht.1,
    pos_mod_succ_eq_iff side s.2.1 t.2.1 hs.2.1 ht.2.1,
    pos_mod_pred_eq_iff side s.2.1 t.2.1 hs.2.1 ht.2.1]
  constructor
  · rintro (⟨h1, h2, h3⟩ | ⟨h1, h2, h3⟩ | ⟨h1, h2, h3⟩)
    · exact Or.inl ⟨h1.symm, h2.symm, h3.symm⟩
    · exact Or.inr (Or.inl ⟨h1.symm, h2.symm, h3.symm⟩)
    · exact Or.inr (Or.inr ⟨h1.symm, h2.symm, h3.symm⟩)
  · rintro (⟨h1, h2, h3⟩ | ⟨h1, h2, h3⟩ | ⟨h1, h2, h3⟩)
    · exact Or.inl ⟨h1.symm, h2.symm, h3.symm⟩
    · exact Or.inr (Or.inl ⟨h1.symm, h2.symm, h3.symm⟩)
    · exact Or.inr (Or.inr ⟨h1.symm, h2.symm, h3.symm⟩)

theorem visited_in_side (side : Int) (s t : Int × Int × Int)
    (hs : in_side side s.1 ∧ in_side side s.2.1 ∧ in_side side s.2.2)
    (ht : t ∈ visited side s) :
    in_side side t.1 ∧ in_side side t.2.1 ∧ in_side side t.2.2 := by
  obtain ⟨h1, h2, h3⟩ := hs
  have p1 := pos_mod_in_side side _ h1
  have p2 := pos_mod_in_side side _ h2
  have p3 := pos_mod_in_side side _ h3
  rw [mem_visited] at ht
  rcases ht with ⟨e1, e2, e3 | e3⟩ | ⟨e1, e2, e3 | e3⟩ | ⟨e1, e2, e3 | e3⟩ <;>
    rw [e1, e2, e3] <;> simp only [h1, h2, h3, p1, p2, p3, and_self]

theorem visited_nodup (side : Int) (s : Int × Int × Int) (hside : 3 ≤ side)
    (hs : in_side side s.1 ∧ in_side side s.2.1 ∧ in_side side s.2.2) :
    (visited side s).Nodup := by
  obtain ⟨a, b, c⟩ := s
  obtain ⟨a1, a2, a3⟩ := pos_mod_distinct side a hside hs.1
  obtain ⟨b1, b2, b3⟩ := pos_mod_distinct side b hside hs.2.1
  obtain ⟨c1, c2, c3⟩ := pos_mod_distinct side c hside hs.2.2
  have a1s := Ne.symm a1
  have a2s := Ne.symm a2
  have a3s := Ne.symm a3
  have b1s := Ne.symm b1
  have b2s := Ne.symm b2
  have b3s := Ne.symm b3
  have c1s := Ne.symm c1
  have c2s := Ne.symm c2
  have c3s := Ne.symm c3
  simp [visited, a1, a2, a3, b1, b2, b3, c1, c2, c3, a1s, a2s, a3s, b1s, b2s, b3s, c1s, c2s, c3s]

end Life3d

namespace Life3d

theorem mem_col_sources (m0 : Matrix) (i j : Int) (t : Int × Int × Int) :
    t ∈ col_sources m0 i j ↔ t.1 = i ∧ t.2.1 = j ∧ t.2.2 ∈ column_depths m0 i j := by
  obtain ⟨x, y, z⟩ := t
  unfold col_sources
  rw [mem_column_depths]
  simp only [List.mem_map, List.mem_range, Prod.mk.injEq]
  constructor
  · rintro ⟨k, hk, rfl, rfl, rfl⟩
    exact ⟨rfl, rfl, k, hk, rfl⟩
  · rintro ⟨rfl, rfl, k, hk, rfl⟩
    exact ⟨k, hk, rfl, rfl, rfl⟩

theorem mem_all_sources (m0 : Matrix) (t : Int × Int × Int) :
    t ∈ all_sources m0 ↔
      in_side m0.side t.1 ∧ in_side m0.side t.2.1 ∧ t.2.2 ∈ column_depths m0 t.1 t.2.1 := by
  unfold all_sources
  simp only [List.mem_flatMap, List.mem_range, mem_col_sources]
  constructor
  · rintro ⟨i, hi, j, hj, e1, e2, hz⟩
    rw [e1, e2]
    exact ⟨in_side_of_lt_toNat _ _ hi, in_side_of_lt_toNat _ _ hj, hz⟩
  · rintro ⟨hx, hy, hz⟩
    unfold in_side at hx hy
    refine ⟨t.1.toNat, by omega, t.2.1.toNat, by omega, ?_, ?_, ?_⟩
    · exact (Int.toNat_of_nonneg hx.1).symm
    · exact (Int.toNat_of_nonneg hy.1).symm
    · rw [Int.toNat_of_nonneg hx.1, Int.toNat_of_nonneg hy.1]; exact hz

theorem col_sources_nodup (m0 : Matrix) (h : grid_wf m0) (i j : Int)
    (hi : in_side m0.side i) (hj : in_side m0.side j) : (col_sources m0 i j).Nodup := by
  unfold col_sources
  apply List.Nodup.map_on _ (List.nodup_range _)
  intro a ha b hb hab
  simp only [Prod.mk.injEq, true_and] at hab
  exact (h i j hi hj).1 a b (List.mem_range.mp ha) (List.mem_range.mp hb) hab

theorem all_sources_nodup (m0 : Matrix) (h : grid_wf m0) : (all_sources m0).Nodup := by
  unfold all_sources
  rw [List.nodup_flatMap]
  constructor
  · intro i hi
    rw [List.nodup_flatMap]
    constructor
    · intro j hj
      exact col_sources_nodup m0 h _ _ (in_side_of_lt_toNat _ _ (List.mem_range.mp hi))
        (in_side_of_lt_toNat _ _ (List.mem_range.mp hj))
    · refine (List.pairwise_lt_range _).imp ?_
      intro j1 j2 hlt
      show List.Disjoint _ _
      rw [List.disjoint_left]
      intro t h1 h2
      rw [mem_col_sources] at h1 h2
      have := h1.2.1.symm.trans h2.2.1
      omega
  · refine (List.pairwise_lt_range _).imp ?_
    intro i1 i2 hlt
    show List.Disjoint _ _
    rw [List.disjoint_left]
    intro t h1 h2
    obtain ⟨j1, _, h1⟩ := List.mem_flatMap.mp h1
    obtain ⟨j2, _, h2⟩ := List.mem_flatMap.mp h2
    rw [mem_col_sources] at h1 h2
    have := h1.1.symm.trans h2.1
    omega

theorem count_eq_one_of_nodup_mem {α : Type} [BEq α] [LawfulBEq α] (l : List α) (a : α)
    (hnd : l.Nodup) (h : a ∈ l) : l.count a = 1 := by
  induction l with
  | nil => simp at h
  | cons b l ih =>
    rw [List.nodup_cons] at hnd
    rw [List.count_cons]
    by_cases hab : b = a
    · subst hab
      rw [List.count_eq_zero_of_not_mem hnd.1]
      simp
    · have hmem : a ∈ l := by
        rcases List.mem_cons.mp h with h1 | h1
        · exact absurd h1.symm hab
        · exact h1
      rw [ih hnd.2 hmem]
      simp [hab]

theorem sum_ite_eq_length_filter {α : Type} (l : List α) (p : α → Prop) [DecidablePred p] :
    (l.map (fun a => if p a then (1 : Int) else 0)).sum =
      (((l.filter (fun a => decide (p a))).length : Nat) : Int) := by
  induction l with
  | nil => rfl
  | cons a l ih =>
    rw [List.map_cons, List.sum_cons, ih, List.filter_cons]
    by_cases hp : p a
    · simp [hp]; ring
    · simp [hp]

theorem filter_mem_length_comm {α : Type} [DecidableEq α] (A B : List α) (hA : A.Nodup)
    (hB : B.Nodup) :
    (A.filter (fun a => decide (a ∈ B))).length = (B.filter (fun b => decide (b ∈ A))).length := by
  apply List.Perm.length_eq
  rw [List.perm_ext_iff_of_nodup (hA.filter _) (hB.filter _)]
  intro a
  simp only [List.mem_filter, decide_eq_true_eq]
  tauto

/-- For a grid of side at least 3, the visits paid to an in-range cell by all
the records of the grid are as many as the visited neighbours of the cell that
are stored. -/
theorem visits_eq_live_count (m0 : Matrix) (hwf : grid_wf m0) (hside : 3 ≤ m0.side)
    (t : Int × Int × Int)
    (ht : in_side m0.side t.1 ∧ in_side m0.side t.2.1 ∧ in_side m0.side t.2.2) :
    ((all_sources m0).map (fun s => (((visited m0.side s).count t : Nat) : Int))).sum =
      live_count m0 (visited m0.side t) := by
  have hsrc : ∀ s, s ∈ all_sources m0 →
      in_side m0.side s.1 ∧ in_side m0.side s.2.1 ∧ in_side m0.side s.2.2 := by
    intro s hs
    rw [mem_all_sources] at hs
    obtain ⟨h1, h2, h3⟩ := hs
    rw [mem_column_depths] at h3
    obtain ⟨k, hk, hkz⟩ := h3
    refine ⟨h1, h2, ?_⟩
    rw [← hkz]
    exact (hwf s.1 s.2.1 h1 h2).2 k hk
  have e1 : (all_sources m0).map (fun s => (((visited m0.side s).count t : Nat) : Int)) =
      (all_sources m0).map (fun s => if s ∈ visited m0.side t then (1 : Int) else 0) := by
    apply List.map_congr_left
    intro s hs
    have hsr := hsrc s hs
    by_cases hmem : t ∈ visited m0.side s
    · have hc := count_eq_one_of_nodup_mem _ t (visited_nodup _ s hside hsr) hmem
      rw [if_pos ((visited_symm _ s t hsr ht).mp hmem), hc]
      rfl
    · have hc : List.count t (visited m0.side s) = 0 := List.count_eq_zero_of_not_mem hmem
      rw [if_neg (fun h => hmem ((visited_symm _ s t hsr ht).mpr h))]
      simp only [Nat.cast_eq_zero]
      convert hc
  have e2 : live_count m0 (visited m0.side t) =
      ((visited m0.side t).map (fun u => if u ∈ all_sources m0 then (1 : Int) else 0)).sum := by
    unfold live_count
    congr 1
    apply List.map_congr_left
    intro u hu
    have hur := visited_in_side _ t u ht hu
    have : u ∈ all_sources m0 ↔ u.2.2 ∈ column_depths m0 u.1 u.2.1 := by
      rw [mem_all_sources]
      exact ⟨fun h => h.2.2, fun h => ⟨hur.1, hur.2.1, h⟩⟩
    by_cases hst : u.2.2 ∈ column_depths m0 u.1 u.2.1
    · rw [if_pos hst, if_pos (this.mpr hst)]
    · rw [if_neg hst, if_neg (fun h => hst (this.mp h))]
  rw [e1, e2, sum_ite_eq_length_filter, sum_ite_eq_length_filter]
  have := filter_mem_length_comm _ _ (all_sources_nodup m0 hwf) (visited_nodup _ t hside ht)
  simp only [Nat.cast_inj]
  convert this

end Life3d

namespace Life3d

/-! ## Commit pass: one step and the reverse loop of a column -/

theorem matrix_get_ptr_write_same (m : Matrix) (i j : Int) (k : Nat) (nd : node)
    (da : dynamic_array) (hcol : matrix_get m i j = some da) :
    matrix_get (ptr_write m ⟨i + j * m.side, k⟩ nd) i j =
      some { da with data := Function.update da.data k nd } := by
  unfold matrix_get at hcol ⊢
  rw [ptr_write_side]
  unfold ptr_write
  dsimp only
  rw [hcol]
  simp

theorem matrix_get_ptr_write_other (m : Matrix) (i j : Int) (k : Nat) (nd : node) (x1 y1 : Int)
    (hi : in_side m.side i) (hx1 : in_side m.side x1) (hne : ¬ (x1 = i ∧ y1 = j)) :
    matrix_get (ptr_write m ⟨i + j * m.side, k⟩ nd) x1 y1 = matrix_get m x1 y1 := by
  unfold matrix_get
  rw [ptr_write_side]
  unfold ptr_write
  dsimp only
  cases hcol : m.data (i + j * m.side) with
  | none => rfl
  | some da =>
    dsimp only
    rw [Function.update_noteq]
    intro h
    exact hne (flat_index_inj m.side x1 y1 i j hx1 hi h)

theorem da_records_update (da : dynamic_array) (k : Nat) (nd : node) :
    da_records { da with data := Function.update da.data k nd } = (da_records da).set k nd := by
  apply List.ext_getElem
  · simp [da_records]
  · intro n h1 h2
    rw [da_records_getElem, List.getElem_set]
    by_cases hk : k = n
    · subst hk; simp
    · rw [if_neg hk, da_records_getElem]
      exact Function.update_noteq (Ne.symm hk) _ _

theorem survives_revive_live (nd : node) (h : nd.is_dead = false) : revive nd = nd := by
  cases nd
  simp only [revive] at *
  simp [h]

/-- The effect of one commit step on its column: a record that stays is
replaced by its live version in place, a record that goes is deleted by
`da_delete_at`; the other columns and the side are as before. -/
theorem commit_step_effect (m : Matrix) (i j : Int) (k : Nat) (da : dynamic_array)
    (hi : in_side m.side i) (hcol : matrix_get m i j = some da) (hk : k < da.used)
    (hnd : (da_depths da).Nodup) :
    (commit_step m i j k).side = m.side ∧
    (∀ x1 y1, in_side m.side x1 → ¬ (x1 = i ∧ y1 = j) →
      matrix_get (commit_step m i j k) x1 y1 = matrix_get m x1 y1) ∧
    ((survives (da.data k) = true ∧
        ∃ da1, matrix_get (commit_step m i j k) i j = some da1 ∧ da1.used = da.used ∧
          da_records da1 = (da_records da).set k (revive (da.data k))) ∨
      (survives (da.data k) = false ∧
        matrix_get (commit_step m i j k) i j = some (da_delete_at da k))) := by
  have hread : ptr_read m ⟨i + j * m.side, k⟩ = da.data k := by
    unfold ptr_read
    unfold matrix_get at hcol
    rw [hcol]
  have hfind : da_find_z da (da.data k).z = (k : Int) := da_find_z_of_nodup da hnd k hk
  have hrem_same : matrix_get (matrix_remove m i j (da.data k).z) i j =
      some (da_delete_at da k) := by
    rw [matrix_get_remove_same m i j _ da hcol (by rw [hfind]; omega), hfind, Int.toNat_ofNat]
  unfold commit_step
  simp only [hread]
  unfold survives
  by_cases hd : (da.data k).is_dead = true
  · simp only [hd, if_true]
    by_cases h23 : (da.data k).num_neighbours = 2 ∨ (da.data k).num_neighbours = 3
    · rw [if_pos h23]
      refine ⟨ptr_write_side _ _ _, ?_, Or.inl ⟨by simpa using h23, ?_⟩⟩
      · intro x1 y1 hx1 hne
        exact matrix_get_ptr_write_other m i j k _ x1 y1 hi hx1 hne
      · refine ⟨_, matrix_get_ptr_write_same m i j k _ da hcol, rfl, ?_⟩
        rw [da_records_update]
        rfl
    · rw [if_neg h23]
      refine ⟨matrix_remove_side _ _ _ _, ?_, Or.inr ⟨by simpa using h23, hrem_same⟩⟩
      intro x1 y1 hx1 hne
      exact matrix_get_remove_other m i j _ x1 y1 hi hx1 hne
  · have hd1 : (da.data k).is_dead = false := by simpa using hd
    simp only [hd1, Bool.false_eq_true, if_false]
    by_cases hout : (da.data k).num_neighbours < 2 ∨ (da.data k).num_neighbours > 4
    · rw [if_pos hout]
      refine ⟨matrix_remove_side _ _ _ _, ?_, Or.inr ⟨?_, hrem_same⟩⟩
      · intro x1 y1 hx1 hne
        exact matrix_get_remove_other m i j _ x1 y1 hi hx1 hne
      · simp only [decide_eq_false_iff_not]
        omega
    · rw [if_neg hout]
      refine ⟨rfl, fun _ _ _ _ => rfl, Or.inl ⟨?_, da, hcol, rfl, ?_⟩⟩
      · simp only [decide_eq_true_eq]
        omega
      · rw [survives_revive_live _ hd1]
        apply List.ext_getElem
        · simp
        · intro n h1 h2
          rw [List.getElem_set]
          by_cases hkn : k = n
          · subst hkn
            rw [if_pos rfl, da_records_getElem]
          · rw [if_neg hkn]

theorem list_split_at {α : Type} (l : List α) (n : Nat) (h : n < l.length) :
    ∃ A B, l = A ++ l[n] :: B ∧ A.length = n := by
  refine ⟨l.take n, l.drop (n + 1), ?_, ?_⟩
  · rw [List.getElem_cons_drop, List.take_append_drop]
  · simp; omega

theorem revive_z (nd : node) : (revive nd).z = nd.z := rfl

theorem commit_loop (i j : Int) (n : Nat) :
    ∀ (m : Matrix) (da : dynamic_array), in_side m.side i → matrix_get m i j = some da →
      n ≤ da.used → (da_depths da).Nodup →
      ((List.range n).reverse.foldl (fun m k => commit_step m i j k) m).side = m.side ∧
      (∀ x1 y1, in_side m.side x1 → ¬ (x1 = i ∧ y1 = j) →
        matrix_get ((List.range n).reverse.foldl (fun m k => commit_step m i j k) m) x1 y1 =
          matrix_get m x1 y1) ∧
      ∃ da1, matrix_get ((List.range n).reverse.foldl (fun m k => commit_step m i j k) m) i j =
          some da1 ∧
        (da_records da1).Perm
          ((((da_records da).take n).filter survives).map revive ++ (da_records da).drop n) := by
  induction n with
  | zero =>
    intro m da _ hcol _ _
    exact ⟨rfl, fun _ _ _ _ => rfl, da, hcol, by simp⟩
  | succ n ih =>
    intro m da hi hcol hn hnd
    rw [List.range_succ, List.reverse_append, List.reverse_singleton, List.singleton_append,
      List.foldl_cons]
    obtain ⟨hside, hframe, hcase⟩ := commit_step_effect m i j n da hi hcol (by omega) hnd
    have hlen : n < (da_records da).length := by rw [da_records_length]; omega
    obtain ⟨A, B, hR, hA⟩ := list_split_at (da_records da) n hlen
    have hx : (da_records da)[n] = da.data n := da_records_getElem da n hlen
    rw [hx] at hR
    have htake : (da_records da).take (n + 1) = A ++ [da.data n] := by
      rw [hR, List.take_append_eq_append_take, List.take_of_length_le (by omega), hA,
        Nat.add_sub_cancel_left]
      rfl
    have hdrop : (da_records da).drop (n + 1) = B := by
      rw [hR, List.drop_append_eq_append_drop, List.drop_of_length_le (by omega), hA,
        Nat.add_sub_cancel_left]
      rfl
    rcases hcase with ⟨hsurv, da1, hcol1, hused1, hrec1⟩ | ⟨hsurv, hcol1⟩
    · have hrec1' : da_records da1 = A ++ revive (da.data n) :: B := by
        rw [hrec1, hR, ← hA]
        simp
      have hnd1 : (da_depths da1).Nodup := by
        have : da_depths da1 = da_depths da := by
          unfold da_depths
          rw [hrec1', hR]
          simp [revive_z]
        rw [this]; exact hnd
      obtain ⟨s1, f1, da2, hcol2, hperm⟩ := ih (commit_step m i j n) da1
        (by rw [hside]; exact hi) hcol1 (by omega) hnd1
      refine ⟨by rw [s1, hside], ?_, da2, hcol2, ?_⟩
      · intro x1 y1 hx1 hne
        rw [f1 x1 y1 (by rw [hside]; exact hx1) hne, hframe x1 y1 hx1 hne]
      · rw [htake, hdrop]
        have e1 : (da_records da1).take n = A := by rw [hrec1', ← hA]; simp
        have e2 : (da_records da1).drop n = revive (da.data n) :: B := by
          rw [hrec1', ← hA]; simp
        rw [e1, e2] at hperm
        rw [List.filter_append, List.map_append]
        simp only [List.filter_cons, hsurv, if_true, List.filter_nil, List.map_cons, List.map_nil,
          List.append_assoc, List.singleton_append]
        exact hperm
    · have hk : n < da.used := by omega
      obtain ⟨hp1, hp2⟩ := da_records_delete_at_perm da n hk
      have hnd1 := da_depths_delete_at_nodup da n hnd
      have hused1 := da_delete_at_used da n hk
      obtain ⟨s1, f1, da2, hcol2, hperm⟩ := ih (commit_step m i j n) (da_delete_at da n)
        (by rw [hside]; exact hi) hcol1 (by omega) hnd1
      refine ⟨by rw [s1, hside], ?_, da2, hcol2, ?_⟩
      · intro x1 y1 hx1 hne
        rw [f1 x1 y1 (by rw [hside]; exact hx1) hne, hframe x1 y1 hx1 hne]
      · have e1 : (da_records (da_delete_at da n)).take n = A := by
          rw [hp2, hR, ← hA]; simp
        have herase : (da_records da).eraseIdx n = A ++ B := by
          rw [hR, ← hA, List.eraseIdx_append_of_length_le (le_refl _)]
          simp
        have e2 : ((da_records (da_delete_at da n)).drop n).Perm B := by
          have e3 : A ++ (da_records (da_delete_at da n)).drop n =
              da_records (da_delete_at da n) := by
            rw [← e1]; exact List.take_append_drop _ _
          have h1 : (A ++ (da_records (da_delete_at da n)).drop n).Perm (A ++ B) := by
            rw [e3, ← herase]
            exact hp1
          exact (List.perm_append_left_iff A).mp h1
        rw [e1] at hperm
        rw [htake, hdrop, List.filter_append, List.map_append]
        simp only [List.filter_cons, hsurv, Bool.false_eq_true, if_false, List.filter_nil,
          List.map_nil, List.append_nil]
        exact hperm.trans (List.Perm.append_left _ e2)

theorem col_records_eq (m : Matrix) (x y : Int) (da : dynamic_array)
    (h : matrix_get m x y = some da) : col_records m x y = da_records da := by
  unfold col_records; rw [h]

/-- The commit loop of one column: the records left are, as a multiset, the
records that satisfy the rule, each marked live; the other columns and the
side are untouched. -/
theorem commit_column_effect (m : Matrix) (i j : Int) (hi : in_side m.side i)
    (hnd : (column_depths m i j).Nodup) :
    (commit_column m i j).side = m.side ∧
    (∀ x1 y1, in_side m.side x1 → ¬ (x1 = i ∧ y1 = j) →
      matrix_get (commit_column m i j) x1 y1 = matrix_get m x1 y1) ∧
    (col_records (commit_column m i j) i j).Perm
      (((col_records m i j).filter survives).map revive) := by
  unfold commit_column
  cases hcol : matrix_get m i j with
  | none =>
    dsimp only
    refine ⟨rfl, fun _ _ _ _ => rfl, ?_⟩
    unfold col_records
    rw [hcol]
    exact List.Perm.refl _
  | some da =>
    dsimp only
    have hnd1 : (da_depths da).Nodup := by
      unfold column_depths at hnd
      rw [hcol] at hnd
      exact hnd
    obtain ⟨s1, f1, da1, hcol1, hperm⟩ := commit_loop i j da.used m da hi hcol (le_refl _) hnd1
    refine ⟨s1, f1, ?_⟩
    rw [col_records_eq _ _ _ da1 hcol1, col_records_eq m i j da hcol]
    have e1 : (da_records da).take da.used = da_records da :=
      List.take_of_length_le (by rw [da_records_length])
    have e2 : (da_records da).drop da.used = [] :=
      List.drop_of_length_le (by rw [da_records_length])
    rw [e1, e2, List.append_nil] at hperm
    exact hperm

end Life3d

namespace Life3d

/-! ## Commit pass: the loops over columns and rows -/

theorem CInv_congr (m0 m : Matrix) (done done1 : Int → Int → Prop) (h : CInv m0 m done)
    (heq : ∀ x y, in_side m0.side x → in_side m0.side y → (done x y ↔ done1 x y)) :
    CInv m0 m done1 := by
  refine ⟨h.1, fun x y hx hy => ⟨fun hd => ?_, fun hd => ?_⟩⟩
  · exact (h.2 x y hx hy).1 ((heq x y hx hy).mpr hd)
  · exact (h.2 x y hx hy).2 (fun hh => hd ((heq x y hx hy).mp hh))

theorem CInv_commit_column (m0 m : Matrix) (done : Int → Int → Prop) (h : CInv m0 m done)
    (i j : Int) (hi : in_side m0.side i) (hj : in_side m0.side j) (hnot : ¬ done i j)
    (hnd : (column_depths m0 i j).Nodup) :
    CInv m0 (commit_column m i j) (fun x y => done x y ∨ (x = i ∧ y = j)) := by
  obtain ⟨hs, hcols⟩ := h
  have hget : matrix_get m i j = matrix_get m0 i j := (hcols i j hi hj).2 hnot
  have hnd1 : (column_depths m i j).Nodup := by
    unfold column_depths
    rw [hget]
    exact hnd
  obtain ⟨s1, f1, hperm⟩ := commit_column_effect m i j (by rw [hs]; exact hi) hnd1
  refine ⟨by rw [s1, hs], fun x y hx hy => ⟨fun hd => ?_, fun hd => ?_⟩⟩
  · by_cases hc : x = i ∧ y = j
    · obtain ⟨rfl, rfl⟩ := hc
      have : col_records m x y = col_records m0 x y := by
        unfold col_records; rw [hget]
      rw [← this]
      exact hperm
    · have hd1 : done x y := by
        rcases hd with hd | hd
        · exact hd
        · exact absurd hd hc
      have : col_records (commit_column m i j) x y = col_records m x y := by
        unfold col_records
        rw [f1 x y (by rw [hs]; exact hx) hc]
      rw [this]
      exact (hcols x y hx hy).1 hd1
  · have hc : ¬ (x = i ∧ y = j) := fun hh => hd (Or.inr hh)
    rw [f1 x y (by rw [hs]; exact hx) hc]
    exact (hcols x y hx hy).2 (fun hh => hd (Or.inl hh))

theorem CInv_row (m0 : Matrix)
    (hnd : ∀ x y, in_side m0.side x → in_side m0.side y → (column_depths m0 x y).Nodup)
    (i : Nat) (hi : i < m0.side.toNat) (m : Matrix)
    (h : CInv m0 m (fun x _ => x < (i : Int))) (n : Nat) (hn : n ≤ m0.side.toNat) :
    CInv m0
      ((List.range n).foldl (fun m (j : Nat) => commit_column m (i : Int) (j : Int)) m)
      (fun x y => x < (i : Int) ∨ (x = (i : Int) ∧ y < (n : Int))) := by
  induction n with
  | zero =>
    apply CInv_congr m0 m _ _ h
    intro x y _ hy
    unfold in_side at hy
    constructor
    · intro hx; exact Or.inl hx
    · rintro (hx | ⟨_, hy1⟩)
      · exact hx
      · simp at hy1; omega
  | succ n ih =>
    rw [List.range_succ, List.foldl_append]
    simp only [List.foldl_cons, List.foldl_nil]
    have hstep := CInv_commit_column m0 _ _ (ih (by omega)) (i : Int) (n : Int)
      (in_side_of_lt_toNat _ _ hi) (in_side_of_lt_toNat _ _ (by omega))
      (by
        rintro (hx | ⟨_, hy⟩)
        · omega
        · omega)
      (hnd _ _ (in_side_of_lt_toNat _ _ hi) (in_side_of_lt_toNat _ _ (by omega)))
    apply CInv_congr m0 _ _ _ hstep
    intro x y _ _
    push_cast
    constructor
    · rintro ((hx | ⟨hx, hy⟩) | ⟨hx, hy⟩)
      · exact Or.inl hx
      · exact Or.inr ⟨hx, by omega⟩
      · exact Or.inr ⟨hx, by omega⟩
    · rintro (hx | ⟨hx, hy⟩)
      · exact Or.inl (Or.inl hx)
      · by_cases hyn : y = (n : Int)
        · exact Or.inr ⟨hx, hyn⟩
        · exact Or.inl (Or.inr ⟨hx, by omega⟩)

theorem CInv_rows (m0 : Matrix)
    (hnd : ∀ x y, in_side m0.side x → in_side m0.side y → (column_depths m0 x y).Nodup)
    (n : Nat) (hn : n ≤ m0.side.toNat) :
    CInv m0
      ((List.range n).foldl
        (fun m (i : Nat) =>
          (List.range m0.side.toNat).foldl
            (fun m (j : Nat) => commit_column m (i : Int) (j : Int)) m) m0)
      (fun x _ => x < (n : Int)) := by
  induction n with
  | zero =>
    refine ⟨rfl, fun x y hx _ => ⟨fun hd => ?_, fun _ => rfl⟩⟩
    unfold in_side at hx
    simp at hd
    omega
  | succ n ih =>
    rw [List.range_succ, List.foldl_append]
    simp only [List.foldl_cons, List.foldl_nil]
    have hrow := CInv_row m0 hnd n (by omega) _ (ih (by omega)) m0.side.toNat (le_refl _)
    apply CInv_congr m0 _ _ _ hrow
    intro x y _ hy
    unfold in_side at hy
    push_cast
    constructor
    · rintro (hx | ⟨hx, _⟩) <;> omega
    · intro hx
      by_cases hxn : x = (n : Int)
      · exact Or.inr ⟨hxn, by omega⟩
      · exact Or.inl (by omega)

/-- The commit pass on a grid whose columns have unique depths: every in-range
column ends with, as a multiset, its records that satisfy the rule, each marked
live. -/
theorem commit_pass_effect (m0 : Matrix)
    (hnd : ∀ x y, in_side m0.side x → in_side m0.side y → (column_depths m0 x y).Nodup) :
    (commit_pass m0 m0.side).side = m0.side ∧
    ∀ x y, in_side m0.side x → in_side m0.side y →
      (col_records (commit_pass m0 m0.side) x y).Perm
        (((col_records m0 x y).filter survives).map revive) := by
  have h := CInv_rows m0 hnd m0.side.toNat (le_refl _)
  refine ⟨h.1, fun x y hx hy => (h.2 x y hx hy).1 ?_⟩
  unfold in_side at hx
  omega

end Life3d

namespace Life3d

/-! ## Commit pass: the rule on the records of a column -/

theorem survives_iff (nd : node) :
    survives nd = true ↔
      (nd.is_dead = true ∧ (nd.num_neighbours = 2 ∨ nd.num_neighbours = 3)) ∨
      (nd.is_dead = false ∧ 2 ≤ nd.num_neighbours ∧ nd.num_neighbours ≤ 4) := by
  unfold survives
  by_cases hd : nd.is_dead = true
  · simp [hd]
  · have hd1 : nd.is_dead = false := by simpa using hd
    simp [hd1]

/-- A list that is, as a multiset, the survivors of `l0` marked live holds
exactly the dead-but-tracked records of `l0` with count 2 or 3, now live, and
the live records of `l0` with count between 2 and 4, unchanged. -/
theorem survivors_mem_iff (l l0 : List node)
    (hperm : l.Perm ((l0.filter survives).map revive)) (nd : node) :
    nd ∈ l ↔
      ∃ nd0, nd0 ∈ l0 ∧
        ((nd0.is_dead = true ∧ (nd0.num_neighbours = 2 ∨ nd0.num_neighbours = 3) ∧
            nd = { nd0 with is_dead := false }) ∨
          (nd0.is_dead = false ∧ 2 ≤ nd0.num_neighbours ∧ nd0.num_neighbours ≤ 4 ∧
            nd = nd0)) := by
  rw [hperm.mem_iff, List.mem_map]
  constructor
  · rintro ⟨nd0, hmem, rfl⟩
    rw [List.mem_filter, survives_iff] at hmem
    refine ⟨nd0, hmem.1, ?_⟩
    rcases hmem.2 with ⟨hd, h23⟩ | ⟨hd, h2, h4⟩
    · exact Or.inl ⟨hd, h23, rfl⟩
    · exact Or.inr ⟨hd, h2, h4, survives_revive_live nd0 hd⟩
  · rintro ⟨nd0, hmem, ⟨hd, h23, rfl⟩ | ⟨hd, h2, h4, rfl⟩⟩
    · exact ⟨nd0, List.mem_filter.mpr ⟨hmem, (survives_iff nd0).mpr (Or.inl ⟨hd, h23⟩)⟩, rfl⟩
    · exact ⟨nd, List.mem_filter.mpr ⟨hmem, (survives_iff nd).mpr (Or.inr ⟨hd, h2, h4⟩)⟩,
        survives_revive_live nd hd⟩

end Life3d

namespace Life3d

/-! ## Discovery pass: postcondition in terms of the dense reference -/

theorem pos_mod_eq_emod (side c : Int) (hc : in_side side c) :
    pos_mod (c + 1) side = (c + 1) % side ∧ pos_mod (c - 1) side = (c - 1) % side := by
  unfold in_side at hc
  unfold pos_mod
  constructor
  · by_cases h : c + 1 ≥ side
    · have hce : c + 1 = side := by omega
      simp [hce]
    · rw [if_neg h, if_neg (by omega), Int.emod_eq_of_lt (by omega) (by omega)]
  · rw [if_neg (by omega)]
    by_cases h : c - 1 < 0
    · have hce : c = 0 := by omega
      subst hce
      rw [if_pos h]
      have : (0 - 1 : Int) % side = (0 - 1 + side) % side := by
        rw [Int.add_emod_self]
      rw [this, Int.emod_eq_of_lt (by omega) (by omega)]
    · rw [if_neg h, Int.emod_eq_of_lt (by omega) (by omega)]

theorem visited_eq_face_neighbours (side : Int) (t : Int × Int × Int)
    (ht : in_side side t.1 ∧ in_side side t.2.1 ∧ in_side side t.2.2) :
    visited side t = face_neighbours side t := by
  unfold visited face_neighbours
  rw [(pos_mod_eq_emod side _ ht.1).1, (pos_mod_eq_emod side _ ht.1).2,
    (pos_mod_eq_emod side _ ht.2.1).1, (pos_mod_eq_emod side _ ht.2.1).2,
    (pos_mod_eq_emod side _ ht.2.2).1, (pos_mod_eq_emod side _ ht.2.2).2]

theorem col_records_eq_slots (m : Matrix) (x y : Int) :
    col_records m x y = (List.range (col_used m x y)).map (col_slot m x y) := by
  unfold col_records col_used col_slot
  cases matrix_get m x y with
  | none => rfl
  | some da => rfl

theorem mem_col_records (m : Matrix) (x y : Int) (nd : node) :
    nd ∈ col_records m x y ↔ ∃ k, k < col_used m x y ∧ col_slot m x y k = nd := by
  rw [col_records_eq_slots]
  simp

theorem column_depths_eq_map (m : Matrix) (x y : Int) :
    column_depths m x y = (col_records m x y).map (fun nd => nd.z) := by
  unfold column_depths col_records
  cases matrix_get m x y with
  | none => rfl
  | some da => rfl

theorem grid_wf_nodup (m : Matrix) (h : grid_wf m) (x y : Int) (hx : in_side m.side x)
    (hy : in_side m.side y) : (column_depths m x y).Nodup := by
  rw [column_depths_eq_slots]
  apply List.Nodup.map_on _ (List.nodup_range _)
  intro a ha b hb hab
  exact (h x y hx hy).1 a b (List.mem_range.mp ha) (List.mem_range.mp hb) hab

/-- In a well-formed grid the lookup of a cell returns the record of that depth
in the column. -/
theorem matrix_get_record_eq_some (m : Matrix) (h : grid_wf m) (x y z : Int)
    (hx : in_side m.side x) (hy : in_side m.side y) (nd : node) :
    matrix_get_record m x y z = some nd ↔ nd ∈ col_records m x y ∧ nd.z = z := by
  have hnd := grid_wf_nodup m h x y hx hy
  rw [matrix_get_record_eq_lookup]
  unfold column_depths at hnd
  unfold col_records
  cases hcol : matrix_get m x y with
  | none => simp
  | some da =>
    rw [hcol] at hnd
    exact da_lookup_eq_some da hnd z nd

theorem matrix_get_record_eq_none (m : Matrix) (x y z : Int) :
    matrix_get_record m x y z = none ↔ z ∉ column_depths m x y := by
  rw [matrix_get_record_eq_lookup]
  unfold column_depths
  cases hcol : matrix_get m x y with
  | none => simp
  | some da => exact da_lookup_eq_none da z

/-- In a well-formed grid a cell is live iff its column holds a record of its
depth that is not dead. -/
theorem is_live_iff (m : Matrix) (h : grid_wf m) (t : Int × Int × Int)
    (hx : in_side m.side t.1) (hy : in_side m.side t.2.1) :
    is_live m t = true ↔
      ∃ nd, nd ∈ col_records m t.1 t.2.1 ∧ nd.z = t.2.2 ∧ nd.is_dead = false := by
  unfold is_live
  cases hrec : matrix_get_record m t.1 t.2.1 t.2.2 with
  | none =>
    rw [matrix_get_record_eq_none, column_depths_eq_map] at hrec
    simp only [Bool.false_eq_true, false_iff, not_exists, not_and]
    intro nd hnd hz
    exact absurd (List.mem_map.mpr ⟨nd, hnd, hz⟩) hrec
  | some nd0 =>
    have h0 := (matrix_get_record_eq_some m h _ _ _ hx hy nd0).mp hrec
    simp only [Bool.not_eq_true']
    constructor
    · intro hd
      exact ⟨nd0, h0.1, h0.2, hd⟩
    · rintro ⟨nd, hnd, hz, hd⟩
      have : matrix_get_record m t.1 t.2.1 t.2.2 = some nd :=
        (matrix_get_record_eq_some m h _ _ _ hx hy nd).mpr ⟨hnd, hz⟩
      rw [hrec] at this
      rw [Option.some.inj this]
      exact hd

/-- In the state between generations a cell is live iff it is stored. -/
theorem is_live_iff_stored (m : Matrix) (h : grid_ok m) (t : Int × Int × Int)
    (hx : in_side m.side t.1) (hy : in_side m.side t.2.1) :
    is_live m t = true ↔ t.2.2 ∈ column_depths m t.1 t.2.1 := by
  rw [is_live_iff m h.1 t hx hy, mem_column_depths]
  constructor
  · rintro ⟨nd, hnd, hz, _⟩
    obtain ⟨k, hk, rfl⟩ := (mem_col_records m _ _ nd).mp hnd
    exact ⟨k, hk, hz⟩
  · rintro ⟨k, hk, hz⟩
    exact ⟨_, (mem_col_records m _ _ _).mpr ⟨k, hk, rfl⟩, hz, h.2 _ _ hx hy k hk⟩

theorem live_neighbours_eq_live_count (m : Matrix) (h : grid_ok m) (t : Int × Int × Int)
    (ht : in_side m.side t.1 ∧ in_side m.side t.2.1 ∧ in_side m.side t.2.2) :
    live_neighbours m t = live_count m (visited m.side t) := by
  unfold live_neighbours live_count
  rw [← visited_eq_face_neighbours m.side t ht, sum_ite_eq_length_filter]
  congr 2
  apply List.filter_congr
  intro u hu
  have hur := visited_in_side m.side t u ht hu
  by_cases hst : u.2.2 ∈ column_depths m u.1 u.2.1
  · rw [(is_live_iff_stored m h u hur.1 hur.2.1).mpr hst]
    simp [hst]
  · have : is_live m u = false := by
      by_contra hl
      exact hst ((is_live_iff_stored m h u hur.1 hur.2.1).mp (by simpa using hl))
    rw [this]
    simp [hst]

/-- The state after the discovery pass, slot by slot. -/
theorem discovery_pass_post (m0 : Matrix) (hok : grid_ok m0) (hside : 3 ≤ m0.side) :
    (discovery_pass m0 m0.side).side = m0.side ∧
    grid_wf (discovery_pass m0 m0.side) ∧
    ∀ x y, in_side m0.side x → in_side m0.side y →
      col_used m0 x y ≤ col_used (discovery_pass m0 m0.side) x y ∧
      (∀ k, k < col_used m0 x y →
        (col_slot (discovery_pass m0 m0.side) x y k).z = (col_slot m0 x y k).z ∧
        (col_slot (discovery_pass m0 m0.side) x y k).is_dead = false ∧
        (col_slot (discovery_pass m0 m0.side) x y k).num_neighbours =
          live_neighbours m0 (x, y, (col_slot m0 x y k).z)) ∧
      (∀ k, col_used m0 x y ≤ k → k < col_used (discovery_pass m0 m0.side) x y →
        (col_slot (discovery_pass m0 m0.side) x y k).is_dead = true ∧
        (col_slot (discovery_pass m0 m0.side) x y k).z ∉ column_depths m0 x y ∧
        1 ≤ (col_slot (discovery_pass m0 m0.side) x y k).num_neighbours ∧
        (col_slot (discovery_pass m0 m0.side) x y k).num_neighbours =
          live_neighbours m0 (x, y, (col_slot (discovery_pass m0 m0.side) x y k).z)) ∧
      (∀ z, in_side m0.side z → z ∉ column_depths (discovery_pass m0 m0.side) x y →
        live_neighbours m0 (x, y, z) = 0) := by
  obtain ⟨E, C, hinv, hE, hC⟩ := DInvP_discovery_pass m0 hok
  have hs := hinv.side_eq
  refine ⟨hs, hinv.wf, ?_⟩
  intro x y hx hy
  have hcount : ∀ z, in_side m0.side z →
      ((E.count (x, y, z) : Nat) : Int) = live_neighbours m0 (x, y, z) := by
    intro z hz
    rw [hE, visits_eq_live_count m0 hok.1 hside (x, y, z) ⟨hx, hy, hz⟩,
      live_neighbours_eq_live_count m0 hok (x, y, z) ⟨hx, hy, hz⟩]
  refine ⟨hinv.used_le x y hx hy, ?_, ?_, ?_⟩
  · intro k hk
    obtain ⟨l1, l2⟩ := hinv.live_z x y hx hy k hk
    refine ⟨l1, l2, ?_⟩
    have hzr : in_side m0.side (col_slot m0 x y k).z := (hok.1 x y hx hy).2 k hk
    have hmem : (x, y, (col_slot m0 x y k).z) ∈ all_sources m0 := by
      rw [mem_all_sources]
      exact ⟨hx, hy, (mem_column_depths m0 x y _).mpr ⟨k, hk, rfl⟩⟩
    rw [hinv.counts x y hx hy k hk _ (hC _ hmem),
      live_neighbours_eq_live_count m0 hok _ ⟨hx, hy, hzr⟩]
  · intro k hk1 hk2
    obtain ⟨d1, d2, d3⟩ := hinv.dead_new x y hx hy k hk1 hk2
    have hzr : in_side m0.side (col_slot (discovery_pass m0 m0.side) x y k).z := by
      have := (hinv.wf x y (by rw [hs]; exact hx) (by rw [hs]; exact hy)).2 k hk2
      rw [hs] at this
      exact this
    refine ⟨d1, ?_, ?_, ?_⟩
    · intro hmem
      have := DInv_slot_of_live m0 _ E C hinv x y hx hy k hk2 hmem
      omega
    · rw [d2]
      have := List.count_pos_iff.mpr d3
      omega
    · rw [d2, hcount _ hzr]
  · intro z hz hnot
    rw [← hcount z hz]
    have : (x, y, z) ∉ E := fun hmem => hnot (hinv.tracked _ hmem).2.2
    rw [List.count_eq_zero_of_not_mem this]
    rfl

end Life3d

namespace Life3d

/-! ## One generation against the dense reference -/

theorem col_inj_of_nodup (m : Matrix) (x y : Int) (h : (column_depths m x y).Nodup) (a b : Nat)
    (ha : a < col_used m x y) (hb : b < col_used m x y)
    (hab : (col_slot m x y a).z = (col_slot m x y b).z) : a = b := by
  unfold column_depths at h
  unfold col_used at ha hb
  unfold col_slot at hab
  cases hcol : matrix_get m x y with
  | none => rw [hcol] at ha; exact absurd ha (Nat.not_lt_zero a)
  | some da =>
    rw [hcol] at h ha hb hab
    exact da_depths_nodup_inj da h a b ha hb hab

theorem grid_wf_of_records (m : Matrix)
    (h : ∀ x y, in_side m.side x → in_side m.side y →
      (column_depths m x y).Nodup ∧ ∀ nd, nd ∈ col_records m x y → in_side m.side nd.z) :
    grid_wf m := by
  intro x y hx hy
  obtain ⟨h1, h2⟩ := h x y hx hy
  refine ⟨fun a b ha hb hab => col_inj_of_nodup m x y h1 a b ha hb hab, fun k hk => ?_⟩
  exact h2 _ ((mem_col_records m x y _).mpr ⟨k, hk, rfl⟩)

theorem generation_eq (m : Matrix) (hs : (discovery_pass m m.side).side = m.side) :
    generation m = commit_pass (discovery_pass m m.side) (discovery_pass m m.side).side := by
  unfold generation
  rw [hs]

/-- The records of a column after one generation, from the state after the
discovery pass. -/
theorem generation_records (m : Matrix) (hside : 3 ≤ m.side) (hok : grid_ok m) :
    (generation m).side = m.side ∧
    ∀ x y, in_side m.side x → in_side m.side y →
      (col_records (generation m) x y).Perm
        (((col_records (discovery_pass m m.side) x y).filter survives).map revive) := by
  obtain ⟨hs, hwf, _⟩ := discovery_pass_post m hok hside
  have hnd : ∀ x y, in_side (discovery_pass m m.side).side x →
      in_side (discovery_pass m m.side).side y →
      (column_depths (discovery_pass m m.side) x y).Nodup :=
    fun x y hx hy => grid_wf_nodup _ hwf x y hx hy
  obtain ⟨c1, c2⟩ := commit_pass_effect (discovery_pass m m.side) hnd
  rw [generation_eq m hs]
  refine ⟨by rw [c1, hs], fun x y hx hy => ?_⟩
  exact c2 x y (by rw [hs]; exact hx) (by rw [hs]; exact hy)

theorem mem_depths_generation (m : Matrix) (hside : 3 ≤ m.side) (hok : grid_ok m) (x y z : Int)
    (hx : in_side m.side x) (hy : in_side m.side y) :
    z ∈ column_depths (generation m) x y ↔
      ∃ k, k < col_used (discovery_pass m m.side) x y ∧
        survives (col_slot (discovery_pass m m.side) x y k) = true ∧
        (col_slot (discovery_pass m m.side) x y k).z = z := by
  obtain ⟨_, hperm⟩ := generation_records m hside hok
  rw [column_depths_eq_map, List.mem_map]
  constructor
  · rintro ⟨nd, hnd, hz⟩
    rw [(hperm x y hx hy).mem_iff, List.mem_map] at hnd
    obtain ⟨nd0, hnd0, rfl⟩ := hnd
    rw [List.mem_filter, mem_col_records] at hnd0
    obtain ⟨⟨k, hk, rfl⟩, hsv⟩ := hnd0
    exact ⟨k, hk, hsv, hz⟩
  · rintro ⟨k, hk, hsv, hz⟩
    refine ⟨revive (col_slot (discovery_pass m m.side) x y k), ?_, hz⟩
    rw [(hperm x y hx hy).mem_iff, List.mem_map]
    exact ⟨_, List.mem_filter.mpr ⟨(mem_col_records _ _ _ _).mpr ⟨k, hk, rfl⟩, hsv⟩, rfl⟩

theorem generation_stored_iff (m : Matrix) (hside : 3 ≤ m.side) (hok : grid_ok m)
    (c : Int × Int × Int) (hx : in_side m.side c.1) (hy : in_side m.side c.2.1) :
    c.2.2 ∈ column_depths (generation m) c.1 c.2.1 ↔ in_side m.side c.2.2 ∧ dense_rule m c := by
  obtain ⟨x, y, z⟩ := c
  simp only at hx hy ⊢
  obtain ⟨hs, hwf, hpost⟩ := discovery_pass_post m hok hside
  obtain ⟨hu, hlive, hdead, hnone⟩ := hpost x y hx hy
  rw [mem_depths_generation m hside hok x y z hx hy]
  have hlv : ∀ z1, is_live m (x, y, z1) = true ↔ z1 ∈ column_depths m x y :=
    fun z1 => is_live_iff_stored m hok (x, y, z1) hx hy
  constructor
  · rintro ⟨k, hk, hsv, hz⟩
    rw [survives_iff] at hsv
    by_cases hk0 : k < col_used m x y
    · obtain ⟨l1, l2, l3⟩ := hlive k hk0
      have hz0 : (col_slot m x y k).z = z := by rw [← l1, hz]
      have hzr : in_side m.side z := by rw [← hz0]; exact (hok.1 x y hx hy).2 k hk0
      refine ⟨hzr, Or.inl ?_⟩
      rw [hz0] at l3
      rcases hsv with ⟨hd, _⟩ | ⟨_, h2, h4⟩
      · rw [l2] at hd; exact absurd hd (by simp)
      · rw [l3] at h2 h4
        exact ⟨(hlv z).mpr ((mem_column_depths m x y z).mpr ⟨k, hk0, hz0⟩), h2, h4⟩
    · obtain ⟨d1, d2, _, d4⟩ := hdead k (by omega) hk
      rw [hz] at d2 d4
      have hzr : in_side m.side z := by
        have := (hwf x y (by rw [hs]; exact hx) (by rw [hs]; exact hy)).2 k hk
        rw [hs, hz] at this
        exact this
      refine ⟨hzr, Or.inr ⟨?_, ?_⟩⟩
      · by_contra hl
        exact d2 ((hlv z).mp (by simpa using hl))
      · rcases hsv with ⟨_, h23⟩ | ⟨hd, _⟩
        · rw [d4] at h23; exact h23
        · rw [d1] at hd; exact absurd hd (by simp)
  · rintro ⟨hzr, hrule⟩
    rcases hrule with ⟨hl, h2, h4⟩ | ⟨hl, h23⟩
    · obtain ⟨k, hk0, hz0⟩ := (mem_column_depths m x y z).mp ((hlv z).mp hl)
      obtain ⟨l1, l2, l3⟩ := hlive k hk0
      refine ⟨k, by omega, ?_, by rw [l1, hz0]⟩
      rw [survives_iff]
      right
      rw [hz0] at l3
      rw [l3]
      exact ⟨l2, h2, h4⟩
    · have hmem : z ∈ column_depths (discovery_pass m m.side) x y := by
        by_contra hnot
        have := hnone z hzr hnot
        omega
      obtain ⟨k, hk, hz⟩ := (mem_column_depths _ x y z).mp hmem
      have hk0 : ¬ k < col_used m x y := by
        intro hlt
        obtain ⟨l1, _, _⟩ := hlive k hlt
        have : z ∈ column_depths m x y :=
          (mem_column_depths m x y z).mpr ⟨k, hlt, by rw [← l1, hz]⟩
        rw [(hlv z).mpr this] at hl
        exact absurd hl (by simp)
      obtain ⟨d1, _, _, d4⟩ := hdead k (by omega) hk
      refine ⟨k, hk, ?_, hz⟩
      rw [survives_iff]
      left
      rw [hz] at d4
      rw [d4]
      exact ⟨d1, h23⟩

theorem generation_grid_ok (m : Matrix) (hside : 3 ≤ m.side) (hok : grid_ok m) :
    grid_ok (generation m) := by
  obtain ⟨hs, hwf, _⟩ := discovery_pass_post m hok hside
  obtain ⟨hgs, hperm⟩ := generation_records m hside hok
  have hrec : ∀ x y, in_side m.side x → in_side m.side y → ∀ nd,
      nd ∈ col_records (generation m) x y →
        nd.is_dead = false ∧ in_side m.side nd.z := by
    intro x y hx hy nd hnd
    rw [(hperm x y hx hy).mem_iff, List.mem_map] at hnd
    obtain ⟨nd0, hnd0, rfl⟩ := hnd
    rw [List.mem_filter, mem_col_records] at hnd0
    obtain ⟨⟨k, hk, rfl⟩, _⟩ := hnd0
    refine ⟨rfl, ?_⟩
    have := (hwf x y (by rw [hs]; exact hx) (by rw [hs]; exact hy)).2 k hk
    rw [hs] at this
    exact this
  constructor
  · apply grid_wf_of_records
    intro x y hx hy
    rw [hgs] at hx hy
    refine ⟨?_, fun nd hnd => by rw [hgs]; exact (hrec x y hx hy nd hnd).2⟩
    rw [column_depths_eq_map]
    have hp := (hperm x y hx hy).map (fun nd : node => nd.z)
    rw [hp.nodup_iff, List.map_map]
    have hsub : (((col_records (discovery_pass m m.side) x y).filter survives).map
        ((fun nd : node => nd.z) ∘ revive)).Sublist
        ((col_records (discovery_pass m m.side) x y).map (fun nd => nd.z)) :=
      (List.filter_sublist _).map _
    apply List.Nodup.sublist hsub
    rw [← column_depths_eq_map]
    exact grid_wf_nodup _ hwf x y (by rw [hs]; exact hx) (by rw [hs]; exact hy)
  · intro x y hx hy k hk
    rw [hgs] at hx hy
    exact (hrec x y hx hy _ ((mem_col_records _ x y _).mpr ⟨k, hk, rfl⟩)).1

end Life3d

namespace Life3d

/-! ## The loaded grid is in the state between generations -/

theorem col_records_insert (m : Matrix) (x y z : Int) (d : Bool) (n : Int) (x1 y1 : Int)
    (hx : 0 ≤ x ∧ x < m.side) (hx1 : 0 ≤ x1 ∧ x1 < m.side) :
    col_records (matrix_insert m x y z d n) x1 y1 =
      if x1 = x ∧ y1 = y then col_records m x y ++ [⟨z, n, d⟩] else col_records m x1 y1 := by
  by_cases h : x1 = x ∧ y1 = y
  · obtain ⟨rfl, rfl⟩ := h
    simp only [and_self, if_true]
    unfold col_records
    rw [matrix_get_insert_same]
    cases hcol : matrix_get m x1 y1 with
    | none => 
      dsimp only [Option.getD]
      rw [da_records_insert]
      rfl
    | some da =>
      dsimp only [Option.getD]
      rw [da_records_insert]
  · rw [if_neg h]
    unfold col_records
    rw [matrix_get_insert_other m x y z d n x1 y1 hx hx1 h]

theorem col_records_foldl_insert (cells : List (Int × Int × Int)) (m : Matrix) (x y : Int)
    (hx : 0 ≤ x ∧ x < m.side)
    (hr : ∀ c ∈ cells, 0 ≤ c.1 ∧ c.1 < m.side) :
    col_records (cells.foldl (fun m c => matrix_insert m c.1 c.2.1 c.2.2 false (-1)) m) x y =
      col_records m x y ++
        (cells.filter (fun c => decide (c.1 = x ∧ c.2.1 = y))).map
          (fun c => (⟨c.2.2, -1, false⟩ : node)) := by
  induction cells generalizing m with
  | nil => simp
  | cons c cells ih =>
    rw [List.foldl_cons, ih _ (by rw [matrix_insert_side]; exact hx)
      (by
        intro c1 hc1
        rw [matrix_insert_side]
        exact hr c1 (List.mem_cons_of_mem _ hc1))]
    rw [col_records_insert m c.1 c.2.1 c.2.2 false (-1) x y (hr c (List.mem_cons_self _ _)) hx]
    by_cases hc : x = c.1 ∧ y = c.2.1
    · obtain ⟨rfl, rfl⟩ := hc
      simp
    · rw [if_neg hc]
      have : ¬ (c.1 = x ∧ c.2.1 = y) := fun h => hc ⟨h.1.symm, h.2.symm⟩
      simp [List.filter_cons, this]

theorem col_records_load (side : Int) (cells : List (Int × Int × Int)) (x y : Int)
    (hx : 0 ≤ x ∧ x < side) (hr : ∀ c ∈ cells, 0 ≤ c.1 ∧ c.1 < side) :
    col_records (load side cells) x y =
      (cells.filter (fun c => decide (c.1 = x ∧ c.2.1 = y))).map
        (fun c => (⟨c.2.2, -1, false⟩ : node)) := by
  unfold load
  rw [col_records_foldl_insert cells (make_matrix side) x y hx hr]
  rfl

theorem load_side (side : Int) (cells : List (Int × Int × Int)) :
    (load side cells).side = side := foldl_insert_side cells (make_matrix side)

theorem column_depths_load_nodup (side : Int) (cells : List (Int × Int × Int))
    (hnd : cells.Nodup) (hr : ∀ c ∈ cells, 0 ≤ c.1 ∧ c.1 < side) (x y : Int)
    (hx : 0 ≤ x ∧ x < side) : (column_depths (load side cells) x y).Nodup := by
  rw [column_depths_load side cells x y hx hr]
  apply List.Nodup.map_on _ (hnd.filter _)
  intro a ha b hb hab
  simp only [List.mem_filter, decide_eq_true_eq] at ha hb
  obtain ⟨a1, a2, a3⟩ := a
  obtain ⟨b1, b2, b3⟩ := b
  simp only at ha hb hab
  rw [ha.2.1, ha.2.2, hb.2.1, hb.2.2, hab]

/-- Loading pairwise distinct in-range cells gives a grid in the state between
generations. -/
theorem grid_ok_load (side : Int) (cells : List (Int × Int × Int)) (hnd : cells.Nodup)
    (hr : ∀ c ∈ cells, in_side side c.1 ∧ in_side side c.2.1 ∧ in_side side c.2.2) :
    grid_ok (load side cells) := by
  have hr1 : ∀ c ∈ cells, 0 ≤ c.1 ∧ c.1 < side := fun c hc => (hr c hc).1
  have hrec : ∀ x y, in_side side x → ∀ nd, nd ∈ col_records (load side cells) x y →
      nd.is_dead = false ∧ in_side side nd.z := by
    intro x y hx nd hmem
    rw [col_records_load side cells x y hx hr1, List.mem_map] at hmem
    obtain ⟨c, hc, rfl⟩ := hmem
    exact ⟨rfl, (hr c (List.mem_filter.mp hc).1).2.2⟩
  constructor
  · apply grid_wf_of_records
    intro x y hx _
    rw [load_side] at hx ⊢
    exact ⟨column_depths_load_nodup side cells hnd hr1 x y hx,
      fun nd hmem => (hrec x y hx nd hmem).2⟩
  · intro x y hx _ k hk
    rw [load_side] at hx
    exact (hrec x y hx _ ((mem_col_records _ x y _).mpr ⟨k, hk, rfl⟩)).1

/-- C3: for a grid of side at least 3 whose records are all live, in range and
of unique depth per column, the cells stored after one generation (discovery
pass, then commit pass) are exactly the cells that satisfy the dense reference
rule: live with 2 to 4 live face-neighbours, or not live with 2 or 3; the new
grid is again all live, in range and of unique depths.  In particular a live
cell with 3 live neighbours stays, one with 1 or 5 goes, a dead cell with 2 is
born and one with 4 is not. -/
theorem C3_generation_matches_dense (m : Matrix) (hside : 3 ≤ m.side) (hok : grid_ok m) :
    (∀ c : Int × Int × Int, in_side m.side c.1 → in_side m.side c.2.1 →
      (c.2.2 ∈ column_depths (generation m) c.1 c.2.1 ↔
        in_side m.side c.2.2 ∧ dense_rule m c)) ∧
    grid_ok (generation m) ∧
    (generation m).side = m.side ∧
    (∀ c : Int × Int × Int, in_side m.side c.1 → in_side m.side c.2.1 → in_side m.side c.2.2 →
      (is_live m c = true → live_neighbours m c = 3 →
        c.2.2 ∈ column_depths (generation m) c.1 c.2.1) ∧
      (is_live m c = true → live_neighbours m c = 1 ∨ live_neighbours m c = 5 →
        c.2.2 ∉ column_depths (generation m) c.1 c.2.1) ∧
      (is_live m c = false → live_neighbours m c = 2 →
        c.2.2 ∈ column_depths (generation m) c.1 c.2.1) ∧
      (is_live m c = false → live_neighbours m c = 4 →
        c.2.2 ∉ column_depths (generation m) c.1 c.2.1)) := by
  refine ⟨fun c hx hy => generation_stored_iff m hside hok c hx hy,
    generation_grid_ok m hside hok, (generation_records m hside hok).1, ?_⟩
  intro c hx hy hz
  have hiff := generation_stored_iff m hside hok c hx hy
  refine ⟨?_, ?_, ?_, ?_⟩
  · intro hl hn
    exact hiff.mpr ⟨hz, Or.inl ⟨hl, by omega, by omega⟩⟩
  · intro hl hn hmem
    rcases (hiff.mp hmem).2 with ⟨_, h2, h4⟩ | ⟨hl1, _⟩
    · omega
    · rw [hl] at hl1; exact absurd hl1 (by simp)
  · intro hl hn
    exact hiff.mpr ⟨hz, Or.inr ⟨hl, Or.inl hn⟩⟩
  · intro hl hn hmem
    rcases (hiff.mp hmem).2 with ⟨hl1, _⟩ | ⟨_, h23⟩
    · rw [hl] at hl1; exact absurd hl1 (by simp)
    · omega

theorem C3_generation_matches_dense_witness :
    (3 : Int) ≤ (load 3 [(0, 0, 0), (0, 0, 1), (0, 1, 0)]).side ∧
    matrix_print_live (generation (load 3 [(0, 0, 0), (0, 0, 1), (0, 1, 0)])) =
      [(0, 0, 0), (0, 0, 2), (0, 1, 1), (0, 2, 0)] ∧
    (∀ c : Int × Int × Int,
      in_side (load 3 [(0, 0, 0), (0, 0, 1), (0, 1, 0)]).side c.1 →
      in_side (load 3 [(0, 0, 0), (0, 0, 1), (0, 1, 0)]).side c.2.1 →
      (c.2.2 ∈ column_depths (generation (load 3 [(0, 0, 0), (0, 0, 1), (0, 1, 0)])) c.1 c.2.1 ↔
        in_side (load 3 [(0, 0, 0), (0, 0, 1), (0, 1, 0)]).side c.2.2 ∧
          dense_rule (load 3 [(0, 0, 0), (0, 0, 1), (0, 1, 0)]) c)) :=
  ⟨by decide, by decide!,
    (C3_generation_matches_dense (load 3 [(0, 0, 0), (0, 0, 1), (0, 1, 0)]) (by decide)
      (grid_ok_load 3 [(0, 0, 0), (0, 0, 1), (0, 1, 0)] (by decide)
        (by
          intro c hc
          simp only [List.mem_cons, List.mem_singleton, List.mem_nil_iff, or_false] at hc
          unfold in_side
          rcases hc with rfl | rfl | rfl <;> decide))).1⟩

end Life3d

namespace Life3d

/-! ## Discovery pass: the sources it processes -/

theorem foldl_fst {σ τ ι : Type} (f : σ → ι → σ) (h : σ × τ → ι → σ × τ)
    (hfst : ∀ st k, (h st k).1 = f st.1 k) (l : List ι) (st : σ × τ) :
    (l.foldl h st).1 = l.foldl f st.1 := by
  induction l generalizing st with
  | nil => rfl
  | cons a l ih => rw [List.foldl_cons, List.foldl_cons, ih, hfst]

theorem discover_column_log_fst (st : Matrix × List (Int × Int × Int)) (SIZE i j : Int) :
    (discover_column_log st SIZE i j).1 = discover_column st.1 SIZE i j := by
  unfold discover_column_log discover_column
  cases matrix_get st.1 i j with
  | none => rfl
  | some da =>
    dsimp only
    apply foldl_fst
    intro st1 k
    split_ifs <;> rfl

theorem discovery_pass_log_fst (m : Matrix) (SIZE : Int) :
    (discovery_pass_log m SIZE).1 = discovery_pass m SIZE := by
  unfold discovery_pass_log discovery_pass
  apply foldl_fst
  intro st i
  apply foldl_fst
  intro st1 j
  exact discover_column_log_fst st1 SIZE _ _

theorem DInvP_discover_column_log (m0 : Matrix) (st : Matrix × List (Int × Int × Int))
    (h : DInvP m0 st.1 st.2) (i j : Int) (hi : in_side m0.side i) (hj : in_side m0.side j) :
    DInvP m0 (discover_column_log st m0.side i j).1 (discover_column_log st m0.side i j).2 ∧
    (discover_column_log st m0.side i j).2 = st.2 ++ col_sources m0 i j := by
  have hu0 : col_used m0 i j ≤ col_used st.1 i j := by
    obtain ⟨E, C, hinv, _, _⟩ := h
    exact hinv.used_le i j hi hj
  unfold discover_column_log
  cases hcol : matrix_get st.1 i j with
  | none =>
    dsimp only
    have : col_used st.1 i j = 0 := by unfold col_used; rw [hcol]
    have h0 : col_sources m0 i j = [] := by
      apply List.eq_nil_of_length_eq_zero
      rw [col_sources_length]; omega
    rw [h0, List.append_nil]
    exact ⟨h, rfl⟩
  | some da =>
    dsimp only
    have hlim : da.used = col_used st.1 i j := by unfold col_used; rw [hcol]
    have key : ∀ n, n ≤ da.used →
        DInvP m0
          ((List.range n).foldl
            (fun (st : Matrix × List (Int × Int × Int)) k =>
              if (ptr_read st.1 { col := i + j * st.1.side, slot := k }).is_dead = true then st
              else
                (process_alive st.1 m0.side i j k,
                  st.2 ++ [(i, j, (ptr_read st.1 { col := i + j * st.1.side, slot := k }).z)]))
            st).1
          (st.2 ++ (col_sources m0 i j).take n) ∧
        ((List.range n).foldl
            (fun (st : Matrix × List (Int × Int × Int)) k =>
              if (ptr_read st.1 { col := i + j * st.1.side, slot := k }).is_dead = true then st
              else
                (process_alive st.1 m0.side i j k,
                  st.2 ++ [(i, j, (ptr_read st.1 { col := i + j * st.1.side, slot := k }).z)]))
            st).2 = st.2 ++ (col_sources m0 i j).take n ∧
        da.used ≤ col_used
          ((List.range n).foldl
            (fun (st : Matrix × List (Int × Int × Int)) k =>
              if (ptr_read st.1 { col := i + j * st.1.side, slot := k }).is_dead = true then st
              else
                (process_alive st.1 m0.side i j k,
                  st.2 ++ [(i, j, (ptr_read st.1 { col := i + j * st.1.side, slot := k }).z)]))
            st).1 i j := by
      intro n
      induction n with
      | zero =>
        intro _
        simp only [List.range_zero, List.foldl_nil, List.take_zero, List.append_nil]
        exact ⟨h, trivial, by omega⟩
      | succ n ih =>
        intro hn
        obtain ⟨ihP, ihL, ihU⟩ := ih (by omega)
        rw [List.range_succ, List.foldl_append]
        simp only [List.foldl_cons, List.foldl_nil]
        generalize (List.range n).foldl
            (fun (st : Matrix × List (Int × Int × Int)) k =>
              if (ptr_read st.1 { col := i + j * st.1.side, slot := k }).is_dead = true then st
              else
                (process_alive st.1 m0.side i j k,
                  st.2 ++ [(i, j, (ptr_read st.1 { col := i + j * st.1.side, slot := k }).z)]))
            st = sn at ihP ihL ihU ⊢
        rw [ptr_read_eq_col_slot]
        obtain ⟨E, C, hinv, hE, hC⟩ := ihP
        have hs := hinv.side_eq
        by_cases hn0 : n < col_used m0 i j
        · obtain ⟨hz, hlive⟩ := hinv.live_z i j hi hj n hn0
          rw [if_neg (by rw [hlive]; simp)]
          dsimp only
          rw [col_sources_take_succ m0 i j n hn0, ← List.append_assoc, hz, ihL]
          refine ⟨DInvP_process_alive m0 sn.1 _ ⟨E, C, hinv, hE, hC⟩ i j n hi hj hn0, rfl, ?_⟩
          have := col_used_process_alive_mono sn.1 i j n i j (by rw [hs]; exact hi)
            (by rw [hs]; exact hj) (by rw [hs]; exact hi)
          rw [hs] at this
          omega
        · have hdead := (hinv.dead_new i j hi hj n (by omega) (by omega)).1
          rw [if_pos hdead]
          have e1 : (col_sources m0 i j).take (n + 1) = col_sources m0 i j :=
            List.take_of_length_le (by rw [col_sources_length]; omega)
          have e2 : (col_sources m0 i j).take n = col_sources m0 i j :=
            List.take_of_length_le (by rw [col_sources_length]; omega)
          rw [e1]
          rw [e2] at hE hC ihL
          exact ⟨⟨E, C, hinv, hE, hC⟩, ihL, ihU⟩
    obtain ⟨k1, k2, _⟩ := key da.used (le_refl _)
    rw [List.take_of_length_le (by rw [col_sources_length]; omega)] at k1 k2
    rw [k2]
    exact ⟨k1, rfl⟩

theorem foldl_range_log (m0 : Matrix)
    (f : Matrix × List (Int × Int × Int) → Nat → Matrix × List (Int × Int × Int))
    (g : Nat → List (Int × Int × Int)) (N : Nat)
    (hstep : ∀ st n, n < N → DInvP m0 st.1 st.2 →
      DInvP m0 (f st n).1 (f st n).2 ∧ (f st n).2 = st.2 ++ g n)
    (st : Matrix × List (Int × Int × Int)) (h : DInvP m0 st.1 st.2) :
    DInvP m0 ((List.range N).foldl f st).1 ((List.range N).foldl f st).2 ∧
    ((List.range N).foldl f st).2 = st.2 ++ (List.range N).flatMap g := by
  have key : ∀ n, n ≤ N →
      DInvP m0 ((List.range n).foldl f st).1 ((List.range n).foldl f st).2 ∧
      ((List.range n).foldl f st).2 = st.2 ++ (List.range n).flatMap g := by
    intro n
    induction n with
    | zero => intro _; exact ⟨h, by simp⟩
    | succ n ih =>
      intro hn
      obtain ⟨i1, i2⟩ := ih (by omega)
      rw [List.range_succ, List.foldl_append, List.flatMap_append, ← List.append_assoc]
      simp only [List.foldl_cons, List.foldl_nil, List.flatMap_singleton]
      obtain ⟨s1, s2⟩ := hstep _ n (by omega) i1
      exact ⟨s1, by rw [s2, i2]⟩
  exact key N (le_refl _)

/-- The log of the discovery pass on a grid in the state between generations is
the list of its records, in loop order. -/
theorem discovery_pass_log_snd (m0 : Matrix) (h : grid_ok m0) :
    (discovery_pass_log m0 m0.side).2 = all_sources m0 := by
  have := foldl_range_log m0
    (fun st (i : Nat) =>
      (List.range m0.side.toNat).foldl
        (fun st (j : Nat) => discover_column_log st m0.side (i : Int) (j : Int)) st)
    (fun i => (List.range m0.side.toNat).flatMap fun j => col_sources m0 (i : Int) (j : Int))
    m0.side.toNat
    (by
      intro st i hi hP
      exact foldl_range_log m0
        (fun st (j : Nat) => discover_column_log st m0.side (i : Int) (j : Int))
        (fun j => col_sources m0 (i : Int) (j : Int)) m0.side.toNat
        (fun st1 j hj hP1 => DInvP_discover_column_log m0 st1 hP1 i j
          (in_side_of_lt_toNat _ _ hi) (in_side_of_lt_toNat _ _ hj))
        st hP)
    (m0, []) (DInvP_init m0 h)
  simpa [discovery_pass_log, all_sources] using this.2

end Life3d

namespace Life3d

/-! ## Discovery pass: claim -/

/-- C18: for a grid of side at least 3 whose records are all live, in range and
of unique depth per column, after the discovery pass (a) the live records are
exactly the cells that were live, each holding the number of its live
face-neighbours, (b) the dead-but-tracked records are exactly the cells that
were not live and have at least one live face-neighbour, each holding that
number, (c) depths are unique in every column, and (d) the cells processed as
sources are the cells that were live, each exactly once. -/
theorem C18_discovery_postcondition (m : Matrix) (hside : 3 ≤ m.side) (hok : grid_ok m) :
    (∀ x y, in_side m.side x → in_side m.side y →
      ∀ nd, nd ∈ col_records (discovery_pass m m.side) x y → nd.is_dead = false →
        is_live m (x, y, nd.z) = true ∧ nd.num_neighbours = live_neighbours m (x, y, nd.z)) ∧
    (∀ x y z, in_side m.side x → in_side m.side y → is_live m (x, y, z) = true →
      ∃ nd, nd ∈ col_records (discovery_pass m m.side) x y ∧ nd.z = z ∧ nd.is_dead = false) ∧
    (∀ x y, in_side m.side x → in_side m.side y →
      ∀ nd, nd ∈ col_records (discovery_pass m m.side) x y → nd.is_dead = true →
        in_side m.side nd.z ∧ is_live m (x, y, nd.z) = false ∧
        1 ≤ live_neighbours m (x, y, nd.z) ∧
        nd.num_neighbours = live_neighbours m (x, y, nd.z)) ∧
    (∀ x y z, in_side m.side x → in_side m.side y → in_side m.side z →
      is_live m (x, y, z) = false → 1 ≤ live_neighbours m (x, y, z) →
      ∃ nd, nd ∈ col_records (discovery_pass m m.side) x y ∧ nd.z = z ∧ nd.is_dead = true) ∧
    (∀ x y, in_side m.side x → in_side m.side y →
      (column_depths (discovery_pass m m.side) x y).Nodup) ∧
    (discovery_pass_log m m.side).1 = discovery_pass m m.side ∧
    (discovery_pass_log m m.side).2.Nodup ∧
    (∀ c : Int × Int × Int, c ∈ (discovery_pass_log m m.side).2 ↔
      in_side m.side c.1 ∧ in_side m.side c.2.1 ∧ is_live m c = true) := by
  obtain ⟨hs, hwf, hpost⟩ := discovery_pass_post m hok hside
  have hlv : ∀ x y z, in_side m.side x → in_side m.side y →
      (is_live m (x, y, z) = true ↔ z ∈ column_depths m x y) :=
    fun x y z hx hy => is_live_iff_stored m hok (x, y, z) hx hy
  refine ⟨?_, ?_, ?_, ?_, ?_, discovery_pass_log_fst m m.side, ?_, ?_⟩
  · intro x y hx hy nd hnd hlive
    obtain ⟨hu, hl, hd, _⟩ := hpost x y hx hy
    obtain ⟨k, hk, rfl⟩ := (mem_col_records _ x y nd).mp hnd
    have hk0 : k < col_used m x y := by
      by_contra hge
      have := (hd k (by omega) hk).1
      rw [hlive] at this
      exact absurd this (by simp)
    obtain ⟨l1, _, l3⟩ := hl k hk0
    rw [l1]
    exact ⟨(hlv x y _ hx hy).mpr ((mem_column_depths m x y _).mpr ⟨k, hk0, rfl⟩), l3⟩
  · intro x y z hx hy hlive
    obtain ⟨hu, hl, _, _⟩ := hpost x y hx hy
    obtain ⟨k, hk0, hz⟩ := (mem_column_depths m x y z).mp ((hlv x y z hx hy).mp hlive)
    obtain ⟨l1, l2, _⟩ := hl k hk0
    exact ⟨_, (mem_col_records _ x y _).mpr ⟨k, by omega, rfl⟩, by rw [l1, hz], l2⟩
  · intro x y hx hy nd hnd hdead
    obtain ⟨hu, hl, hd, _⟩ := hpost x y hx hy
    obtain ⟨k, hk, rfl⟩ := (mem_col_records _ x y nd).mp hnd
    have hk0 : ¬ k < col_used m x y := by
      intro hlt
      have := (hl k hlt).2.1
      rw [hdead] at this
      exact absurd this (by simp)
    obtain ⟨_, d2, d3, d4⟩ := hd k (by omega) hk
    have hzr : in_side m.side (col_slot (discovery_pass m m.side) x y k).z := by
      have := (hwf x y (by rw [hs]; exact hx) (by rw [hs]; exact hy)).2 k hk
      rw [hs] at this
      exact this
    refine ⟨hzr, ?_, by rw [← d4]; exact d3, d4⟩
    by_contra hl1
    exact d2 ((hlv x y _ hx hy).mp (by simpa using hl1))
  · intro x y z hx hy hz hnl hn
    obtain ⟨hu, hl, hd, hnone⟩ := hpost x y hx hy
    have hmem : z ∈ column_depths (discovery_pass m m.side) x y := by
      by_contra hnot
      have := hnone z hz hnot
      omega
    obtain ⟨k, hk, hkz⟩ := (mem_column_depths _ x y z).mp hmem
    have hk0 : ¬ k < col_used m x y := by
      intro hlt
      have hin : z ∈ column_depths m x y :=
        (mem_column_depths m x y z).mpr ⟨k, hlt, by rw [← (hl k hlt).1, hkz]⟩
      rw [(hlv x y z hx hy).mpr hin] at hnl
      exact absurd hnl (by simp)
    exact ⟨_, (mem_col_records _ x y _).mpr ⟨k, hk, rfl⟩, hkz, (hd k (by omega) hk).1⟩
  · intro x y hx hy
    exact grid_wf_nodup _ hwf x y (by rw [hs]; exact hx) (by rw [hs]; exact hy)
  · rw [discovery_pass_log_snd m hok]
    exact all_sources_nodup m hok.1
  · intro c
    rw [discovery_pass_log_snd m hok, mem_all_sources]
    constructor
    · rintro ⟨hx, hy, hz⟩
      exact ⟨hx, hy, (is_live_iff_stored m hok c hx hy).mpr hz⟩
    · rintro ⟨hx, hy, hl⟩
      exact ⟨hx, hy, (is_live_iff_stored m hok c hx hy).mp hl⟩

theorem C18_discovery_postcondition_witness :
    (3 : Int) ≤ (load 3 [(0, 0, 0), (0, 0, 1), (0, 1, 0)]).side ∧
    col_records (discovery_pass (load 3 [(0, 0, 0), (0, 0, 1), (0, 1, 0)]) 3) 0 0 =
      [⟨0, 2, false⟩, ⟨1, 1, false⟩, ⟨2, 2, true⟩] ∧
    (discovery_pass_log (load 3 [(0, 0, 0), (0, 0, 1), (0, 1, 0)]) 3).2 =
      [(0, 0, 0), (0, 0, 1), (0, 1, 0)] ∧
    (∀ x y,
      in_side (load 3 [(0, 0, 0), (0, 0, 1), (0, 1, 0)]).side x →
      in_side (load 3 [(0, 0, 0), (0, 0, 1), (0, 1, 0)]).side y →
      (column_depths (discovery_pass (load 3 [(0, 0, 0), (0, 0, 1), (0, 1, 0)])
        (load 3 [(0, 0, 0), (0, 0, 1), (0, 1, 0)]).side) x y).Nodup) :=
  ⟨by decide, by decide!, by decide!,
    (C18_discovery_postcondition (load 3 [(0, 0, 0), (0, 0, 1), (0, 1, 0)]) (by decide)
      (grid_ok_load 3 [(0, 0, 0), (0, 0, 1), (0, 1, 0)] (by decide)
        (by
          intro c hc
          simp only [List.mem_cons, List.mem_singleton, List.mem_nil_iff, or_false] at hc
          unfold in_side
          rcases hc with rfl | rfl | rfl <;> decide))).2.2.2.2.1⟩

end Life3d

namespace Life3d

/-! ## Unique depths through a whole generation -/

theorem column_depths_ptr_write_count (m : Matrix) (p : node_ptr) (n1 : Int) (x y : Int) :
    column_depths (ptr_write m p { ptr_read m p with num_neighbours := n1 }) x y =
      column_depths m x y := by
  unfold column_depths matrix_get
  rw [ptr_write_side]
  unfold ptr_write ptr_read
  cases hcol : m.data p.col with
  | none => rfl
  | some da =>
    dsimp only
    by_cases hidx : x + y * m.side = p.col
    · rw [hidx, Function.update_same, hcol]
      dsimp only
      unfold da_depths da_records
      dsimp only
      rw [List.map_map, List.map_map]
      apply List.map_congr_left
      intro k _
      simp only [Function.comp]
      by_cases hk : k = p.slot
      · rw [hk, Function.update_same]
      · rw [Function.update_noteq hk]
    · rw [Function.update_noteq hidx]

theorem cols_nodup_visit (m : Matrix) (ptr : node_ptr) (x y z : Int) (hx : in_side m.side x)
    (h : cols_nodup m) : cols_nodup (visit_neighbour m ptr x y z) := by
  intro x1 y1 hx1 hy1
  rw [visit_neighbour_side] at hx1 hy1
  unfold visit_neighbour
  cases hget : matrix_get_ele m x y z with
  | none =>
    dsimp only
    rw [column_depths_insert m x y z true 1 x1 y1 hx hx1]
    split_ifs with hc
    · obtain ⟨rfl, rfl⟩ := hc
      have hnot := (matrix_get_ele_eq_none m x1 y1 z).mp hget
      exact List.Nodup.append (h x1 y1 hx1 hy1) (List.nodup_singleton _) (by simpa using hnot)
    · exact h x1 y1 hx1 hy1
  | some p =>
    dsimp only
    split_ifs
    · rw [column_depths_ptr_write_count]; exact h x1 y1 hx1 hy1
    · rw [column_depths_ptr_write_count]; exact h x1 y1 hx1 hy1

theorem cols_nodup_process_alive (m : Matrix) (i j : Int) (k : Nat) (hi : in_side m.side i)
    (hj : in_side m.side j) (h : cols_nodup m) : cols_nodup (process_alive m m.side i j k) := by
  unfold process_alive
  dsimp only
  have step : ∀ (a : Matrix) (ptr : node_ptr) (x y z : Int), a.side = m.side →
      in_side m.side x → cols_nodup a →
      (visit_neighbour a ptr x y z).side = m.side ∧ cols_nodup (visit_neighbour a ptr x y z) := by
    intro a ptr x y z ha hx hn
    exact ⟨by rw [visit_neighbour_side, ha], cols_nodup_visit a ptr x y z (by rw [ha]; exact hx) hn⟩
  have s0 : (ptr_write m ⟨i + j * m.side, k⟩
      { ptr_read m ⟨i + j * m.side, k⟩ with num_neighbours := 0 }).side = m.side ∧
      cols_nodup (ptr_write m ⟨i + j * m.side, k⟩
        { ptr_read m ⟨i + j * m.side, k⟩ with num_neighbours := 0 }) := by
    refine ⟨ptr_write_side _ _ _, ?_⟩
    intro x1 y1 hx1 hy1
    rw [ptr_write_side] at hx1 hy1
    rw [column_depths_ptr_write_count]
    exact h x1 y1 hx1 hy1
  have s1 := step _ ⟨i + j * m.side, k⟩ i j
    (pos_mod ((ptr_read m ⟨i + j * m.side, k⟩).z + 1) m.side) s0.1 hi s0.2
  have s2 := step _ ⟨i + j * m.side, k⟩ i j
    (pos_mod ((ptr_read m ⟨i + j * m.side, k⟩).z - 1) m.side) s1.1 hi s1.2
  have s3 := step _ ⟨i + j * m.side, k⟩ (pos_mod (i + 1) m.side) j
    (ptr_read m ⟨i + j * m.side, k⟩).z s2.1 (pos_mod_in_side _ _ hi).1 s2.2
  have s4 := step _ ⟨i + j * m.side, k⟩ (pos_mod (i - 1) m.side) j
    (ptr_read m ⟨i + j * m.side, k⟩).z s3.1 (pos_mod_in_side _ _ hi).2 s3.2
  have s5 := step _ ⟨i + j * m.side, k⟩ i (pos_mod (j + 1) m.side)
    (ptr_read m ⟨i + j * m.side, k⟩).z s4.1 hi s4.2
  have s6 := step _ ⟨i + j * m.side, k⟩ i (pos_mod (j - 1) m.side)
    (ptr_read m ⟨i + j * m.side, k⟩).z s5.1 hi s5.2
  have _ := hj
  exact s6.2

theorem foldl_preserves {ι : Type} (Q : Matrix → Prop) (f : Matrix → ι → Matrix) (l : List ι)
    (hstep : ∀ m a, a ∈ l → Q m → Q (f m a)) (m : Matrix) (h : Q m) : Q (l.foldl f m) := by
  induction l generalizing m with
  | nil => exact h
  | cons a l ih =>
    rw [List.foldl_cons]
    exact ih (fun m1 b hb hq => hstep m1 b (List.mem_cons_of_mem _ hb) hq) _
      (hstep m a (List.mem_cons_self _ _) h)

theorem discover_column_keeps (s : Int) (m : Matrix) (i j : Int) (hi : in_side s i)
    (hj : in_side s j) (h : m.side = s ∧ cols_nodup m) :
    (discover_column m s i j).side = s ∧ cols_nodup (discover_column m s i j) := by
  unfold discover_column
  cases matrix_get m i j with
  | none => exact h
  | some da =>
    dsimp only
    apply foldl_preserves (fun m => m.side = s ∧ cols_nodup m) _ _ _ m h
    intro m1 k _ hq
    split_ifs
    · exact hq
    · obtain ⟨q1, q2⟩ := hq
      refine ⟨by rw [process_alive_side, q1], ?_⟩
      have := cols_nodup_process_alive m1 i j k (by rw [q1]; exact hi) (by rw [q1]; exact hj) q2
      rw [q1] at this
      exact this

theorem discovery_pass_keeps (m : Matrix) (h : cols_nodup m) :
    (discovery_pass m m.side).side = m.side ∧ cols_nodup (discovery_pass m m.side) := by
  unfold discovery_pass
  apply foldl_preserves (fun m1 => m1.side = m.side ∧ cols_nodup m1) _ _ _ m ⟨rfl, h⟩
  intro m1 i hi hq
  apply foldl_preserves (fun m1 => m1.side = m.side ∧ cols_nodup m1) _ _ _ m1 hq
  intro m2 j hj hq2
  exact discover_column_keeps m.side m2 _ _ (in_side_of_lt_toNat _ _ (List.mem_range.mp hi))
    (in_side_of_lt_toNat _ _ (List.mem_range.mp hj)) hq2

/-- One generation from a grid with unique depths: every record left is live
and depths are unique again. -/
theorem generation_keeps (m : Matrix) (h : cols_nodup m) :
    (generation m).side = m.side ∧ all_live (generation m) ∧ cols_nodup (generation m) := by
  obtain ⟨hs, hn1⟩ := discovery_pass_keeps m h
  obtain ⟨c1, c2⟩ := commit_pass_effect (discovery_pass m m.side) hn1
  rw [generation_eq m hs]
  have hgs : (commit_pass (discovery_pass m m.side) (discovery_pass m m.side).side).side =
      m.side := by rw [c1, hs]
  refine ⟨hgs, ?_, ?_⟩
  · intro x y hx hy nd hnd
    rw [c1] at hx hy
    rw [(c2 x y hx hy).mem_iff, List.mem_map] at hnd
    obtain ⟨nd0, _, rfl⟩ := hnd
    rfl
  · intro x y hx hy
    rw [c1] at hx hy
    rw [column_depths_eq_map]
    have hp := (c2 x y hx hy).map (fun nd : node => nd.z)
    rw [hp.nodup_iff, List.map_map]
    have hsub : (((col_records (discovery_pass m m.side) x y).filter survives).map
        ((fun nd : node => nd.z) ∘ revive)).Sublist
        ((col_records (discovery_pass m m.side) x y).map (fun nd => nd.z)) :=
      (List.filter_sublist _).map _
    apply List.Nodup.sublist hsub
    rw [← column_depths_eq_map]
    exact hn1 x y hx hy

theorem run_generations_keeps (n : Nat) (m : Matrix) (hl : all_live m) (h : cols_nodup m) :
    all_live (run_generations n m) ∧ cols_nodup (run_generations n m) := by
  induction n generalizing m with
  | zero => exact ⟨hl, h⟩
  | succ n ih =>
    obtain ⟨_, g1, g2⟩ := generation_keeps m h
    exact ih (generation m) g1 g2

end Life3d

namespace Life3d

/-! ## The branches of `pos_mod` against the remainder formula -/

theorem tmod_neg_left (a b : Int) : Int.tmod (-a) b = -Int.tmod a b := by
  rw [Int.tmod_def, Int.tmod_def, Int.neg_tdiv]
  ring

theorem tmod_bounds (a b : Int) (hb : 1 ≤ b) : -b < Int.tmod a b ∧ Int.tmod a b < b := by
  refine ⟨?_, Int.tmod_lt_of_pos a (by omega)⟩
  by_cases ha : 0 ≤ a
  · have := Int.tmod_nonneg b ha
    omega
  · have h1 := Int.tmod_lt_of_pos (-a) (by omega : 0 < b)
    rw [tmod_neg_left] at h1
    omega

theorem tmod_of_neg_small (a b : Int) (h0 : -b < a) (h1 : a ≤ 0) : Int.tmod a b = a := by
  have h := Int.tmod_eq_of_lt (by omega : 0 ≤ -a) (by omega : -a < b)
  rw [tmod_neg_left] at h
  omega

theorem tmod_add_self_small (a b : Int) (h0 : 0 ≤ a) (h1 : a < b) : Int.tmod (a + b) b = a := by
  rw [Int.tmod_eq_emod (by omega) (by omega), Int.add_emod_self, Int.emod_eq_of_lt h0 h1]

theorem pos_mod_remainder_range (val mod : Int) (hm : 1 ≤ mod) :
    0 ≤ pos_mod_remainder val mod ∧ pos_mod_remainder val mod < mod := by
  unfold pos_mod_remainder
  obtain ⟨h1, h2⟩ := tmod_bounds val mod hm
  exact ⟨Int.tmod_nonneg mod (by omega), Int.tmod_lt_of_pos _ (by omega)⟩

theorem pos_mod_eq_remainder (val mod : Int) (hlo : -mod ≤ val)
    (hhi : val < 2 * mod) : pos_mod val mod = pos_mod_remainder val mod := by
  unfold pos_mod pos_mod_remainder
  by_cases h1 : val ≥ mod
  · rw [if_pos h1]
    have e1 : Int.tmod val mod = val - mod := by
      have : val = (val - mod) + mod := by ring
      rw [this, tmod_add_self_small (val - mod) mod (by omega) (by omega)]
      ring
    rw [e1, tmod_add_self_small (val - mod) mod (by omega) (by omega)]
  · rw [if_neg h1]
    by_cases h2 : val < 0
    · rw [if_pos h2]
      by_cases h3 : val = -mod
      · subst h3
        rw [tmod_neg_left, Int.tmod_self]
        simp
      · have e1 : Int.tmod val mod = val := tmod_of_neg_small val mod (by omega) (by omega)
        have e2 : Int.tmod (val + mod) mod = val + mod :=
          Int.tmod_eq_of_lt (by omega) (by omega)
        rw [e1, e2]
    · have e1 : Int.tmod val mod = val := Int.tmod_eq_of_lt (by omega) (by omega)
      rw [if_neg h2, e1, tmod_add_self_small val mod (by omega) (by omega)]

/-- C21: for `mod ≥ 1` and `-mod ≤ val < 2 * mod` the branch-based `pos_mod`
returns `((val % mod) + mod) % mod` (C's truncating `%`), a value of
`[0, mod)`; outside that range of `val` the two differ. -/
theorem C21_pos_mod_matches_remainder (val mod : Int) (hm : 1 ≤ mod) :
    (-mod ≤ val → val < 2 * mod →
      pos_mod val mod = pos_mod_remainder val mod ∧
      0 ≤ pos_mod val mod ∧ pos_mod val mod < mod) ∧
    (pos_mod val mod = pos_mod_remainder val mod → -mod ≤ val ∧ val < 2 * mod) := by
  obtain ⟨r1, r2⟩ := pos_mod_remainder_range val mod hm
  constructor
  · intro hlo hhi
    have h := pos_mod_eq_remainder val mod hlo hhi
    rw [h]
    exact ⟨rfl, r1, r2⟩
  · intro h
    rw [← h] at r1 r2
    unfold pos_mod at r1 r2
    split_ifs at r1 r2 <;> omega

theorem C21_pos_mod_matches_remainder_witness :
    pos_mod (-3) 3 = pos_mod_remainder (-3) 3 ∧ pos_mod 5 3 = pos_mod_remainder 5 3 ∧
    pos_mod (-1) 3 = 2 ∧ pos_mod_remainder (-1) 3 = 2 ∧
    pos_mod 6 3 ≠ pos_mod_remainder 6 3 :=
  ⟨((C21_pos_mod_matches_remainder (-3) 3 (by decide)).1 (by decide) (by decide)).1,
    ((C21_pos_mod_matches_remainder 5 3 (by decide)).1 (by decide) (by decide)).1,
    by decide, by decide, by decide⟩

end Life3d

namespace Life3d

/-! ## Commit pass: one column through the whole pass -/

/-- One step of the commit loop on column `(i, j)` leaves the side and every
other column as they are, whatever the column holds. -/
theorem commit_step_frame (m : Matrix) (i j : Int) (k : Nat) (hi : in_side m.side i) :
    (commit_step m i j k).side = m.side ∧
    ∀ x1 y1, in_side m.side x1 → ¬ (x1 = i ∧ y1 = j) →
      matrix_get (commit_step m i j k) x1 y1 = matrix_get m x1 y1 := by
  unfold commit_step
  dsimp only
  split_ifs
  · exact ⟨ptr_write_side _ _ _, fun x1 y1 hx1 hne => matrix_get_ptr_write_other m i j k _ x1 y1 hi hx1 hne⟩
  · exact ⟨matrix_remove_side _ _ _ _, fun x1 y1 hx1 hne => matrix_get_remove_other m i j _ x1 y1 hi hx1 hne⟩
  · exact ⟨matrix_remove_side _ _ _ _, fun x1 y1 hx1 hne => matrix_get_remove_other m i j _ x1 y1 hi hx1 hne⟩
  · exact ⟨rfl, fun _ _ _ _ => rfl⟩

/-- The commit loop of column `(i, j)` leaves the side and every other column as
they are. -/
theorem commit_column_frame (m : Matrix) (i j : Int) (hi : in_side m.side i) :
    (commit_column m i j).side = m.side ∧
    ∀ x1 y1, in_side m.side x1 → ¬ (x1 = i ∧ y1 = j) →
      matrix_get (commit_column m i j) x1 y1 = matrix_get m x1 y1 := by
  unfold commit_column
  cases matrix_get m i j with
  | none => exact ⟨rfl, fun _ _ _ _ => rfl⟩
  | some da =>
    dsimp only
    apply foldl_preserves
      (fun m1 => m1.side = m.side ∧
        ∀ x1 y1, in_side m.side x1 → ¬ (x1 = i ∧ y1 = j) →
          matrix_get m1 x1 y1 = matrix_get m x1 y1) _ _ _ m ⟨rfl, fun _ _ _ _ => rfl⟩
    intro m1 k _ hq
    obtain ⟨q1, q2⟩ := hq
    obtain ⟨f1, f2⟩ := commit_step_frame m1 i j k (by rw [q1]; exact hi)
    refine ⟨by rw [f1, q1], fun x1 y1 hx1 hne => ?_⟩
    rw [f2 x1 y1 (by rw [q1]; exact hx1) hne]
    exact q2 x1 y1 hx1 hne

theorem CInvAt_congr (m0 m : Matrix) (i0 j0 : Int) (done done1 : Prop)
    (h : CInvAt m0 m i0 j0 done) (heq : done ↔ done1) : CInvAt m0 m i0 j0 done1 := by
  rw [← propext heq]
  exact h

theorem CInvAt_commit_column (m0 m : Matrix) (i0 j0 : Int) (done : Prop)
    (h : CInvAt m0 m i0 j0 done) (hi0 : in_side m0.side i0)
    (hnd : (column_depths m0 i0 j0).Nodup) (i j : Int) (hi : in_side m0.side i)
    (hnot : i = i0 ∧ j = j0 → ¬ done) :
    CInvAt m0 (commit_column m i j) i0 j0 (done ∨ (i = i0 ∧ j = j0)) := by
  obtain ⟨hs, hdone, hkeep⟩ := h
  obtain ⟨f1, f2⟩ := commit_column_frame m i j (by rw [hs]; exact hi)
  by_cases hc : i = i0 ∧ j = j0
  · obtain ⟨rfl, rfl⟩ := hc
    have hget : matrix_get m i j = matrix_get m0 i j := hkeep (hnot ⟨rfl, rfl⟩)
    have hnd1 : (column_depths m i j).Nodup := by
      unfold column_depths
      rw [hget]
      exact hnd
    obtain ⟨_, _, hperm⟩ := commit_column_effect m i j (by rw [hs]; exact hi) hnd1
    have hrec : col_records m i j = col_records m0 i j := by
      unfold col_records
      rw [hget]
    refine ⟨by rw [f1, hs], fun _ => ?_, fun hn => absurd (Or.inr ⟨rfl, rfl⟩) hn⟩
    rw [← hrec]
    exact hperm
  · have hget : matrix_get (commit_column m i j) i0 j0 = matrix_get m i0 j0 :=
      f2 i0 j0 (by rw [hs]; exact hi0) (fun hh => hc ⟨hh.1.symm, hh.2.symm⟩)
    have hrec : col_records (commit_column m i j) i0 j0 = col_records m i0 j0 := by
      unfold col_records
      rw [hget]
    refine ⟨by rw [f1, hs], fun hd => ?_, fun hn => ?_⟩
    · rw [hrec]
      rcases hd with hd | hd
      · exact hdone hd
      · exact absurd hd hc
    · rw [hget]
      exact hkeep (fun hd => hn (Or.inl hd))

theorem CInvAt_row (m0 : Matrix) (i0 j0 : Int) (hi0 : in_side m0.side i0)
    (hj0 : in_side m0.side j0) (hnd : (column_depths m0 i0 j0).Nodup)
    (i : Nat) (hi : i < m0.side.toNat) (m : Matrix)
    (h : CInvAt m0 m i0 j0 (i0 < (i : Int))) (n : Nat) (hn : n ≤ m0.side.toNat) :
    CInvAt m0
      ((List.range n).foldl (fun m (j : Nat) => commit_column m (i : Int) (j : Int)) m)
      i0 j0 (i0 < (i : Int) ∨ (i0 = (i : Int) ∧ j0 < (n : Int))) := by
  unfold in_side at hj0
  induction n with
  | zero =>
    apply CInvAt_congr m0 m i0 j0 _ _ h
    constructor
    · intro hx; exact Or.inl hx
    · rintro (hx | ⟨_, hy1⟩)
      · exact hx
      · simp at hy1; omega
  | succ n ih =>
    rw [List.range_succ, List.foldl_append]
    simp only [List.foldl_cons, List.foldl_nil]
    have hstep := CInvAt_commit_column m0 _ i0 j0 _ (ih (by omega)) hi0 hnd (i : Int) (n : Int)
      (in_side_of_lt_toNat _ _ hi)
      (by
        rintro ⟨h1, h2⟩ (hx | ⟨_, hy⟩)
        · omega
        · omega)
    apply CInvAt_congr m0 _ i0 j0 _ _ hstep
    push_cast
    constructor
    · rintro ((hx | ⟨hx, hy⟩) | ⟨hx, hy⟩)
      · exact Or.inl hx
      · exact Or.inr ⟨hx, by omega⟩
      · exact Or.inr ⟨hx.symm, by omega⟩
    · rintro (hx | ⟨hx, hy⟩)
      · exact Or.inl (Or.inl hx)
      · by_cases hyn : j0 = (n : Int)
        · exact Or.inr ⟨hx.symm, hyn.symm⟩
        · exact Or.inl (Or.inr ⟨hx, by omega⟩)

theorem CInvAt_rows (m0 : Matrix) (i0 j0 : Int) (hi0 : in_side m0.side i0)
    (hj0 : in_side m0.side j0) (hnd : (column_depths m0 i0 j0).Nodup)
    (n : Nat) (hn : n ≤ m0.side.toNat) :
    CInvAt m0
      ((List.range n).foldl
        (fun m (i : Nat) =>
          (List.range m0.side.toNat).foldl
            (fun m (j : Nat) => commit_column m (i : Int) (j : Int)) m) m0)
      i0 j0 (i0 < (n : Int)) := by
  induction n with
  | zero =>
    refine ⟨rfl, fun hd => ?_, fun _ => rfl⟩
    unfold in_side at hi0
    simp at hd
    omega
  | succ n ih =>
    rw [List.range_succ, List.foldl_append]
    simp only [List.foldl_cons, List.foldl_nil]
    have hrow := CInvAt_row m0 i0 j0 hi0 hj0 hnd n (by omega) _ (ih (by omega))
      m0.side.toNat (le_refl _)
    apply CInvAt_congr m0 _ i0 j0 _ _ hrow
    unfold in_side at hj0
    push_cast
    constructor
    · rintro (hx | ⟨hx, _⟩) <;> omega
    · intro hx
      by_cases hxn : i0 = (n : Int)
      · exact Or.inr ⟨hxn, by omega⟩
      · exact Or.inl (by omega)

/-- The commit pass on a column with unique depths, whatever the other columns
hold: the column ends with, as a multiset, its records that satisfy the rule,
each marked live. -/
theorem commit_pass_column (m : Matrix) (i j : Int) (hi : in_side m.side i)
    (hj : in_side m.side j) (hnd : (column_depths m i j).Nodup) :
    (commit_pass m m.side).side = m.side ∧
    (col_records (commit_pass m m.side) i j).Perm
      (((col_records m i j).filter survives).map revive) := by
  have h := CInvAt_rows m i j hi hj hnd m.side.toNat (le_refl _)
  refine ⟨h.1, h.2.1 ?_⟩
  unfold in_side at hi
  omega

/-- C4: the commit pass over the whole grid, with its reverse loops and
swap-with-last removals, applies the rule to every record of a column with
unique depths exactly once: the column is left with exactly (as a multiset)
its records that were dead-but-tracked with count 2 or 3, now marked live, and
its records that were live with count between 2 and 4, unchanged; every other
record of the column is gone. -/
theorem C4_commit_applies_rule_once (m : Matrix) (i j : Int) (hi : in_side m.side i)
    (hj : in_side m.side j) (hnd : (column_depths m i j).Nodup) :
    (col_records (commit_pass m m.side) i j).Perm
      (((col_records m i j).filter survives).map revive) ∧
    (∀ nd, nd ∈ col_records (commit_pass m m.side) i j ↔
      ∃ nd0, nd0 ∈ col_records m i j ∧
        ((nd0.is_dead = true ∧ (nd0.num_neighbours = 2 ∨ nd0.num_neighbours = 3) ∧
            nd = { nd0 with is_dead := false }) ∨
          (nd0.is_dead = false ∧ 2 ≤ nd0.num_neighbours ∧ nd0.num_neighbours ≤ 4 ∧
            nd = nd0))) ∧
    (col_records (commit_pass m m.side) i j).length =
      ((col_records m i j).filter survives).length := by
  obtain ⟨_, hperm⟩ := commit_pass_column m i j hi hj hnd
  refine ⟨hperm, survivors_mem_iff _ _ hperm, ?_⟩
  rw [hperm.length_eq, List.length_map]

theorem C4_commit_applies_rule_once_witness :
    col_records
        (matrix_insert (matrix_insert (matrix_insert (matrix_insert (matrix_insert
          (make_matrix 2) 0 0 0 true 2) 0 0 1 false 5) 0 0 2 false 3) 1 0 5 true 0) 1 0 5 true 0)
        0 0 =
      [⟨0, 2, true⟩, ⟨1, 5, false⟩, ⟨2, 3, false⟩] ∧
    (col_records
        (commit_pass
          (matrix_insert (matrix_insert (matrix_insert (matrix_insert (matrix_insert
            (make_matrix 2) 0 0 0 true 2) 0 0 1 false 5) 0 0 2 false 3) 1 0 5 true 0) 1 0 5 true 0)
          2) 0 0).Perm
      [⟨0, 2, false⟩, ⟨2, 3, false⟩] :=
  ⟨by decide,
    (C4_commit_applies_rule_once
      (matrix_insert (matrix_insert (matrix_insert (matrix_insert (matrix_insert
        (make_matrix 2) 0 0 0 true 2) 0 0 1 false 5) 0 0 2 false 3) 1 0 5 true 0) 1 0 5 true 0)
      0 0 ⟨by decide, by decide⟩ ⟨by decide, by decide⟩ (by decide)).1⟩

end Life3d

namespace Life3d

/-! ## Depths for which the `short` conversion of `z + 1` and `z - 1` is exact -/

end Life3d
